import Mathlib

/-!
Verification of the Document Segmentation & Chunking Engine of the
`llm-migrator` repository.

Shallow embedding conventions:
* JavaScript strings are modelled as `List Char` (`Str`), so that structural
  induction over the characters is available.  String literals of the source
  appear as `"…".data`.
* JavaScript numbers that are in fact integers (word counts, indices) are
  modelled as `Nat`; the only float expression in the chunker,
  `targetWords * 1.2` with `targetWords = 400`, evaluates to exactly `480.0`
  in IEEE double arithmetic (the rounding error of `400 * 1.2` is below half
  an ulp of `480`), so it is modelled as the `Nat` literal `480`.
* Strategy confidences are compared as rationals (`ℚ`); all confidence
  constants of the source (`0.3, 0.4, 0.5, 0.7, 0.8, 0.9`) and the
  consistency-ratio comparisons are exactly representable / decided the same
  way in `ℚ` as in IEEE doubles for the integer operand sizes that occur.
* `Date`-typed fields (`createdAt`) are wall-clock effects and are omitted
  from the `Chunk` record; no claim mentions them.

Sources embedded below:
* `src/classes/wordChunker.ts` (`WordChunker`): `_chunkByParagraphsAndTables`,
  `_createChunk`, `_countWords`, `_removeImgTagsFromText`,
  `_normalizeSignatureLines`, `_extractTextFromCell`.
  `src/classes/pdfChunker.ts` (`BaseChunker`) contains a character-identical
  copy of the chunking trio, so the embedding covers both.
* `src/unnamed/part_005` (`WordChunker`): `_identifySections`,
  `_applyLetterStrategy`, `_applyNumberStrategy`.
-/

namespace Migrator

/-- JavaScript strings, modelled as lists of characters. -/
abbrev Str := List Char

/-- Whitespace predicate modelling the JS regex class `\s`. -/
def ws (c : Char) : Bool := c.isWhitespace

/-- The newline character, the separator the chunker splits on. -/
def nlChar : Char := '\n'

/-- Model of JavaScript `String.prototype.trim()`: remove leading and
trailing whitespace. -/
def jsTrim (s : Str) : Str :=
  ((s.dropWhile ws).reverse.dropWhile ws).reverse

/-- Model of `section.trim().startsWith("|")` — the table test used
throughout `_chunkByParagraphsAndTables` and `_createChunk`. -/
def isTableSection (s : Str) : Bool :=
  match jsTrim s with
  | '|' :: _ => true
  | _ => false

/-- Helper for `countWords`: counts maximal runs of non-whitespace
characters; the boolean records whether the scan is currently inside such a
run. -/
def countWordsAux : Str → Bool → Nat
  | [], _ => 0
  | c :: cs, inWord =>
    if ws c then countWordsAux cs false
    else (if inWord then 0 else 1) + countWordsAux cs true

/-- Embedding of `_countWords`:
`text.split(/\s+/).filter(Boolean).length`, i.e. the number of maximal
whitespace-free runs (splitting on whitespace runs and discarding empty
tokens). -/
def countWords (s : Str) : Nat := countWordsAux s false

/-- Helper for `splitSections`: splits on maximal runs of at least two
newlines, the semantics of `text.split(/\n\n+/)`.  `acc` holds the current
section reversed; `nlRun` counts the newlines read immediately before the
current position and not yet assigned.  A pending run of `k ≥ 2` newlines
is a separator consumed whole (the regex `\n\n+` is greedy, and a
separator at the end of the input leaves a final empty field, as
`"a\n\n".split` does in JS); a lone newline stays inside the section. -/
def splitSectionsAux : Str → Str → Nat → List Str
  | [], acc, nlRun =>
    if 2 ≤ nlRun then [acc.reverse, []]
    else if nlRun = 1 then [(nlChar :: acc).reverse]
    else [acc.reverse]
  | c :: cs, acc, nlRun =>
    if c = nlChar then splitSectionsAux cs acc (nlRun + 1)
    else if 2 ≤ nlRun then acc.reverse :: splitSectionsAux cs [c] 0
    else if nlRun = 1 then splitSectionsAux cs (c :: nlChar :: acc) 0
    else splitSectionsAux cs (c :: acc) 0

/-- Embedding of `text.split(/\n\n+/)`. -/
def splitSections (s : Str) : List Str := splitSectionsAux s [] 0

/-- Embedding of
`text.split(/\n\n+/).filter((s) => s.trim().length > 0)` — the section list
the chunker works on. -/
def sectionsOf (s : Str) : List Str :=
  (splitSections s).filter (fun t => 0 < (jsTrim t).length)

/-- Embedding of `currentSections.join("\n\n")`. -/
def joinSections : List Str → Str
  | [] => []
  | [s] => s
  | s :: rest => s ++ nlChar :: nlChar :: joinSections rest

/-- `DocumentHeaderMetadata` of `src/types` — four extracted header
fields. -/
structure DocumentHeaderMetadata where
  documentTitle : Str
  documentNumber : Str
  effectiveDate : Str
  revision : Str
deriving Repr, DecidableEq

/-- The `Chunk` record of `src/types` as produced by `_createChunk`.
`createdAt : Date` is omitted (wall clock). -/
structure Chunk where
  id : Str
  text : Str
  documentTitle : Str
  documentNumber : Str
  effectiveDate : Str
  revision : Str
  chunkIndex : Nat
  wordCount : Nat
  contentType : Str
deriving Repr, DecidableEq

/-- Embedding of `_createChunk(content, index)`; `md` models
`this._documentMetadata` (which may be `null`). -/
def createChunk (md : Option DocumentHeaderMetadata) (content : Str) (index : Nat) : Chunk :=
  let isTable := isTableSection content
  { id := (match md with
           | some m => m.documentNumber
           | none => "doc".data) ++ "_chunk_".data ++ (Nat.repr index).data
    text := content
    documentTitle := (md.map (fun m => m.documentTitle)).getD []
    documentNumber := (md.map (fun m => m.documentNumber)).getD []
    effectiveDate := (md.map (fun m => m.effectiveDate)).getD []
    revision := (md.map (fun m => m.revision)).getD []
    chunkIndex := index
    wordCount := countWords content
    contentType := if isTable then "table".data else "text".data }

/-- `const targetWords = 400`. -/
def targetWords : Nat := 400

/-- `const overlapWords = 50`. -/
def overlapWords : Nat := 50

/-- `targetWords * 1.2`: the IEEE-double product `400 * 1.2` rounds to
exactly `480.0`, and it is only ever compared against integer word counts,
so the bound is the natural number `480`. -/
def hardCap : Nat := 480

/-- Result of the inner accumulation loop of `_chunkByParagraphsAndTables`:
the collected `currentSections`, the running `wordCount`, and the read
index `i` after the loop. -/
structure CollectOut where
  cur : List Str
  wc : Nat
  i : Nat
deriving Repr, DecidableEq

/-- Embedding of the inner `while (i < sections.length && wordCount <
targetWords)` loop of `_chunkByParagraphsAndTables` (wordChunker.ts lines
154–191).  Branches in source order: the `if (!section)` type guard (a JS
falsy test, i.e. `undefined` or the empty string), the unconditional first
push (closing immediately when that first section is a table), the
`wordCount + sectionWords > targetWords * 1.2` break, the table break, and
the ordinary push. -/
def collectGo (fuel : Nat) (sections : List Str) (i : Nat) (cur : List Str) (wc : Nat) :
    CollectOut :=
  match fuel with
  | 0 => ⟨cur, wc, i⟩
  | fuel + 1 =>
    if i < sections.length ∧ wc < targetWords then
      match sections[i]? with
      | none => collectGo fuel sections (i + 1) cur wc
      | some s =>
        if s = [] then collectGo fuel sections (i + 1) cur wc
        else if cur = [] then
          if isTableSection s then ⟨cur ++ [s], wc + countWords s, i + 1⟩
          else collectGo fuel sections (i + 1) (cur ++ [s]) (wc + countWords s)
        else if hardCap < wc + countWords s then ⟨cur, wc, i⟩
        else if isTableSection s then ⟨cur, wc, i⟩
        else collectGo fuel sections (i + 1) (cur ++ [s]) (wc + countWords s)
    else ⟨cur, wc, i⟩

/-- The inner loop itself: every recursive step of `collectGo` increments
the read index and is taken only while `i < sections.length`, so at most
`sections.length - i + 1` unfoldings can occur and the fuel
`sections.length + 1` is never exhausted (`collectGo_fuel` below makes the
fuel-irrelevance precise). -/
def collect (sections : List Str) (i : Nat) (cur : List Str) (wc : Nat) : CollectOut :=
  collectGo (sections.length + 1) sections i cur wc

/-- Embedding of the backtracking overlap loop (wordChunker.ts lines
203–216): counts backwards until `overlapCount` reaches `overlapWords` or
until `backtrackSteps` reaches `currentSections.length - 1`, returning the
final `backtrackSteps`.  The JS truthiness guard `if (overlapSection)`
skips both `undefined` (out of range) and the empty string. -/
def overlapStepsGo (fuel : Nat) (sections : List Str) (i : Nat) (curLen : Nat)
    (oc : Nat) (steps : Nat) : Nat :=
  match fuel with
  | 0 => steps
  | fuel + 1 =>
    if oc < overlapWords ∧ steps < curLen - 1 then
      match sections[i - (steps + 1)]? with
      | some s =>
        if s = [] then overlapStepsGo fuel sections i curLen oc (steps + 1)
        else overlapStepsGo fuel sections i curLen (oc + countWords s) (steps + 1)
      | none => overlapStepsGo fuel sections i curLen oc (steps + 1)
    else steps

/-- The backtracking loop itself: every recursive step increments `steps`
and is taken only while `steps < curLen - 1`, so the fuel `curLen + 1` is
never exhausted. -/
def overlapSteps (sections : List Str) (i : Nat) (curLen : Nat) (oc : Nat) (steps : Nat) :
    Nat :=
  overlapStepsGo (curLen + 1) sections i curLen oc steps

/-- One iteration of the outer `while (i < sections.length)` loop of
`_chunkByParagraphsAndTables`: build a chunk starting at read index `i`,
then rewind the read index for overlap unless the chunk ended on a table
block or the input is exhausted.  Returns the emitted chunk and the next
read index. -/
def chunkStep (md : Option DocumentHeaderMetadata) (sections : List Str) (i : Nat)
    (ci : Nat) : Chunk × Nat :=
  let out := collect sections i [] 0
  let content := joinSections out.cur
  let c := createChunk md content ci
  let lastWasTable :=
    match out.cur.getLast? with
    | some s => isTableSection s
    | none => false
  let i' :=
    if lastWasTable = false ∧ out.i < sections.length then
      out.i - overlapSteps sections out.i out.cur.length 0 0
    else out.i
  (c, i')

/-- The outer `while (i < sections.length)` loop of
`_chunkByParagraphsAndTables`: each iteration performs one `chunkStep`
(emit one chunk, then rewind for overlap) and recurses at the returned
read index with the next chunk index. -/
def chunkLoopGo (fuel : Nat) (md : Option DocumentHeaderMetadata) (sections : List Str)
    (i ci : Nat) : List Chunk :=
  match fuel with
  | 0 => []
  | fuel + 1 =>
    if i < sections.length then
      (chunkStep md sections i ci).1 ::
        chunkLoopGo fuel md sections (chunkStep md sections i ci).2 (ci + 1)
    else []

/-- The outer loop itself: by `chunkStep_progress` every iteration strictly
increases the read index, and iterations happen only while
`i < sections.length`, so at most `sections.length - i + 1` unfoldings can
occur and the fuel `sections.length + 1` is never exhausted
(`chunkLoopGo_fuel` below makes the fuel-irrelevance precise). -/
def chunkLoop (md : Option DocumentHeaderMetadata) (sections : List Str) (i ci : Nat) :
    List Chunk :=
  chunkLoopGo (sections.length + 1) md sections i ci

/-- Embedding of `_chunkByParagraphsAndTables(text)` (wordChunker.ts lines
139–224; character-identical copy in pdfChunker.ts `BaseChunker`). -/
def chunkByParagraphsAndTables (md : Option DocumentHeaderMetadata) (text : Str) :
    List Chunk :=
  chunkLoop md (sectionsOf text) 0 0

/-- The end-to-end example document of the specification (§8): one intro
paragraph, one markdown table block, one closing paragraph. -/
def exText : Str :=
  ("Intro paragraph one.\n\n| A | B |\n| --- | --- |\n| 1 | 2 |\n\nClosing paragraph.").data

/-- No two adjacent newlines (the defining property of the fields produced
by splitting on `\n\n+`); the relation is symmetric, which keeps reversed
accumulators easy to handle. -/
def NoNlPair (s : Str) : Prop :=
  List.Chain' (fun a b => ¬(a = nlChar ∧ b = nlChar)) s

/-- The string does not start with a newline. -/
def headNotNl (s : Str) : Prop := s.head? ≠ some nlChar

/-- The string does not end with a newline. -/
def lastNotNl (s : Str) : Prop := s.getLast? ≠ some nlChar

/-- The structural facts about a section list that make `joinSections` a
right inverse of `sectionsOf`: every section has nonempty trimmed content
and no doubled newline, no section but the first starts with a newline, and
no section but the last ends with one.  `sectionsOf` produces such lists
(`goodSections_sectionsOf`). -/
def GoodSections (sections : List Str) : Prop :=
  (∀ x ∈ sections, jsTrim x ≠ []) ∧
  (∀ x ∈ sections, NoNlPair x) ∧
  (∀ x ∈ sections.drop 1, headNotNl x) ∧
  (∀ x ∈ sections.dropLast, lastNotNl x)

/-- A 479-word paragraph (479 repetitions of `"a "`). -/
def bigPara : Str := (List.range 479).flatMap (fun _ => ['a', ' '])

/-- Counterexample input for claim C1: a ten-word paragraph followed by a
479-word paragraph.  The first chunk is the first paragraph alone (adding
the second would exceed 480 words), and a one-section chunk produces no
overlap, so the second chunk shares nothing with the first. -/
def cexText : Str :=
  ("one two three four five six seven eight nine ten").data ++
    nlChar :: nlChar :: bigPara

/-- Witness input for the amended claim C1: two one-word paragraphs and a
479-word paragraph.  The first chunk is the first two paragraphs, the
overlap rewinds one section, and the second chunk starts with the second
paragraph. -/
def awText : Str :=
  ("alpha").data ++ nlChar :: nlChar :: ("beta").data ++ nlChar :: nlChar :: bigPara

/-- The `heading` part of a `Section` of `src/types`: strategy tag and
detected marker (the source marks `marker` optional, but both strategies
always set it). -/
structure SectionHeading where
  type : Str
  marker : Str
deriving Repr, DecidableEq

/-- The `Section` record of `src/types` (named `DocSection` here because
`section` is a Lean keyword). -/
structure DocSection where
  sectionTitle : Str
  content : Str
  heading : SectionHeading
deriving Repr, DecidableEq

/-- The `SectionResult` record of `src/types`; `confidence` is an exact
rational standing for the JS float (all constants match exactly, see the
header note). -/
structure SectionResult where
  strategy : Str
  sections : List DocSection
  confidence : ℚ
deriving Repr, DecidableEq

/-- Case-sensitive literal prefix test. -/
def isLitPrefix : Str → Str → Bool
  | [], _ => true
  | _ :: _, [] => false
  | p :: ps, c :: cs => p = c && isLitPrefix ps cs

/-- Case-insensitive literal prefix test, the `/i` flag on a literal. -/
def matchesCI : Str → Str → Bool
  | [], _ => true
  | _ :: _, [] => false
  | p :: ps, c :: cs => p.toLower = c.toLower && matchesCI ps cs

/-- Split at the first case-insensitive occurrence of `pat`: the text
before the occurrence and the text after it (lazy-quantifier capture up to
the first occurrence). -/
def splitFirstCI (pat : Str) : Str → Option (Str × Str)
  | [] => if matchesCI pat [] then some ([], []) else none
  | c :: t =>
    if matchesCI pat (c :: t) then some ([], (c :: t).drop pat.length)
    else match splitFirstCI pat t with
      | some (a, b) => some (c :: a, b)
      | none => none

/-- The capture of the first match of `/<ol>([\s\S]*?)<\/ol>/gi`
(`olMatches[0][1]` of `_applyLetterStrategy`). -/
def firstOlCapture (html : Str) : Option Str :=
  match splitFirstCI ("<ol>").data html with
  | none => none
  | some (_, rest) =>
    match splitFirstCI ("</ol>").data rest with
    | none => none
    | some (before, _) => some before

/-- One attempted match of
`/<li>\s*<strong>([^<]+)<\/strong>([\s\S]*?)<\/li>/gi` at the current
position: matches the literals case-insensitively, `\s*` and `[^<]+`
greedily (both are forced — the following literal starts with a character
outside the class), and the lazy middle capture up to the first `</li>`.
Returns both captures and the remainder after the match. -/
def liMatchAt (s : Str) : Option (Str × Str × Str) :=
  if matchesCI ("<li>").data s then
    let r1 := (s.drop 4).dropWhile ws
    if matchesCI ("<strong>").data r1 then
      let r2 := r1.drop 8
      let cap1 := r2.takeWhile (fun c => c ≠ '<')
      if cap1.length = 0 then none
      else
        let r3 := r2.drop cap1.length
        if matchesCI ("</strong>").data r3 then
          match splitFirstCI ("</li>").data (r3.drop 9) with
          | some (cap2, rest) => some (cap1, cap2, rest)
          | none => none
        else none
    else none
  else none

/-- `matchAll` of the list-item regex: try a match at every position,
non-overlapping, resuming after each match.  Fuelled with the input length
(every step consumes at least one character). -/
def liMatchAllGo (fuel : Nat) : Str → List (Str × Str) :=
  match fuel with
  | 0 => fun _ => []
  | fuel + 1 => fun s =>
    match s with
    | [] => []
    | _ :: t =>
      match liMatchAt s with
      | some (c1, c2, rest) => (c1, c2) :: liMatchAllGo fuel rest
      | none => liMatchAllGo fuel t

/-- `[...mainList.matchAll(liRegex)]` of `_applyLetterStrategy`. -/
def liMatchAll (s : Str) : List (Str × Str) := liMatchAllGo (s.length + 1) s

/-- The test `/^\d+(\.\d+)?\s/.test(strongContent)` of
`_applyLetterStrategy` (`\d` is ASCII digits; the optional `.digits` group
is forced whenever a dot follows the integer part, since `.` is neither a
digit nor whitespace). -/
def numTitleTest (t : Str) : Bool :=
  let ds := t.takeWhile Char.isDigit
  if ds.length = 0 then false
  else
    match t.drop ds.length with
    | '.' :: r2 =>
      let ds2 := r2.takeWhile Char.isDigit
      if ds2.length = 0 then false
      else
        match r2.drop ds2.length with
        | c :: _ => ws c
        | [] => false
    | c :: _ => ws c
    | [] => false

/-- `match[1].trim().replace(/\.$/, "")`: remove one trailing period. -/
def stripTrailingDot (t : Str) : Str :=
  match t.getLast? with
  | some '.' => t.dropLast
  | _ => t

/-- Count non-overlapping case-sensitive occurrences of `pat`
(`(mainList.match(/<li>/g) || []).length` — note this count, unlike the
item matcher, is case-sensitive in the source).  Fuelled like the
matchers. -/
def countOccurGo (pat : Str) (fuel : Nat) : Str → Nat :=
  match fuel with
  | 0 => fun _ => 0
  | fuel + 1 => fun s =>
    match s with
    | [] => 0
    | _ :: t =>
      if isLitPrefix pat s then 1 + countOccurGo pat fuel (s.drop pat.length)
      else countOccurGo pat fuel t

def countOccur (pat s : Str) : Nat := countOccurGo pat (s.length + 1) s

/-- JS division-compare `a / b > q` on counts: division by zero gives
`Infinity` (greater than any threshold) for a positive numerator and `NaN`
(all comparisons false) for `0 / 0`; otherwise the float compare agrees
with the exact rational compare for the operand sizes that occur. -/
def jsDivGT (a b : Nat) (q : ℚ) : Bool :=
  if b = 0 then decide (a ≠ 0)
  else decide (q < mkRat a b)

/-- Embedding of `_applyLetterStrategy` (part_005 lines 230–318): find the
first `<ol>` block, collect `<li><strong>…</strong>…</li>` items, bail out
to a zero result when there is no list, no items, or a numbered-looking
title; otherwise assign positional letter markers and score by item count
and consistency with the case-sensitive `<li>` count. -/
def applyLetterStrategy (html : Str) : SectionResult :=
  match firstOlCapture html with
  | none => ⟨("lettered").data, [], 0⟩
  | some mainList =>
    if mainList = [] then ⟨("lettered").data, [], 0⟩
    else
      let liMatches := liMatchAll mainList
      if liMatches.length = 0 then ⟨("lettered").data, [], 0⟩
      else if liMatches.any (fun m => numTitleTest m.1) then ⟨("lettered").data, [], 0⟩
      else
        let sections : List DocSection := liMatches.enum.map (fun im =>
          { sectionTitle := stripTrailingDot (jsTrim im.2.1)
            content := jsTrim im.2.2
            heading := { type := ("lettered").data, marker := [Char.ofNat (65 + im.1)] } })
        let totalLiItems := countOccur ("<li>").data mainList
        let strongLiItems := liMatches.length
        let confidence : ℚ :=
          if 5 ≤ sections.length ∧ jsDivGT strongLiItems totalLiItems (mkRat 4 5) then mkRat 9 10
          else if 3 ≤ sections.length ∧ jsDivGT strongLiItems totalLiItems (mkRat 7 10) then mkRat 7 10
          else if 2 ≤ sections.length ∧ jsDivGT strongLiItems totalLiItems (mkRat 3 5) then mkRat 1 2
          else if 1 ≤ sections.length then mkRat 3 10
          else 0
        ⟨("lettered").data, sections, confidence⟩

/-- First fallible result over a list of candidates (lazy-quantifier
expansion order of `.*?`). -/
def firstSome {β : Type} (f : Str → Option β) : List Str → Option β
  | [] => none
  | x :: xs =>
    match f x with
    | some r => some r
    | none => firstSome f xs

/-- The suffixes following each case-insensitive `</a>` reachable without
crossing a newline (the `.*?` of the optional anchor group matches no
newline), in left-to-right (lazy) order. -/
def aCloseCandidates : Str → List Str
  | [] => []
  | c :: t =>
    if matchesCI ("</a>").data (c :: t) then ((c :: t).drop 4) :: aCloseCandidates t
    else if c = nlChar then []
    else aCloseCandidates t

/-- The `(\d+(?:\.\d+)?)\s+([^<]+)<\/h1>` tail of the heading regex at
a given position: integer marker with forced optional decimal part, then
whitespace, then the title run up to `<`, which must start `</h1>`.  When
the whitespace run reaches the `<` directly, the regex backtracks one
whitespace character into the title (`\s+` keeps at least one).  Returns
marker, raw title and the remainder after `</h1>`. -/
def digitsPart (u : Str) : Option (Str × Str × Str) :=
  let ds := u.takeWhile Char.isDigit
  if ds.length = 0 then none
  else
    let afterInt := u.drop ds.length
    let mk2 :=
      match afterInt with
      | '.' :: v =>
        let ds2 := v.takeWhile Char.isDigit
        if ds2.length = 0 then none
        else some (ds ++ '.' :: ds2, v.drop ds2.length)
      | _ => some (ds, afterInt)
    match mk2 with
    | none => none
    | some (marker, u3) =>
      let wsRun := u3.takeWhile ws
      if wsRun.length = 0 then none
      else
        let afterWs := u3.drop wsRun.length
        let title := afterWs.takeWhile (fun c => c ≠ '<')
        if title.length = 0 then
          if 2 ≤ wsRun.length ∧ matchesCI ("</h1>").data afterWs then
            match wsRun.getLast? with
            | some w => some (marker, [w], afterWs.drop 5)
            | none => none
          else none
        else
          let rest := afterWs.drop title.length
          if matchesCI ("</h1>").data rest then some (marker, title, rest.drop 5)
          else none

/-- One attempted match of
`/<h1[^>]*>(?:<a[^>]*>.*?<\/a>)?(\d+(?:\.\d+)?)\s+([^<]+)<\/h1>/gi` at
the current position: the greedy optional anchor group is tried first with
its lazy body expanding to successive `</a>` occurrences, then the
group-absent alternative. -/
def h1MatchAt (s : Str) : Option (Str × Str × Str) :=
  if matchesCI ("<h1").data s then
    let r0 := s.drop 3
    let attrs := r0.takeWhile (fun c => c ≠ '>')
    match r0.drop attrs.length with
    | '>' :: r1 =>
      let fromA :=
        if matchesCI ("<a").data r1 then
          let ra := r1.drop 2
          let attrs2 := ra.takeWhile (fun c => c ≠ '>')
          match ra.drop attrs2.length with
          | '>' :: r2 => firstSome digitsPart (aCloseCandidates r2)
          | _ => none
        else none
      match fromA with
      | some res => some res
      | none => digitsPart r1
    | _ => none
  else none

/-- `matchAll` of the heading regex, fuelled like the other matchers. -/
def h1MatchAllGo (fuel : Nat) : Str → List (Str × Str) :=
  match fuel with
  | 0 => fun _ => []
  | fuel + 1 => fun s =>
    match s with
    | [] => []
    | _ :: t =>
      match h1MatchAt s with
      | some (mk, ti, rest) => (mk, ti) :: h1MatchAllGo fuel rest
      | none => h1MatchAllGo fuel t

def h1MatchAll (s : Str) : List (Str × Str) := h1MatchAllGo (s.length + 1) s

/-- The first case-insensitive `</h1>` reachable without crossing a newline
(the split pattern also uses `.*?`); returns the suffix after it. -/
def firstCloseH1NoNl : Str → Option Str
  | [] => none
  | c :: t =>
    if matchesCI ("</h1>").data (c :: t) then some ((c :: t).drop 5)
    else if c = nlChar then none
    else firstCloseH1NoNl t

/-- One attempted match of the splitting regex `/<h1[^>]*>.*?<\/h1>/gi`
at the current position; returns the remainder after the match. -/
def h1SplitAt (s : Str) : Option Str :=
  if matchesCI ("<h1").data s then
    let r0 := s.drop 3
    let attrs := r0.takeWhile (fun c => c ≠ '>')
    match r0.drop attrs.length with
    | '>' :: r1 => firstCloseH1NoNl r1
    | _ => none
  else none

/-- `html.split(/<h1[^>]*>.*?<\/h1>/gi)` of `_applyNumberStrategy`:
pieces between the non-overlapping leftmost matches, with empty leading,
middle and trailing pieces preserved as in JS. -/
def jsSplitByH1Go (fuel : Nat) : Str → Str → List Str :=
  match fuel with
  | 0 => fun s acc => [acc.reverse ++ s]
  | fuel + 1 => fun s acc =>
    match s with
    | [] => [acc.reverse]
    | c :: t =>
      match h1SplitAt s with
      | some rest => acc.reverse :: jsSplitByH1Go fuel rest []
      | none => jsSplitByH1Go fuel t (c :: acc)

def jsSplitByH1 (s : Str) : List Str := jsSplitByH1Go (s.length + 1) s []

/-- Embedding of `_applyNumberStrategy` (part_005 lines 323–373): match
numbered `<h1>` headings, pair each with the piece of the `<h1>`-split
after it (`parts[index + 1] || ""`), and score by heading count. -/
def applyNumberStrategy (html : Str) : SectionResult :=
  let found := h1MatchAll html
  if found.length = 0 then ⟨("numbered").data, [], 0⟩
  else
    let parts := jsSplitByH1 html
    let sections : List DocSection := found.enum.map (fun im =>
      { sectionTitle := jsTrim im.2.2
        content := jsTrim (parts.getD (im.1 + 1) [])
        heading := { type := ("numbered").data, marker := im.2.1 } })
    let confidence : ℚ :=
      if 5 ≤ sections.length then mkRat 9 10
      else if 3 ≤ sections.length then mkRat 7 10
      else if 1 ≤ sections.length then mkRat 2 5
      else 0
    ⟨("numbered").data, sections, confidence⟩

/-- Embedding of `_identifySections` (part_005 lines 209–228, identical
copy at lines 592–612): run both strategies, sort the two-element result
array by descending confidence — JS `Array.prototype.sort` is stable, so a
tie keeps the lettered result first — and take the head; the `?? fallback`
default only applies to an empty array and is therefore unreachable. -/
def identifySections (html : Str) : SectionResult :=
  let letterResult := applyLetterStrategy html
  let numberResult := applyNumberStrategy html
  let sorted :=
    if letterResult.confidence < numberResult.confidence then [numberResult, letterResult]
    else [letterResult, numberResult]
  match sorted.head? with
  | some r => r
  | none => ⟨("fallback").data, [], 0⟩

/-- A six-item `<ol>` document on which the lettered strategy scores 9/10
while the numbered strategy finds no headings. -/
def clsLetterHtml : Str :=
  ("<ol><li><strong>Purpose.</strong>text1</li><li><strong>Scope.</strong>text2</li><li><strong>Roles.</strong>text3</li><li><strong>Steps.</strong>text4</li><li><strong>Records.</strong>text5</li><li><strong>History.</strong>text6</li></ol>").data

/-- A three-heading `<h1>` document on which the numbered strategy scores
7/10 while the lettered strategy finds no list. -/
def clsNumberHtml : Str :=
  ("<h1>1.0 Purpose</h1><p>alpha</p><h1>2.0 Scope</h1><p>beta</p><h1>3.0 Roles</h1>x").data

/-- A parsed `w:t` value as produced by the XML parser with
`parseTagValue: true`: a string, a number (carried as its decimal
`String(...)` rendering, the only use the code makes of it), or an object
node whose optional `#text` entry holds the nested value. -/
inductive WtVal where
  | strv (s : Str)
  | numv (s : Str)
  | objv (text : Option WtVal)

/-- A `w:r` run inside the cell paragraph: `wt` is its `w:t` entry,
`none` when the property is undefined. -/
structure CellRun where
  wt : Option WtVal

/-- The `w:fldSimple` entry of the paragraph: `wr` is its `w:r` property
(`none` when absent or falsy), which in turn carries an optional `w:t`. -/
structure FldSimple where
  wr : Option (Option WtVal)

/-- The cell's `w:p` paragraph: the `w:r` entry (`none` when absent; the
code wraps a lone run object into a one-element array, so a list model
loses no generality) and the optional `w:fldSimple` entry. -/
structure CellPara where
  runs : Option (List CellRun)
  fld : Option FldSimple

/-- The `textContent` / `fieldText` selection of `_extractTextFromCell`:
a string or number value is used directly, an object contributes its
`#text` entry when defined, anything else is skipped; a selected value is
rendered by `String(...)` before being appended. -/
def runText : Option WtVal → Option Str
  | none => none
  | some (.strv s) => some s
  | some (.numv s) => some s
  | some (.objv none) => none
  | some (.objv (some (.strv s))) => some s
  | some (.objv (some (.numv s))) => some s
  | some (.objv (some (.objv _))) => some ("[object Object]").data

/-- The accumulated `text` of `_extractTextFromCell` before the final
cleanup: the regular `w:r` runs in order, then the `w:fldSimple` value. -/
def cellConcat (p : CellPara) : Str :=
  (match p.runs with
   | none => []
   | some rs => rs.foldl (fun acc r => acc ++ (runText r.wt).getD []) []) ++
  (match p.fld with
   | none => []
   | some f =>
     match f.wr with
     | none => []
     | some wt => (runText wt).getD [])

/-- The alternatives of the label-stripping regex of
`_extractTextFromCell`, in source order. -/
def headerLabels : List Str :=
  [("Procedure Title:").data, ("Number:").data, ("Effective:").data, ("Revision:").data]

/-- The final cleanup replace: remove the first alternative that matches
at the start of the text (case-insensitively) together with the greedy
whitespace run that follows it. -/
def stripLabel (s : Str) : Str :=
  match headerLabels.find? (fun l => matchesCI l s) with
  | some l => (s.drop l.length).dropWhile ws
  | none => s

/-- Embedding of `_extractTextFromCell` (wordChunker.ts lines 306–368):
concatenate the cell's text runs and field value, strip a leading header
label, trim. -/
def extractTextFromCell (p : CellPara) : Str :=
  jsTrim (stripLabel (cellConcat p))

/-- The spec's example cell: the two text runs
`"Procedure Title:"` and `" Software Change Control"`. -/
def exCell : CellPara :=
  { runs := some [⟨some (.strv ("Procedure Title:").data)⟩,
                  ⟨some (.strv (" Software Change Control").data)⟩]
    fld := none }

/-- Character class `[A-Za-z0-9+/=]` of the base64 payload. -/
def b64Char (c : Char) : Bool :=
  decide (('A' ≤ c ∧ c ≤ 'Z') ∨ ('a' ≤ c ∧ c ≤ 'z') ∨ ('0' ≤ c ∧ c ≤ '9') ∨
    c = '+' ∨ c = '/' ∨ c = '=')

/-- One attempted match of `/data:image\/[^;]+;base64,[A-Za-z0-9+/=]+/g`
at the current position (case-sensitive; both quantifier extents are
forced, each class being disjoint from the literal that follows it):
literal `data:image/`, a nonempty run without `;`, literal `;base64,`, a
nonempty base64 run.  Returns the replacement `[IMAGE]` and the
remainder. -/
def imgMatchAt (s : Str) : Option (Str × Str) :=
  if isLitPrefix ("data:image/").data s then
    let r0 := s.drop 11
    let mime := r0.takeWhile (fun c => c ≠ ';')
    if mime.length = 0 then none
    else
      let r1 := r0.drop mime.length
      if isLitPrefix (";base64,").data r1 then
        let r2 := r1.drop 8
        let payload := r2.takeWhile b64Char
        if payload.length = 0 then none
        else some (("[IMAGE]").data, r2.drop payload.length)
      else none
  else none

/-- Generic JS `String.prototype.replace` with a global regex, driven by
a positional matcher: scan left to right and at each position either emit
the replacement and resume after the match, or keep the character.  Every
matcher used below consumes at least one character on success, so the
fuel `s.length + 1` is never exhausted; fuel 0 returns the text
unchanged. -/
def replaceGGo (m : Str → Option (Str × Str)) : Nat → Str → Str
  | 0, s => s
  | fuel + 1, s =>
    match s with
    | [] => []
    | c :: t =>
      match m (c :: t) with
      | some (rep, rest) => rep ++ replaceGGo m fuel rest
      | none => c :: replaceGGo m fuel t

/-- Embedding of `_removeImgTagsFromText` (wordChunker.ts lines 98–100). -/
def removeImgTagsFromText (s : Str) : Str :=
  replaceGGo imgMatchAt (s.length + 1) s

/-- The shared `\s*_{5,}` tail of the signature patterns: a greedy
whitespace run, then at least five underscores (the classes are disjoint,
so both extents are forced).  Returns the remainder after the match. -/
def underTail (s : Str) : Option Str :=
  let r1 := s.dropWhile ws
  let us := r1.takeWhile (fun c => c = '_')
  if 5 ≤ us.length then some (r1.drop us.length) else none

/-- Matcher for the rules `/Label:\s*_{5,}/gi` with a literal label:
case-insensitive label, then the underscore tail. -/
def labelUnderMatchAt (label rep : Str) (s : Str) : Option (Str × Str) :=
  if matchesCI label s then
    match underTail (s.drop label.length) with
    | some rest => some (rep, rest)
    | none => none
  else none

/-- Matcher for `/Comments?:\s*_{5,}/gi`: the greedy optional `s?` tries
the longer alternative first, and a failed underscore tail cannot be
rescued by dropping the `s` (the `:` would then have to match that same
`s`). -/
def commentsMatchAt (s : Str) : Option (Str × Str) :=
  if matchesCI ("comments:").data s then
    match underTail (s.drop 9) with
    | some rest => some (("Comments: [TO BE FILLED]").data, rest)
    | none => none
  else if matchesCI ("comment:").data s then
    match underTail (s.drop 8) with
    | some rest => some (("Comments: [TO BE FILLED]").data, rest)
    | none => none
  else none

/-- Character class `[A-Za-z\s]` of the approval and generic label
rules. -/
def alphaWs (c : Char) : Bool :=
  decide (('A' ≤ c ∧ c ≤ 'Z') ∨ ('a' ≤ c ∧ c ≤ 'z')) || ws c

/-- Matcher for `/([A-Za-z\s]*Approval):\s*_{5,}/gi`: since `:` lies
outside the class, the `Approval` literal can only sit at the very end of
the maximal class run, so the backtracking search has a single candidate.
The capture keeps its original casing and is re-emitted by `$1`. -/
def approvalMatchAt (s : Str) : Option (Str × Str) :=
  let run := s.takeWhile alphaWs
  if 8 ≤ run.length ∧ matchesCI ("approval:").data (s.drop (run.length - 8)) then
    match underTail (s.drop (run.length + 1)) with
    | some rest => some (run ++ (": [APPROVAL SIGNATURE REQUIRED]").data, rest)
    | none => none
  else none

/-- Matcher for the case-sensitive `/([A-Za-z\s]+):\s*_{5,}/g`: a
nonempty class run (again the single backtracking candidate, `:` lying
outside the class), then `:`, then the underscore tail; `$1` re-emits the
run. -/
def labelRunMatchAt (s : Str) : Option (Str × Str) :=
  let run := s.takeWhile alphaWs
  if 1 ≤ run.length then
    match s.drop run.length with
    | ':' :: r1 =>
      match underTail r1 with
      | some rest => some (run ++ (": [TO BE FILLED]").data, rest)
      | none => none
    | _ => none
  else none

/-- Matcher for `/_{10,}/g`: a maximal run of at least ten underscores. -/
def underLineMatchAt (s : Str) : Option (Str × Str) :=
  let us := s.takeWhile (fun c => c = '_')
  if 10 ≤ us.length then some (("[SIGNATURE LINE]").data, s.drop us.length)
  else none

/-- The eight replacement rules of `_normalizeSignatureLines`
(wordChunker.ts lines 105–134), in source order. -/
def sigRules : List (Str → Option (Str × Str)) :=
  [labelUnderMatchAt ("Date:").data ("Date: [SIGNATURE DATE REQUIRED]").data,
   labelUnderMatchAt ("Name:").data ("Name: [SIGNATURE FIELD]").data,
   labelUnderMatchAt ("Title:").data ("Title: [TO BE FILLED]").data,
   labelUnderMatchAt ("Signature:").data ("Signature: [SIGNATURE REQUIRED]").data,
   commentsMatchAt,
   approvalMatchAt,
   labelRunMatchAt,
   underLineMatchAt]

/-- Embedding of `_normalizeSignatureLines`: fold the eight global
replaces over the text in source order (`replacements.reduce`). -/
def normalizeSignatureLines (s : Str) : Str :=
  sigRules.foldl (fun acc m => replaceGGo m (acc.length + 1) acc) s

/-- The Text Cleanser pipeline in pipeline order: image payload
replacement, then signature-line normalization. -/
def cleanseText (s : Str) : Str :=
  normalizeSignatureLines (removeImgTagsFromText s)

/-- A whitespace-only document: every `\n\n+` field trims to nothing. -/
def wsOnlyText : Str := (" \n \n\n  \t \n").data

/-- A plain sentence on which none of the cleansing rules matches at any
position. -/
def plainText : Str := ("hello world 123").data

/-- One step of a global-replace scan: a preserved character (a position
where the matcher failed) or the replacement of a consumed segment. -/
inductive ScanSeg where
  | keep (c : Char)
  | repl (consumed rep : Str)

/-- The output text described by a trace. -/
def segRender : List ScanSeg → Str
  | [] => []
  | .keep c :: tr => c :: segRender tr
  | .repl _ rep :: tr => rep ++ segRender tr

/-- The input text described by a trace. -/
def segSource : List ScanSeg → Str
  | [] => []
  | .keep c :: tr => c :: segSource tr
  | .repl con _ :: tr => con ++ segSource tr

/-- Well-formedness of a trace for a matcher: preserved characters are
positions where the matcher failed, replacement segments successful
matches. -/
def SegWF (m : Str → Option (Str × Str)) : List ScanSeg → Prop
  | [] => True
  | .keep c :: tr => m (c :: segSource tr) = none ∧ SegWF m tr
  | .repl con rep :: tr =>
      m (con ++ segSource tr) = some (rep, segSource tr) ∧ con ≠ [] ∧ SegWF m tr

/-- A matcher whose successful matches split the input. -/
def MatcherSplits (m : Str → Option (Str × Str)) : Prop :=
  ∀ u rep rest, m u = some (rep, rest) → ∃ con, con ≠ [] ∧ u = con ++ rest

/-- No match of `m` at any position. -/
def NMAll (m : Str → Option (Str × Str)) (v : Str) : Prop :=
  ∀ i, m (v.drop i) = none

/-- Length of the leading underscore run. -/
def urun (u : Str) : Nat := (u.takeWhile (fun c => c = '_')).length

/-- Leading `[A-Za-z\\s]` run. -/
def awrun (u : Str) : Str := u.takeWhile alphaWs

/-- The underscore tail fails whenever, after the leading whitespace,
the text goes on with a character other than an underscore — a fact
visible from a prefix alone. -/
def utBlocked (x : Str) : Bool :=
  match (x.dropWhile ws).head? with
  | some d => decide (d ≠ '_')
  | none => false

/-- Positions from which the generic label rule can never match, visible
from a prefix alone: the position does not start a class run, or the
class run ends inside the prefix at a character other than a colon. -/
def blockedAw (x : Str) : Bool :=
  match x with
  | [] => false
  | c :: _ =>
    if alphaWs c then
      match (x.drop (x.takeWhile alphaWs).length).head? with
      | some d => decide (d ≠ ':')
      | none => false
    else true

/-- Boundary correspondence between the source and render of a trace at
the end of the leading class run: an empty source tail stays empty, a
colon tail stays a colon with a still-failing underscore tail, and any
other head character is preserved. -/
abbrev BndR7 (tr : List ScanSeg) : Prop :=
  ((segSource tr).drop (awrun (segSource tr)).length = [] →
    (segRender tr).drop (awrun (segSource tr)).length = []) ∧
  (∀ s1, (segSource tr).drop (awrun (segSource tr)).length = ':' :: s1 →
    ∃ w1, (segRender tr).drop (awrun (segSource tr)).length = ':' :: w1 ∧
      (underTail s1 = none → underTail w1 = none)) ∧
  (∀ c s1, (segSource tr).drop (awrun (segSource tr)).length = c :: s1 → ¬(c = ':') →
    ((segRender tr).drop (awrun (segSource tr)).length).head? = some c)

/-- The inductive package for the generic label rule: no match anywhere
in the render, identical leading class run, no longer leading underscore
run, transferred underscore-tail failure, and the boundary
correspondence. -/
abbrev R7Pack (tr : List ScanSeg) : Prop :=
  NMAll labelRunMatchAt (segRender tr) ∧
  awrun (segRender tr) = awrun (segSource tr) ∧
  urun (segRender tr) ≤ urun (segSource tr) ∧
  (underTail (segSource tr) = none → underTail (segRender tr) = none) ∧
  BndR7 tr

/-- Inductive package showing the `_{10,}` stage preserves failure of the
generic label rule everywhere: class runs are preserved, boundary heads
stay non-colon (a replaced underscore run turns into `[`), colon
boundaries keep a failing underscore tail. -/
abbrev R8KeepsR7 (tr : List ScanSeg) : Prop :=
  (NMAll labelRunMatchAt (segSource tr) → NMAll labelRunMatchAt (segRender tr)) ∧
  awrun (segRender tr) = awrun (segSource tr) ∧
  urun (segRender tr) ≤ urun (segSource tr) ∧
  (underTail (segSource tr) = none → underTail (segRender tr) = none) ∧
  ((segSource tr).drop (awrun (segSource tr)).length = [] →
    (segRender tr).drop (awrun (segSource tr)).length = []) ∧
  (∀ s1, (segSource tr).drop (awrun (segSource tr)).length = ':' :: s1 →
    ∃ w1, (segRender tr).drop (awrun (segSource tr)).length = ':' :: w1 ∧
      (underTail s1 = none → underTail w1 = none)) ∧
  (∀ c s1, (segSource tr).drop (awrun (segSource tr)).length = c :: s1 → ¬(c = ':') →
    ∃ d w1, (segRender tr).drop (awrun (segSource tr)).length = d :: w1 ∧ ¬(d = ':'))

/-- A replacement block is inert for the literal windows of the image
pattern: it ends in `]` and contains no `/`, `;` or `,`. -/
def RepOK (rep : Str) : Prop :=
  rep.getLast? = some ']' ∧ ∀ c ∈ rep, ¬(c = '/') ∧ ¬(c = ';') ∧ ¬(c = ',')

/-- A literal window suitable for the block argument: it does not contain
`]` and ends in `/` or `,`. -/
def LitOK (lit : Str) : Prop :=
  lit ≠ [] ∧ (∀ c ∈ lit, ¬(c = ']')) ∧
    (lit.getLast? = some '/' ∨ lit.getLast? = some ',')

/-- All replacement blocks of the matcher are bracket-terminated and free
of the image pattern's separator characters. -/
def RepsOK (m : Str → Option (Str × Str)) : Prop :=
  ∀ u rep rest, m u = some (rep, rest) → RepOK rep ∧ rep ≠ []

/-- The matcher neither consumes nor emits semicolons. -/
def SemiFree (m : Str → Option (Str × Str)) : Prop :=
  ∀ u rep rest, m u = some (rep, rest) →
    (∀ c ∈ rep, ¬(c = ';')) ∧ ∃ con, con ≠ [] ∧ u = con ++ rest ∧ (∀ c ∈ con, ¬(c = ';'))

/-- Replacement and consumed heads relate so that a base64 head on the
render side forces one on the source side. -/
def HeadRel (m : Str → Option (Str × Str)) : Prop :=
  ∀ u rep rest, m u = some (rep, rest) → ∃ con, con ≠ [] ∧ u = con ++ rest ∧
    (rep.head? = con.head? ∨
     (∃ hr hc, rep.head? = some hr ∧ con.head? = some hc ∧
        b64Char hr = true ∧ b64Char hc = true) ∨
     rep.head? = some '[')

/-- The pipeline output after the first six signature rules. -/
def sigR16out (v : Str) : Str :=
  [labelUnderMatchAt ("Date:").data ("Date: [SIGNATURE DATE REQUIRED]").data,
   labelUnderMatchAt ("Name:").data ("Name: [SIGNATURE FIELD]").data,
   labelUnderMatchAt ("Title:").data ("Title: [TO BE FILLED]").data,
   labelUnderMatchAt ("Signature:").data ("Signature: [SIGNATURE REQUIRED]").data,
   commentsMatchAt,
   approvalMatchAt].foldl (fun acc m => replaceGGo m (acc.length + 1) acc) v

/-- The pipeline output after the seventh signature rule. -/
def sigR7out (v : Str) : Str :=
  replaceGGo labelRunMatchAt ((sigR16out v).length + 1) (sigR16out v)

/-- The read index never moves backwards inside the inner loop. -/
theorem collectGo_i_ge (sections : List Str) (fuel i : Nat) (cur : List Str) (wc : Nat) :
    i ≤ (collectGo fuel sections i cur wc).i := by
  induction fuel, sections, i, cur, wc using collectGo.induct
  all_goals rw [collectGo]
  all_goals repeat split
  all_goals simp_all
  all_goals repeat split
  all_goals omega

/-- The inner loop appends at most one section per consumed index: the
growth of `currentSections` is bounded by the growth of the read index. -/
theorem collectGo_len (sections : List Str) (fuel i : Nat) (cur : List Str) (wc : Nat) :
    (collectGo fuel sections i cur wc).cur.length + i ≤
      cur.length + (collectGo fuel sections i cur wc).i := by
  induction fuel, sections, i, cur, wc using collectGo.induct
  all_goals rw [collectGo]
  all_goals repeat split
  all_goals simp_all
  all_goals repeat split
  all_goals simp_all
  all_goals omega

/-- When the inner loop is entered with fuel, an empty accumulator and a
word count below target, it consumes at least one section. -/
theorem collectGo_ip1 (sections : List Str) (fuel i : Nat) (wc : Nat)
    (hi : i < sections.length) (hwc : wc < targetWords) :
    i + 1 ≤ (collectGo (fuel + 1) sections i [] wc).i := by
  rw [collectGo]
  simp only [hi, hwc, and_self, if_pos]
  split
  · exact collectGo_i_ge sections fuel (i + 1) _ _
  · split
    · exact collectGo_i_ge sections fuel (i + 1) _ _
    · split
      · simp
      · exact collectGo_i_ge sections fuel (i + 1) _ _

/-- The backtracking loop never returns fewer steps than it started with. -/
theorem overlapStepsGo_ge (sections : List Str) (i curLen : Nat) (fuel oc steps : Nat) :
    steps ≤ overlapStepsGo fuel sections i curLen oc steps := by
  induction fuel, sections, i, curLen, oc, steps using overlapStepsGo.induct
  all_goals rw [overlapStepsGo]
  all_goals repeat split
  all_goals simp_all
  all_goals omega

/-- `backtrackSteps` never exceeds `currentSections.length - 1`. -/
theorem overlapStepsGo_le (sections : List Str) (i curLen : Nat) (fuel oc steps : Nat) :
    overlapStepsGo fuel sections i curLen oc steps ≤ max steps (curLen - 1) := by
  induction fuel, sections, i, curLen, oc, steps using overlapStepsGo.induct
  all_goals rw [overlapStepsGo]
  all_goals repeat split
  all_goals simp_all
  all_goals omega

/-- Per-chunk progress: one outer-loop iteration strictly advances the read
index, because the overlap rewind is bounded by the size of the chunk just
emitted minus one. -/
theorem chunkStep_progress (md : Option DocumentHeaderMetadata) (sections : List Str)
    (i ci : Nat) (h : i < sections.length) : i < (chunkStep md sections i ci).2 := by
  have h1 : i + 1 ≤ (collect sections i [] 0).i :=
    collectGo_ip1 sections sections.length i 0 h (by simp [targetWords])
  have h2 : (collect sections i [] 0).cur.length + i ≤ (collect sections i [] 0).i := by
    simpa using collectGo_len sections (sections.length + 1) i [] 0
  have h3 := overlapStepsGo_le sections (collect sections i [] 0).i
    (collect sections i [] 0).cur.length ((collect sections i [] 0).cur.length + 1) 0 0
  simp [Nat.max_def] at h3
  unfold chunkStep overlapSteps
  dsimp only
  split
  all_goals unfold collect at *
  all_goals omega

/-- Fuel-irrelevance of the inner loop: any fuel strictly above the number
of unread sections produces the same result, certifying that the fuel
`sections.length + 1` used by `collect` models the unbounded source loop
exactly. -/
theorem collectGo_fuel (sections : List Str) :
    ∀ f g i cur wc, sections.length - i < f → sections.length - i < g →
      collectGo f sections i cur wc = collectGo g sections i cur wc := by
  intro f
  induction f with
  | zero => intro g i cur wc hf hg; omega
  | succ f ih =>
    intro g i cur wc hf hg
    match g with
    | 0 => omega
    | g + 1 =>
      rw [collectGo, collectGo]
      split
      · rename_i hcond
        have key : ∀ cur' wc', collectGo f sections (i + 1) cur' wc' =
            collectGo g sections (i + 1) cur' wc' :=
          fun cur' wc' => ih g (i + 1) cur' wc' (by omega) (by omega)
        simp only [key]
      · rfl

/-- Fuel-irrelevance of the outer loop, by per-chunk progress. -/
theorem chunkLoopGo_fuel (md : Option DocumentHeaderMetadata) (sections : List Str) :
    ∀ f g i ci, sections.length - i < f → sections.length - i < g →
      chunkLoopGo f md sections i ci = chunkLoopGo g md sections i ci := by
  intro f
  induction f with
  | zero => intro g i ci hf hg; omega
  | succ f ih =>
    intro g i ci hf hg
    match g with
    | 0 => omega
    | g + 1 =>
      rw [chunkLoopGo, chunkLoopGo]
      split
      · rename_i hlt
        have := chunkStep_progress md sections i ci hlt
        rw [ih g (chunkStep md sections i ci).2 (ci + 1) (by omega) (by omega)]
      · rfl


/-- The chunk emitted by one outer-loop iteration is the `_createChunk` of
the joined collected sections at the current chunk index. -/
theorem chunkStep_fst (md : Option DocumentHeaderMetadata) (sections : List Str)
    (i ci : Nat) :
    (chunkStep md sections i ci).1 =
      createChunk md (joinSections (collect sections i [] 0).cur) ci := rfl

/-- Chunk indices of the loop output are consecutive starting at `ci`. -/
theorem chunkLoopGo_indices (md : Option DocumentHeaderMetadata) (sections : List Str) :
    ∀ fuel i ci,
      (chunkLoopGo fuel md sections i ci).map (fun c => c.chunkIndex) =
        List.range' ci (chunkLoopGo fuel md sections i ci).length := by
  intro fuel
  induction fuel with
  | zero => intro i ci; simp [chunkLoopGo]
  | succ fuel ih =>
    intro i ci
    rw [chunkLoopGo]
    split
    · simp only [List.map_cons, List.length_cons, List.range'_succ, ih]
      rfl
    · simp

/-- Claim C5 — chunk index sequence: for every input text (and any header
metadata), the `chunkIndex` values of the list returned by
`_chunkByParagraphsAndTables` are exactly `[0, 1, …, n-1]` in list order:
zero-based, strictly increasing by one, no gaps, no repeats. -/
theorem c5_chunk_index_sequence (md : Option DocumentHeaderMetadata) (text : Str) :
    (chunkByParagraphsAndTables md text).map (fun c => c.chunkIndex) =
      List.range (chunkByParagraphsAndTables md text).length := by
  rw [List.range_eq_range']
  exact chunkLoopGo_indices md (sectionsOf text) (sectionsOf text).length.succ 0 0

/-- Claim C10 — termination of the chunking loop despite the overlap
rewind: from any read position `i` still inside the section list, the
overlap backtrack of the emitted chunk is bounded by
`currentSections.length - 1`, and consequently one outer-loop iteration
strictly advances the read index; the loop measure `sections.length - i`
decreases and `_chunkByParagraphsAndTables` terminates. -/
theorem c10_termination_progress (md : Option DocumentHeaderMetadata)
    (sections : List Str) (i ci : Nat) (h : i < sections.length) :
    overlapSteps sections (collect sections i [] 0).i
        (collect sections i [] 0).cur.length 0 0 ≤
      (collect sections i [] 0).cur.length - 1 ∧
    i < (chunkStep md sections i ci).2 := by
  constructor
  · have h3 := overlapStepsGo_le sections (collect sections i [] 0).i
      (collect sections i [] 0).cur.length ((collect sections i [] 0).cur.length + 1) 0 0
    simpa [overlapSteps, Nat.max_def] using h3
  · exact chunkStep_progress md sections i ci h

/-- The first element surviving `dropWhile p` falsifies `p`. -/
theorem dropWhile_head_false {p : Char → Bool} :
    ∀ {l : Str} {c : Char} {t : Str}, List.dropWhile p l = c :: t → p c = false := by
  intro l
  induction l with
  | nil => intro c t h; simp [List.dropWhile] at h
  | cons a l' ih =>
    intro c t h
    by_cases hp : p a
    · rw [List.dropWhile_cons_of_pos hp] at h; exact ih h
    · rw [List.dropWhile_cons_of_neg hp] at h
      cases h
      simpa using hp

/-- `dropWhile` cannot erase a trailing character that falsifies `p`. -/
theorem dropWhile_append_last {p : Char → Bool} {c : Char} (hc : p c = false) :
    ∀ y : Str, ∃ z, List.dropWhile p (y ++ [c]) = z ++ [c] := by
  intro y
  induction y with
  | nil => exact ⟨[], by simp [List.dropWhile, hc]⟩
  | cons a y' ih =>
    by_cases hp : p a
    · simpa [List.dropWhile_cons_of_pos hp] using ih
    · exact ⟨a :: y', by simp [List.dropWhile_cons_of_neg hp]⟩

/-- The head of the fully trimmed string is the head after trimming the
front only (and trimming cannot erase it). -/
theorem jsTrim_head (s : Str) (h : List.dropWhile ws s ≠ []) :
    (jsTrim s).head? = (List.dropWhile ws s).head? ∧ jsTrim s ≠ [] := by
  rcases hd : List.dropWhile ws s with _ | ⟨c, d⟩
  · exact absurd hd h
  · have hc : ws c = false := dropWhile_head_false hd
    unfold jsTrim
    rw [hd]
    rcases dropWhile_append_last hc d.reverse with ⟨z, hz⟩
    rw [show (c :: d).reverse = d.reverse ++ [c] by simp, hz]
    simp

/-- The table test only looks at the first character surviving the front
trim. -/
theorem isTableSection_head (s : Str) :
    isTableSection s = ((jsTrim s).head? == some '|') := by
  unfold isTableSection
  rcases h : jsTrim s with _ | ⟨c, t⟩
  · simp
  · by_cases hc : c = '|' <;> simp [hc]

/-- `dropWhile` over an append whose first part does not vanish. -/
theorem dropWhile_append_of_ne {p : Char → Bool} :
    ∀ {s : Str}, List.dropWhile p s ≠ [] → ∀ t : Str,
      List.dropWhile p (s ++ t) = List.dropWhile p s ++ t := by
  intro s
  induction s with
  | nil => intro h; simp [List.dropWhile] at h
  | cons a s' ih =>
    intro h t
    by_cases hp : p a
    · rw [List.dropWhile_cons_of_pos hp] at h
      rw [List.cons_append, List.dropWhile_cons_of_pos hp,
        List.dropWhile_cons_of_pos hp]
      exact ih h t
    · rw [List.cons_append, List.dropWhile_cons_of_neg hp,
        List.dropWhile_cons_of_neg hp]
      rfl

/-- Appending to a string with nonempty trimmed content does not change the
table test. -/
theorem isTableSection_append (s t : Str) (h : jsTrim s ≠ []) :
    isTableSection (s ++ t) = isTableSection s := by
  have hds : List.dropWhile ws s ≠ [] := by
    intro hnil
    apply h
    unfold jsTrim
    rw [hnil]
    simp [List.dropWhile]
  have h1 := jsTrim_head s hds
  have hdst : List.dropWhile ws (s ++ t) = List.dropWhile ws s ++ t :=
    dropWhile_append_of_ne hds t
  have hdst_ne : List.dropWhile ws (s ++ t) ≠ [] := by
    rw [hdst]
    intro hx
    exact hds (List.append_eq_nil.mp hx).1
  have h2 := jsTrim_head (s ++ t) hdst_ne
  rw [isTableSection_head, isTableSection_head, h1.1, h2.1, hdst]
  rcases hd : List.dropWhile ws s with _ | ⟨c, d⟩
  · exact absurd hd hds
  · simp

/-- Joining further sections after a section with nonempty trimmed content
does not change the table test. -/
theorem isTableSection_join (s : Str) (rest : List Str) (h : jsTrim s ≠ []) :
    isTableSection (joinSections (s :: rest)) = isTableSection s := by
  cases rest with
  | nil => rfl
  | cons r rs =>
    show isTableSection (s ++ nlChar :: nlChar :: joinSections (r :: rs)) = _
    exact isTableSection_append s _ h

/-- The inner loop only appends to `currentSections`. -/
theorem collectGo_extends (sections : List Str) :
    ∀ fuel i cur wc, ∃ added, (collectGo fuel sections i cur wc).cur = cur ++ added := by
  intro fuel
  induction fuel with
  | zero => intro i cur wc; exact ⟨[], by simp [collectGo]⟩
  | succ fuel ih =>
    intro i cur wc
    rw [collectGo]
    repeat' split
    all_goals first
      | exact ih _ _ _
      | exact ⟨_, rfl⟩
      | exact ⟨[], (List.append_nil _).symm⟩
      | (rcases ih (i + 1) _ _ with ⟨a, ha⟩
         rw [ha, List.append_assoc]
         exact ⟨_, rfl⟩)

/-- Every section collected by the inner loop comes from the accumulator it
started with or from the input section list. -/
theorem collectGo_cur_mem (sections : List Str) :
    ∀ fuel i cur wc x, x ∈ (collectGo fuel sections i cur wc).cur → x ∈ cur ∨ x ∈ sections := by
  intro fuel
  induction fuel with
  | zero => intro i cur wc x hx; rw [collectGo] at hx; exact Or.inl hx
  | succ fuel ih =>
    intro i cur wc x hx
    rw [collectGo] at hx
    split at hx
    · split at hx
      · exact ih _ _ _ x hx
      · rename_i s heq
        split at hx
        · exact ih _ _ _ x hx
        · split at hx
          · split at hx
            · rcases List.mem_append.mp hx with h' | h'
              · exact Or.inl h'
              · simp at h'
                exact Or.inr (h' ▸ List.getElem?_mem heq)
            · rcases ih _ _ _ x hx with h | h
              · rcases List.mem_append.mp h with h' | h'
                · exact Or.inl h'
                · simp at h'
                  exact Or.inr (h' ▸ List.getElem?_mem heq)
              · exact Or.inr h
          · split at hx
            · exact Or.inl hx
            · split at hx
              · exact Or.inl hx
              · rcases ih _ _ _ x hx with h | h
                · rcases List.mem_append.mp h with h' | h'
                  · exact Or.inl h'
                  · simp at h'
                    exact Or.inr (h' ▸ List.getElem?_mem heq)
                · exact Or.inr h
    · exact Or.inl hx

/-- If the first section pushed into an empty accumulator is a table block,
the chunk is closed immediately: the collected list is that single
section. -/
theorem collectGo_table_single (sections : List Str) :
    ∀ fuel i wc s0 rest, (collectGo fuel sections i [] wc).cur = s0 :: rest →
      isTableSection s0 = true → rest = [] := by
  intro fuel
  induction fuel with
  | zero => intro i wc s0 rest h ht; rw [collectGo] at h; cases h
  | succ fuel ih =>
    intro i wc s0 rest h ht
    rw [collectGo] at h
    split at h
    · split at h
      · exact ih _ _ _ _ h ht
      · rename_i s heq
        split at h
        · exact ih _ _ _ _ h ht
        · split at h
          · split at h
            · -- first section is a table: the loop returns it alone
              simp only [List.nil_append] at h
              cases h
              rfl
            · -- first section is not a table: it heads every later accumulator
              rename_i hnotbl
              rcases collectGo_extends sections fuel (i + 1) ([] ++ [s]) (wc + countWords s)
                with ⟨a, ha⟩
              rw [ha] at h
              simp only [List.nil_append, List.cons_append] at h
              rw [List.cons_eq_cons] at h
              exact absurd (h.1 ▸ ht) (by simp [hnotbl])
          · rename_i hne
            exact absurd rfl hne
    · cases h

/-- The text stored in a chunk is the content it was created from. -/
theorem createChunk_text (md : Option DocumentHeaderMetadata) (content : Str) (index : Nat) :
    (createChunk md content index).text = content := rfl

/-- Every chunk in the loop output is produced by some `chunkStep`. -/
theorem chunkLoopGo_mem_step (md : Option DocumentHeaderMetadata) (sections : List Str) :
    ∀ fuel i ci c, c ∈ chunkLoopGo fuel md sections i ci →
      ∃ j cj, c = (chunkStep md sections j cj).1 := by
  intro fuel
  induction fuel with
  | zero => intro i ci c hc; simp [chunkLoopGo] at hc
  | succ fuel ih =>
    intro i ci c hc
    rw [chunkLoopGo] at hc
    split at hc
    · rcases List.mem_cons.mp hc with h | h
      · exact ⟨i, ci, h⟩
      · exact ih _ _ c h
    · simp at hc

/-- A chunk emitted by one step whose trimmed text begins with a pipe is a
single input section. -/
theorem chunkStep_table (md : Option DocumentHeaderMetadata) (sections : List Str)
    (hsec : ∀ x ∈ sections, jsTrim x ≠ []) (j cj : Nat)
    (ht : isTableSection ((chunkStep md sections j cj).1).text = true) :
    ((chunkStep md sections j cj).1).text ∈ sections := by
  have htext : ((chunkStep md sections j cj).1).text =
      joinSections (collect sections j [] 0).cur := rfl
  rw [htext] at ht ⊢
  rcases hcur : (collect sections j [] 0).cur with _ | ⟨s0, rest⟩
  · rw [hcur] at ht
    exact absurd ht (by decide)
  · rw [hcur] at ht
    have hs0 : s0 ∈ sections := by
      have hmem := collectGo_cur_mem sections (sections.length + 1) j [] 0 s0
        (by
          rw [show collectGo (sections.length + 1) sections j [] 0 =
            collect sections j [] 0 from rfl, hcur]
          exact List.mem_cons_self _ _)
      rcases hmem with h | h
      · cases h
      · exact h
    have ht0 : isTableSection s0 = true := by
      rw [isTableSection_join s0 rest (hsec s0 hs0)] at ht
      exact ht
    have hrest : rest = [] :=
      collectGo_table_single sections (sections.length + 1) j 0 s0 rest
        (by
          rw [show collectGo (sections.length + 1) sections j [] 0 =
            collect sections j [] 0 from rfl]
          exact hcur) ht0
    rw [hrest]
    exact hs0

/-- Claim C4 — table atomicity: every chunk of
`_chunkByParagraphsAndTables` whose trimmed content begins with `|` is
exactly one blank-line-separated section of the input: table blocks are
never joined with adjacent sections and never receive overlap content. -/
theorem c4_table_atomicity (md : Option DocumentHeaderMetadata) (text : Str) (c : Chunk)
    (hc : c ∈ chunkByParagraphsAndTables md text)
    (ht : isTableSection c.text = true) :
    c.text ∈ sectionsOf text := by
  have hsec : ∀ x ∈ sectionsOf text, jsTrim x ≠ [] := by
    intro x hx h0
    have hfil := List.of_mem_filter hx
    rw [h0] at hfil
    simp at hfil
  rcases chunkLoopGo_mem_step md (sectionsOf text) ((sectionsOf text).length + 1) 0 0 c hc
    with ⟨j, cj, rfl⟩
  exact chunkStep_table md (sectionsOf text) hsec j cj ht

/-- Witness for C4: the table block of the specification example is itself
a section of the input. -/
theorem c4_table_atomicity_witness :
    ((chunkByParagraphsAndTables none exText).get ⟨1, by decide⟩).text ∈ sectionsOf exText :=
  c4_table_atomicity none exText _ (List.get_mem _ _ _) (by decide)

/-- Word counting distributes over concatenation with a blank-line
separator in between. -/
theorem countWordsAux_append_sep (b : Str) :
    ∀ (a : Str) (st : Bool),
      countWordsAux (a ++ nlChar :: nlChar :: b) st = countWordsAux a st + countWordsAux b false := by
  intro a
  induction a with
  | nil =>
    intro st
    simp [countWordsAux, ws, nlChar]
  | cons c cs ih =>
    intro st
    by_cases hc : ws c
    · simp [countWordsAux, hc, ih]
    · simp [countWordsAux, hc, ih]
      omega

/-- The word count of a joined chunk is the sum of its sections' word
counts. -/
theorem countWords_joinSections :
    ∀ l : List Str, countWords (joinSections l) = (l.map countWords).sum := by
  intro l
  induction l with
  | nil => simp [joinSections, countWords, countWordsAux]
  | cons a l' ih =>
    cases l' with
    | nil => simp [joinSections]
    | cons b l'' =>
      show countWords (a ++ nlChar :: nlChar :: joinSections (b :: l'')) = _
      unfold countWords
      rw [countWordsAux_append_sep]
      simp only [List.map_cons, List.sum_cons]
      rw [show countWordsAux (joinSections (b :: l'')) false = countWords (joinSections (b :: l'')) from rfl, ih]
      rfl

/-- The running `wordCount` of the inner loop is the sum of the word counts
of the collected sections. -/
theorem collectGo_wc (sections : List Str) :
    ∀ fuel i cur wc, wc = (cur.map countWords).sum →
      (collectGo fuel sections i cur wc).wc =
        ((collectGo fuel sections i cur wc).cur.map countWords).sum := by
  intro fuel
  induction fuel with
  | zero => intro i cur wc h; simpa [collectGo] using h
  | succ fuel ih =>
    intro i cur wc h
    rw [collectGo]
    repeat' split
    all_goals first
      | exact ih _ _ _ h
      | exact h
      | (apply ih
         simp [h])
      | simp [h]

/-- A word count already at most the hard cap stays at most the hard cap
once the accumulator is nonempty: further sections are only added under
the `wordCount + sectionWords > targetWords * 1.2` guard. -/
theorem collectGo_cap (sections : List Str) :
    ∀ fuel i cur wc, cur ≠ [] → wc ≤ hardCap →
      (collectGo fuel sections i cur wc).wc ≤ hardCap := by
  intro fuel
  induction fuel with
  | zero => intro i cur wc _ h; simpa [collectGo] using h
  | succ fuel ih =>
    intro i cur wc hcur h
    rw [collectGo]
    repeat' split
    all_goals first
      | exact h
      | exact ih _ _ _ hcur h
      | exact absurd (by assumption) hcur
      | (apply ih _ _ _ (by simp)
         omega)

/-- Once the running word count reaches the target, the inner loop is
over. -/
theorem collectGo_done (sections : List Str) (fuel i : Nat) (cur : List Str) (wc : Nat)
    (h : targetWords ≤ wc) : collectGo fuel sections i cur wc = ⟨cur, wc, i⟩ := by
  cases fuel with
  | zero => rfl
  | succ fuel =>
    rw [collectGo]
    rw [if_neg]
    omega

/-- Started empty, the inner loop ends at or below the hard cap unless it
collected exactly one (oversized) section. -/
theorem collectGo_bound (sections : List Str) :
    ∀ fuel i, (collectGo fuel sections i [] 0).wc ≤ hardCap ∨
      ∃ s0, (collectGo fuel sections i [] 0).cur = [s0] := by
  intro fuel
  induction fuel with
  | zero => intro i; left; simp [collectGo]
  | succ fuel ih =>
    intro i
    rw [collectGo]
    split
    · split
      · exact ih _
      · split
        · exact ih _
        · split
          · split
            · right
              exact ⟨_, rfl⟩
            · rename_i s heq hs hcur htbl
              by_cases hw : targetWords ≤ 0 + countWords s
              · rw [collectGo_done sections fuel (i + 1) ([] ++ [s]) (0 + countWords s) hw]
                right
                exact ⟨s, rfl⟩
              · left
                apply collectGo_cap sections fuel (i + 1) ([] ++ [s]) (0 + countWords s) (by simp)
                simp only [targetWords, hardCap] at *
                omega
          · rename_i hne
            exact absurd rfl hne
    · left
      simp [hardCap]

/-- A chunk emitted by one step is within the cap or is a single input
section. -/
theorem chunkStep_bound (md : Option DocumentHeaderMetadata) (sections : List Str)
    (j cj : Nat) :
    ((chunkStep md sections j cj).1).wordCount ≤ hardCap ∨
      ((chunkStep md sections j cj).1).text ∈ sections ∨
      ((chunkStep md sections j cj).1).text = [] := by
  have htext : ((chunkStep md sections j cj).1).text =
      joinSections (collect sections j [] 0).cur := rfl
  have hwc : ((chunkStep md sections j cj).1).wordCount =
      countWords (joinSections (collect sections j [] 0).cur) := rfl
  rcases collectGo_bound sections (sections.length + 1) j with h | ⟨s0, h⟩
  · left
    rw [hwc, countWords_joinSections]
    have hsum := collectGo_wc sections (sections.length + 1) j [] 0 (by simp)
    rw [show collectGo (sections.length + 1) sections j [] 0 = collect sections j [] 0 from rfl]
      at hsum h
    omega
  · rw [show collectGo (sections.length + 1) sections j [] 0 = collect sections j [] 0 from rfl]
      at h
    have hs0 := collectGo_cur_mem sections (sections.length + 1) j [] 0 s0
      (by
        rw [show collectGo (sections.length + 1) sections j [] 0 =
          collect sections j [] 0 from rfl, h]
        exact List.mem_cons_self _ _)
    rcases hs0 with hmem | hmem
    · cases hmem
    · right; left
      rw [htext, h]
      exact hmem

/-- Claim C3 — word-count bound: every chunk of
`_chunkByParagraphsAndTables` with `contentType` `"text"` has word count at
most `480` (`400 × 1.2`), except when it consists of a single input section
that alone exceeds the bound — the oversized section is included whole and
unsplit. -/
theorem c3_word_count_bound (md : Option DocumentHeaderMetadata) (text : Str) (c : Chunk)
    (hc : c ∈ chunkByParagraphsAndTables md text)
    (htype : c.contentType = "text".data) :
    c.wordCount ≤ hardCap ∨ c.text ∈ sectionsOf text := by
  rcases chunkLoopGo_mem_step md (sectionsOf text) ((sectionsOf text).length + 1) 0 0 c hc
    with ⟨j, cj, rfl⟩
  rcases chunkStep_bound md (sectionsOf text) j cj with h | h | h
  · exact Or.inl h
  · exact Or.inr h
  · left
    have : ((chunkStep md (sectionsOf text) j cj).1).wordCount =
        countWords ((chunkStep md (sectionsOf text) j cj).1).text := rfl
    rw [this, h]
    simp [countWords, countWordsAux, hardCap]

/-- Witness for C3 at the specification example: the first (text) chunk
satisfies the bound disjunction. -/
theorem c3_word_count_bound_witness :
    ((chunkByParagraphsAndTables none exText).get ⟨0, by decide⟩).wordCount ≤ hardCap ∨
      ((chunkByParagraphsAndTables none exText).get ⟨0, by decide⟩).text ∈ sectionsOf exText :=
  c3_word_count_bound none exText _ (List.get_mem _ _ _) (by decide)

/-- Witness for C10 at a one-section input. -/
theorem c10_termination_progress_witness :
    overlapSteps [['a']] (collect [['a']] 0 [] 0).i (collect [['a']] 0 [] 0).cur.length 0 0 ≤
      (collect [['a']] 0 [] 0).cur.length - 1 ∧
    0 < (chunkStep none [['a']] 0 0).2 :=
  c10_termination_progress none [['a']] 0 0 (by decide)

/-- An adjacent newline pair refutes `NoNlPair`. -/
theorem noNlPair_no_sep (xs ys : Str) :
    ¬ NoNlPair (xs ++ nlChar :: nlChar :: ys) := by
  intro hp
  have h2 := (List.chain'_append.mp hp).2.1
  rcases List.chain'_cons.mp h2 with ⟨hrel, _⟩
  exact hrel ⟨rfl, rfl⟩

/-- Scanning a separator-free remainder yields a single field containing
the pending accumulator, pending newlines and the remainder. -/
theorem splitAux_single :
    ∀ (u acc : Str) (nlRun : Nat), nlRun ≤ 1 →
      NoNlPair (acc.reverse ++ List.replicate nlRun nlChar ++ u) →
      splitSectionsAux u acc nlRun = [acc.reverse ++ List.replicate nlRun nlChar ++ u] := by
  intro u
  induction u with
  | nil =>
    intro acc nlRun h1 hp
    interval_cases nlRun
    · simp [splitSectionsAux]
    · simp [splitSectionsAux]
  | cons c cs ih =>
    intro acc nlRun h1 hp
    by_cases hc : c = nlChar
    · subst hc
      interval_cases nlRun
      · rw [splitSectionsAux, if_pos rfl]
        have heq : (List.reverse acc ++ List.replicate 0 nlChar ++ nlChar :: cs) =
            (List.reverse acc ++ List.replicate 1 nlChar ++ cs) := by simp
        rw [heq] at hp ⊢
        exact ih acc 1 (by omega) hp
      · exfalso
        apply noNlPair_no_sep acc.reverse cs
        simpa using hp
    · interval_cases nlRun
      · rw [splitSectionsAux, if_neg hc]
        simp only [show (2 ≤ 0) = False by simp, if_false, show (0 = 1) = False by simp]
        have heq : (List.reverse acc ++ List.replicate 0 nlChar ++ c :: cs) =
            (List.reverse (c :: acc) ++ List.replicate 0 nlChar ++ cs) := by simp
        rw [heq] at hp ⊢
        exact ih (c :: acc) 0 (by omega) hp
      · rw [splitSectionsAux, if_neg hc]
        simp only [show (2 ≤ 1) = False by simp, if_false, if_pos rfl]
        have heq : (List.reverse acc ++ List.replicate 1 nlChar ++ c :: cs) =
            (List.reverse (c :: nlChar :: acc) ++ List.replicate 0 nlChar ++ cs) := by simp
        rw [heq] at hp ⊢
        exact ih (c :: nlChar :: acc) 0 (by omega) hp

/-- Scanning a field followed by a blank-line separator emits the field and
continues fresh on the remainder. -/
theorem splitAux_sep :
    ∀ (u acc : Str) (nlRun : Nat) (t : Str), nlRun ≤ 1 →
      NoNlPair (acc.reverse ++ List.replicate nlRun nlChar ++ u) →
      lastNotNl (acc.reverse ++ List.replicate nlRun nlChar ++ u) →
      headNotNl t →
      splitSectionsAux (u ++ nlChar :: nlChar :: t) acc nlRun =
        (acc.reverse ++ List.replicate nlRun nlChar ++ u) :: splitSectionsAux t [] 0 := by
  intro u
  induction u with
  | nil =>
    intro acc nlRun t h1 hp hl hh
    have hrun : nlRun = 0 := by
      interval_cases nlRun
      · rfl
      · exfalso
        apply hl
        simp
    subst hrun
    simp only [List.replicate, List.append_nil, List.nil_append]
    rw [splitSectionsAux, if_pos rfl, splitSectionsAux, if_pos rfl]
    cases t with
    | nil =>
      conv_lhs => rw [splitSectionsAux]
      conv_rhs => rw [splitSectionsAux]
      simp
    | cons c cs =>
      have hc : c ≠ nlChar := by
        intro hcnl
        exact hh (by simp [hcnl])
      conv_lhs => rw [splitSectionsAux]
      conv_rhs => rw [splitSectionsAux]
      simp [hc]

  | cons c cs ih =>
    intro acc nlRun t h1 hp hl hh
    by_cases hc : c = nlChar
    · subst hc
      interval_cases nlRun
      · rw [List.cons_append, splitSectionsAux, if_pos rfl]
        have heq : (List.reverse acc ++ List.replicate 0 nlChar ++ nlChar :: cs) =
            (List.reverse acc ++ List.replicate 1 nlChar ++ cs) := by simp
        rw [heq] at hp hl ⊢
        exact ih acc 1 t (by omega) hp hl hh
      · exfalso
        apply noNlPair_no_sep acc.reverse cs
        simpa using hp
    · interval_cases nlRun
      · rw [List.cons_append, splitSectionsAux, if_neg hc]
        simp only [show (2 ≤ 0) = False by simp, if_false, show (0 = 1) = False by simp]
        have heq : (List.reverse acc ++ List.replicate 0 nlChar ++ c :: cs) =
            (List.reverse (c :: acc) ++ List.replicate 0 nlChar ++ cs) := by simp
        rw [heq] at hp hl ⊢
        exact ih (c :: acc) 0 t (by omega) hp hl hh
      · rw [List.cons_append, splitSectionsAux, if_neg hc]
        simp only [show (2 ≤ 1) = False by simp, if_false, if_pos rfl]
        have heq : (List.reverse acc ++ List.replicate 1 nlChar ++ c :: cs) =
            (List.reverse (c :: nlChar :: acc) ++ List.replicate 0 nlChar ++ cs) := by simp
        rw [heq] at hp hl ⊢
        exact ih (c :: nlChar :: acc) 0 t (by omega) hp hl hh

/-- The head character of a joined nonempty-texts list is the head of its
first section. -/
theorem joinSections_head (y : Str) (rest : List Str) (hy : y ≠ []) :
    (joinSections (y :: rest)).head? = y.head? := by
  cases rest with
  | nil => rfl
  | cons r rs =>
    show (y ++ nlChar :: nlChar :: joinSections (r :: rs)).head? = y.head?
    cases y with
    | nil => exact absurd rfl hy
    | cons c cs => rfl

/-- Splitting the blank-line join of a good section list recovers the
list. -/
theorem splitSections_join :
    ∀ cur : List Str,
      (∀ x ∈ cur, NoNlPair x) →
      (∀ x ∈ cur.drop 1, headNotNl x) →
      (∀ x ∈ cur.dropLast, lastNotNl x) →
      (∀ x ∈ cur, x ≠ []) →
      cur ≠ [] →
      splitSections (joinSections cur) = cur := by
  intro cur
  induction cur with
  | nil => intro _ _ _ _ hcur; exact absurd rfl hcur
  | cons x cur' ih =>
    intro hpair hhead hlast hne _
    cases cur' with
    | nil =>
      show splitSectionsAux x [] 0 = [x]
      have := splitAux_single x [] 0 (by omega)
        (by simpa using hpair x (List.mem_cons_self _ _))
      simpa using this
    | cons y rest =>
      show splitSectionsAux (x ++ nlChar :: nlChar :: joinSections (y :: rest)) [] 0 =
        x :: y :: rest
      have hy : y ≠ [] := hne y (by simp)
      have hstep := splitAux_sep x [] 0 (joinSections (y :: rest)) (by omega)
        (by simpa using hpair x (List.mem_cons_self _ _))
        (by
          have hx : x ∈ (x :: y :: rest).dropLast := by simp
          simpa using hlast x hx)
        (by
          show (joinSections (y :: rest)).head? ≠ some nlChar
          rw [joinSections_head y rest hy]
          exact hhead y (by simp))
      simp only [List.reverse_nil, List.replicate, List.nil_append] at hstep
      rw [hstep]
      congr 1
      apply ih
      · intro z hz; exact hpair z (List.mem_cons_of_mem _ hz)
      · intro z hz
        apply hhead z
        simp only [List.drop_one] at hz ⊢
        exact List.mem_cons_of_mem _ hz
      · intro z hz
        apply hlast z
        rw [List.dropLast_cons₂]
        exact List.mem_cons_of_mem _ hz
      · intro z hz; exact hne z (List.mem_cons_of_mem _ hz)
      · simp

/-- `sectionsOf` recovers a good section list from its join: the chunker's
blank-line decomposition of a chunk's content is exactly the section list
the chunk was built from. -/
theorem sectionsOf_join (cur : List Str)
    (htrim : ∀ x ∈ cur, jsTrim x ≠ [])
    (hpair : ∀ x ∈ cur, NoNlPair x)
    (hhead : ∀ x ∈ cur.drop 1, headNotNl x)
    (hlast : ∀ x ∈ cur.dropLast, lastNotNl x)
    (hcur : cur ≠ []) :
    sectionsOf (joinSections cur) = cur := by
  have hne : ∀ x ∈ cur, x ≠ [] := by
    intro x hx hxe
    exact htrim x hx (by rw [hxe]; rfl)
  unfold sectionsOf
  rw [splitSections_join cur hpair hhead hlast hne hcur]
  rw [List.filter_eq_self.mpr]
  intro a ha
  have := htrim a ha
  simp only [decide_eq_true_eq]
  rcases hj : jsTrim a with _ | _
  · exact absurd hj this
  · simp

/-- Pushing a character that keeps the no-doubled-newline property. -/
theorem noNlPair_push (l : Str) (c : Char) (hl : NoNlPair l)
    (h : l.getLast? ≠ some nlChar ∨ c ≠ nlChar) : NoNlPair (l ++ [c]) := by
  unfold NoNlPair at *
  rw [List.chain'_append]
  refine ⟨hl, List.chain'_singleton _, ?_⟩
  intro x hx y hy
  rw [Option.mem_def] at hx hy
  simp only [List.head?_cons, Option.some.injEq] at hy
  subst hy
  rintro ⟨hx1, hc1⟩
  rcases h with h | h
  · rw [hx1] at hx
    exact h hx
  · exact h hc1

/-- The splitter never returns an empty field list. -/
theorem splitAux_ne_nil : ∀ (t acc : Str) (nlRun : Nat), splitSectionsAux t acc nlRun ≠ [] := by
  intro t
  induction t with
  | nil =>
    intro acc nlRun
    rw [splitSectionsAux]
    repeat' split
    all_goals simp
  | cons c cs ih =>
    intro acc nlRun
    rw [splitSectionsAux]
    repeat' split
    all_goals first
      | apply ih
      | simp

/-- Every field produced by the splitter has no doubled newline. -/
theorem splitAux_pair :
    ∀ (t acc : Str) (nlRun : Nat), NoNlPair acc.reverse → acc.head? ≠ some nlChar →
      ∀ x ∈ splitSectionsAux t acc nlRun, NoNlPair x := by
  intro t
  induction t with
  | nil =>
    intro acc nlRun hpr hhd x hx
    rw [splitSectionsAux] at hx
    split at hx
    · rcases List.mem_cons.mp hx with hx | hx
      · subst hx; exact hpr
      · simp only [List.mem_singleton] at hx
        subst hx
        exact List.chain'_nil
    · split at hx
      · simp only [List.mem_singleton] at hx
        subst hx
        rw [List.reverse_cons]
        apply noNlPair_push acc.reverse nlChar hpr
        left
        rw [List.getLast?_reverse]
        exact hhd
      · simp only [List.mem_singleton] at hx
        subst hx
        exact hpr
  | cons c cs ih =>
    intro acc nlRun hpr hhd x hx
    rw [splitSectionsAux] at hx
    split at hx
    · exact ih acc (nlRun + 1) hpr hhd x hx
    · rename_i hc
      split at hx
      · rcases List.mem_cons.mp hx with hx | hx
        · subst hx; exact hpr
        · apply ih [c] 0 _ _ x hx
          · rw [List.reverse_singleton]
            exact List.chain'_singleton _
          · simpa using hc
      · split at hx
        · apply ih (c :: nlChar :: acc) 0 _ _ x hx
          · rw [List.reverse_cons, List.reverse_cons]
            apply noNlPair_push _ _ _ (Or.inr hc)
            apply noNlPair_push acc.reverse nlChar hpr
            left
            rw [List.getLast?_reverse]
            exact hhd
          · simpa using hc
        · apply ih (c :: acc) 0 _ _ x hx
          · rw [List.reverse_cons]
            exact noNlPair_push acc.reverse c hpr (Or.inr hc)
          · simpa using hc

/-- Every field of a scan started on a nonempty accumulator whose oldest
character is not a newline starts with that character or is the trailing
empty field: no such field starts with a newline. -/
theorem splitAux_headAll :
    ∀ (t acc : Str) (nlRun : Nat), acc ≠ [] → acc.getLast? ≠ some nlChar →
      ∀ x ∈ splitSectionsAux t acc nlRun, headNotNl x := by
  intro t
  induction t with
  | nil =>
    intro acc nlRun hne hlast x hx
    rw [splitSectionsAux] at hx
    split at hx
    · rcases List.mem_cons.mp hx with hx | hx
      · subst hx
        unfold headNotNl
        rw [List.head?_reverse]
        exact hlast
      · simp only [List.mem_singleton] at hx
        subst hx
        unfold headNotNl
        simp
    · split at hx
      · simp only [List.mem_singleton] at hx
        subst hx
        unfold headNotNl
        rw [List.reverse_cons]
        rcases hrv : acc.reverse with _ | ⟨y, ys⟩
        · exact absurd (List.reverse_eq_nil_iff.mp hrv) hne
        · simp only [List.cons_append, List.head?_cons]
          intro hcon
          apply hlast
          rw [← List.head?_reverse, hrv]
          exact hcon
      · simp only [List.mem_singleton] at hx
        subst hx
        unfold headNotNl
        rw [List.head?_reverse]
        exact hlast
  | cons c cs ih =>
    intro acc nlRun hne hlast x hx
    rw [splitSectionsAux] at hx
    split at hx
    · exact ih acc (nlRun + 1) hne hlast x hx
    · rename_i hc
      split at hx
      · rcases List.mem_cons.mp hx with hx | hx
        · subst hx
          unfold headNotNl
          rw [List.head?_reverse]
          exact hlast
        · exact ih [c] 0 (by simp) (by simpa using hc) x hx
      · split at hx
        · apply ih (c :: nlChar :: acc) 0 (by simp) _ x hx
          rcases acc with _ | ⟨a, as⟩
          · exact absurd rfl hne
          · rw [show (c :: nlChar :: a :: as).getLast? = (a :: as).getLast? by simp]
            exact hlast
        · apply ih (c :: acc) 0 (by simp) _ x hx
          rcases acc with _ | ⟨a, as⟩
          · exact absurd rfl hne
          · rw [show (c :: a :: as).getLast? = (a :: as).getLast? by simp]
            exact hlast

/-- Every field after the first does not start with a newline. -/
theorem splitAux_tailHeads :
    ∀ (t acc : Str) (nlRun : Nat),
      ∀ x ∈ (splitSectionsAux t acc nlRun).drop 1, headNotNl x := by
  intro t
  induction t with
  | nil =>
    intro acc nlRun x hx
    rw [splitSectionsAux] at hx
    split at hx
    · simp only [List.drop_one, List.tail_cons, List.mem_singleton] at hx
      subst hx
      unfold headNotNl
      simp
    · split at hx
      · simp only [List.drop_one, List.tail_cons, List.not_mem_nil] at hx
      · simp only [List.drop_one, List.tail_cons, List.not_mem_nil] at hx
  | cons c cs ih =>
    intro acc nlRun x hx
    rw [splitSectionsAux] at hx
    split at hx
    · exact ih acc (nlRun + 1) x hx
    · rename_i hc
      split at hx
      · simp only [List.drop_one, List.tail_cons] at hx
        exact splitAux_headAll cs [c] 0 (by simp) (by simpa using hc) x hx
      · split at hx
        · exact ih (c :: nlChar :: acc) 0 x hx
        · exact ih (c :: acc) 0 x hx

/-- Every field but the last does not end with a newline. -/
theorem splitAux_lastAll :
    ∀ (t acc : Str) (nlRun : Nat), acc.head? ≠ some nlChar →
      ∀ x ∈ (splitSectionsAux t acc nlRun).dropLast, lastNotNl x := by
  intro t
  induction t with
  | nil =>
    intro acc nlRun hhd x hx
    rw [splitSectionsAux] at hx
    split at hx
    · simp only [List.dropLast_cons₂, List.dropLast_single, List.mem_singleton] at hx
      subst hx
      unfold lastNotNl
      rw [List.getLast?_reverse]
      exact hhd
    · split at hx
      · simp only [List.dropLast_single, List.not_mem_nil] at hx
      · simp only [List.dropLast_single, List.not_mem_nil] at hx
  | cons c cs ih =>
    intro acc nlRun hhd x hx
    rw [splitSectionsAux] at hx
    split at hx
    · exact ih acc (nlRun + 1) hhd x hx
    · rename_i hc
      split at hx
      · rcases hsp : splitSectionsAux cs [c] 0 with _ | ⟨o, os⟩
        · exact absurd hsp (splitAux_ne_nil cs [c] 0)
        · rw [hsp, List.dropLast_cons₂] at hx
          rcases List.mem_cons.mp hx with hx | hx
          · subst hx
            unfold lastNotNl
            rw [List.getLast?_reverse]
            exact hhd
          · apply ih [c] 0 (by simpa using hc) x
            rw [hsp]
            exact hx
      · split at hx
        · exact ih (c :: nlChar :: acc) 0 (by simpa using hc) x hx
        · exact ih (c :: acc) 0 (by simpa using hc) x hx

/-- Dropping the first element commutes with filtering, membership-wise. -/
theorem mem_filter_drop1 {p : Str → Bool} :
    ∀ (l : List Str) (x : Str), x ∈ (List.filter p l).drop 1 → x ∈ l.drop 1 := by
  intro l
  induction l with
  | nil => intro x hx; simp at hx
  | cons a l' ih =>
    intro x hx
    by_cases hpa : p a
    · rw [List.filter_cons_of_pos hpa] at hx
      simp only [List.drop_one, List.tail_cons] at hx ⊢
      exact List.mem_of_mem_filter hx
    · rw [List.filter_cons_of_neg hpa] at hx
      have hx' := ih x hx
      simp only [List.drop_one, List.tail_cons] at hx' ⊢
      exact (List.drop_subset 1 l') (by simpa using hx')

/-- Dropping the last element commutes with filtering, membership-wise. -/
theorem mem_filter_dropLast {p : Str → Bool} :
    ∀ (l : List Str) (x : Str), x ∈ (List.filter p l).dropLast → x ∈ l.dropLast := by
  intro l
  induction l with
  | nil => intro x hx; simp at hx
  | cons a l' ih =>
    intro x hx
    by_cases hpa : p a
    · rw [List.filter_cons_of_pos hpa] at hx
      rcases hfl : List.filter p l' with _ | ⟨f, fs⟩
      · rw [hfl] at hx
        simp at hx
      · rw [hfl, List.dropLast_cons₂] at hx
        have hl' : l' ≠ [] := by
          intro h0
          rw [h0] at hfl
          simp at hfl
        rcases l' with _ | ⟨b, bs⟩
        · exact absurd rfl hl'
        · rw [List.dropLast_cons₂]
          rcases List.mem_cons.mp hx with hx | hx
          · exact hx ▸ List.mem_cons_self _ _
          · apply List.mem_cons_of_mem
            apply ih x
            rw [hfl]
            exact hx
    · rw [List.filter_cons_of_neg hpa] at hx
      have hx' := ih x hx
      rcases l' with _ | ⟨b, bs⟩
      · simp at hx'
      · rw [List.dropLast_cons₂]
        exact List.mem_cons_of_mem _ hx'

/-- The section list computed by the chunker from any text is good: its
join/split roundtrip is the identity on the slices the chunker uses. -/
theorem goodSections_sectionsOf (text : Str) : GoodSections (sectionsOf text) := by
  refine ⟨?_, ?_, ?_, ?_⟩
  · intro x hx h0
    have hpred := List.of_mem_filter hx
    rw [h0] at hpred
    simp at hpred
  · intro x hx
    exact splitAux_pair text [] 0 List.chain'_nil (by simp) x (List.mem_of_mem_filter hx)
  · intro x hx
    exact splitAux_tailHeads text [] 0 x (mem_filter_drop1 _ x hx)
  · intro x hx
    exact splitAux_lastAll text [] 0 (by simp) x (mem_filter_dropLast _ x hx)

/-- The read index of the inner loop stays within the section count. -/
theorem collectGo_i_le (sections : List Str) :
    ∀ fuel i cur wc, i ≤ sections.length →
      (collectGo fuel sections i cur wc).i ≤ sections.length := by
  intro fuel
  induction fuel with
  | zero => intro i cur wc h; simpa [collectGo] using h
  | succ fuel ih =>
    intro i cur wc h
    rw [collectGo]
    repeat' split
    all_goals first
      | exact h
      | (apply ih; omega)
      | (dsimp only; omega)
      | omega

/-- The inner loop collects exactly the consumed contiguous slice of the
section list (assuming no section is the empty string, which holds for the
filtered list the chunker passes in). -/
theorem collectGo_slice (sections : List Str) (hns : ∀ x ∈ sections, x ≠ []) :
    ∀ fuel i cur wc,
      (collectGo fuel sections i cur wc).cur =
        cur ++ ((sections.drop i).take ((collectGo fuel sections i cur wc).i - i)) := by
  intro fuel
  induction fuel with
  | zero => intro i cur wc; simp [collectGo]
  | succ fuel ih =>
    intro i cur wc
    rw [collectGo]
    split
    · rename_i hcond
      split
      · rename_i heq
        rw [List.getElem?_eq_getElem hcond.1] at heq
        cases heq
      · rename_i s heq
        have hdrop : sections.drop i = s :: sections.drop (i + 1) := by
          have heq2 := heq
          rw [List.getElem?_eq_getElem hcond.1] at heq2
          have hg : sections[i] = s := by injection heq2
          rw [List.drop_eq_getElem_cons hcond.1, hg]
        split
        · rename_i hs
          exact absurd hs (hns s (List.getElem?_mem heq))
        · split
          · split
            · rw [hdrop]
              simp
            · rw [ih (i + 1) (cur ++ [s]) (wc + countWords s)]
              have hge := collectGo_i_ge sections fuel (i + 1) (cur ++ [s]) (wc + countWords s)
              rw [hdrop]
              rw [show (collectGo fuel sections (i + 1) (cur ++ [s]) (wc + countWords s)).i - i =
                ((collectGo fuel sections (i + 1) (cur ++ [s]) (wc + countWords s)).i - (i + 1)) + 1
                from by omega]
              rw [List.take_succ_cons, List.append_assoc]
              rfl
          · split
            · simp
            · split
              · simp
              · rw [ih (i + 1) (cur ++ [s]) (wc + countWords s)]
                have hge := collectGo_i_ge sections fuel (i + 1) (cur ++ [s]) (wc + countWords s)
                rw [hdrop]
                rw [show (collectGo fuel sections (i + 1) (cur ++ [s]) (wc + countWords s)).i - i =
                  ((collectGo fuel sections (i + 1) (cur ++ [s]) (wc + countWords s)).i - (i + 1)) + 1
                  from by omega]
                rw [List.take_succ_cons, List.append_assoc]
                rfl
    · simp

/-- Membership in a shorter take implies membership in a longer take. -/
theorem mem_take_of_le {α : Type} :
    ∀ (l : List α) (m n : Nat), m ≤ n → ∀ x, x ∈ l.take m → x ∈ l.take n := by
  intro l
  induction l with
  | nil => intro m n _ x hx; simp at hx
  | cons a l' ih =>
    intro m n hmn x hx
    cases m with
    | zero => simp at hx
    | succ m' =>
      cases n with
      | zero => omega
      | succ n' =>
        rw [List.take_succ_cons] at hx ⊢
        rcases List.mem_cons.mp hx with hx | hx
        · exact hx ▸ List.mem_cons_self _ _
        · exact List.mem_cons_of_mem _ (ih m' n' (by omega) x hx)

/-- Membership in a slice implies membership in the corresponding take of
the whole list. -/
theorem mem_take_drop {α : Type} (l : List α) (i k : Nat) (x : α)
    (hx : x ∈ (l.drop i).take k) : x ∈ l.take (i + k) := by
  have h1 : (l.drop i).take k = (l.take (i + k)).drop i := by
    rw [List.drop_take]
    congr 1
    omega
  rw [h1] at hx
  exact List.drop_subset _ _ hx

/-- An element of the tail of a slice is in the tail of the whole list. -/
theorem slice_mem_drop1 {α : Type} (l : List α) (i k : Nat) (x : α)
    (hx : x ∈ ((l.drop i).take k).drop 1) : x ∈ l.drop 1 := by
  rw [List.drop_take] at hx
  have hdd : (l.drop i).drop 1 = l.drop (i + 1) := List.drop_drop 1 i l
  rw [hdd] at hx
  have hx2 : x ∈ l.drop (i + 1) := List.take_subset _ _ hx
  have hdd2 : l.drop (i + 1) = (l.drop 1).drop i := by
    rw [List.drop_drop]
    congr 1
    omega
  rw [hdd2] at hx2
  exact List.drop_subset _ _ hx2

/-- An element of a slice that stops before the end of the list is not the
last element of the list. -/
theorem slice_mem_dropLast {α : Type} (l : List α) (i k : Nat) (x : α)
    (hk : i + k ≤ l.length)
    (hx : x ∈ ((l.drop i).take k).dropLast) : x ∈ l.dropLast := by
  cases k with
  | zero => simp at hx
  | succ k' =>
    have hlen : ((l.drop i).take (k' + 1)).length = k' + 1 := by
      simp only [List.length_take, List.length_drop]
      omega
    rw [List.dropLast_eq_take, hlen] at hx
    simp only [Nat.add_sub_cancel] at hx
    rw [List.take_take] at hx
    have hmin : min k' (k' + 1) = k' := by omega
    rw [hmin] at hx
    have hx2 := mem_take_drop l i k' x hx
    rw [List.dropLast_eq_take]
    exact mem_take_of_le l (i + k') (l.length - 1) (by omega) x hx2

/-- The element at a position inside the open interior of a slice belongs
to the tail of the slice. -/
theorem getElem_mem_slice_tail {α : Type} (l : List α) (a b j : Nat)
    (hj : a + j < l.length) (hjb : j < b) :
    l.get ⟨a + j, hj⟩ ∈ (l.drop a).take b := by
  have hlen : j < ((l.drop a).take b).length := by
    simp only [List.length_take, List.length_drop]
    omega
  have hget : ((l.drop a).take b)[j] = l.get ⟨a + j, hj⟩ := by
    rw [List.getElem_take, List.getElem_drop, List.get_eq_getElem]
  rw [← hget]
  exact List.getElem_mem hlen

/-- When the just-closed chunk has at least two sections, the backtracking
loop takes at least one step. -/
theorem overlapSteps_pos (sections : List Str) (i curLen : Nat) (h2 : 2 ≤ curLen) :
    1 ≤ overlapSteps sections i curLen 0 0 := by
  unfold overlapSteps
  rcases hf : curLen + 1 with _ | fuel
  · omega
  · rw [overlapStepsGo]
    rw [if_pos (by constructor <;> [simp [overlapWords]; omega])]
    split
    · split
      · exact overlapStepsGo_ge sections i curLen fuel 0 1
      · exact overlapStepsGo_ge sections i curLen fuel _ 1
    · exact overlapStepsGo_ge sections i curLen fuel 0 1

/-- The blank-line decomposition of an emitted chunk's text is exactly the
slice of input sections it was built from. -/
theorem chunkStep_sections (md : Option DocumentHeaderMetadata) (sections : List Str)
    (good : GoodSections sections) (j cj : Nat) (hj : j < sections.length) :
    sectionsOf ((chunkStep md sections j cj).1).text = (collect sections j [] 0).cur := by
  have hns : ∀ x ∈ sections, x ≠ [] := by
    intro x hx hxe
    exact good.1 x hx (by rw [hxe]; rfl)
  have htext : ((chunkStep md sections j cj).1).text =
      joinSections (collect sections j [] 0).cur := rfl
  rw [htext]
  have hslice : (collect sections j [] 0).cur =
      (sections.drop j).take ((collect sections j [] 0).i - j) := by
    simpa using collectGo_slice sections hns (sections.length + 1) j [] 0
  have hile : (collect sections j [] 0).i ≤ sections.length :=
    collectGo_i_le sections (sections.length + 1) j [] 0 (le_of_lt hj)
  have hige : j + 1 ≤ (collect sections j [] 0).i :=
    collectGo_ip1 sections sections.length j 0 hj (by simp [targetWords])
  have hsub : ∀ x ∈ (collect sections j [] 0).cur, x ∈ sections := by
    intro x hx
    rw [hslice] at hx
    exact List.drop_subset _ _ (List.take_subset _ _ hx)
  apply sectionsOf_join
  · intro x hx
    exact good.1 x (hsub x hx)
  · intro x hx
    exact good.2.1 x (hsub x hx)
  · intro x hx
    rw [hslice] at hx
    exact good.2.2.1 x (slice_mem_drop1 sections j _ x hx)
  · intro x hx
    rw [hslice] at hx
    exact good.2.2.2 x (slice_mem_dropLast sections j _ x (by omega) hx)
  · rw [hslice]
    intro hnil
    have hlen : ((sections.drop j).take ((collect sections j [] 0).i - j)).length = 0 := by
      rw [hnil]; rfl
    simp only [List.length_take, List.length_drop] at hlen
    omega

/-- The first section of an emitted chunk is the input section at the read
position the chunk started from. -/
theorem chunkStep_head_section (md : Option DocumentHeaderMetadata) (sections : List Str)
    (good : GoodSections sections) (j cj : Nat) (hj : j < sections.length) :
    (sectionsOf ((chunkStep md sections j cj).1).text).head? = some (sections.get ⟨j, hj⟩) := by
  rw [chunkStep_sections md sections good j cj hj]
  have hns : ∀ x ∈ sections, x ≠ [] := by
    intro x hx hxe
    exact good.1 x hx (by rw [hxe]; rfl)
  have hslice : (collect sections j [] 0).cur =
      (sections.drop j).take ((collect sections j [] 0).i - j) := by
    simpa using collectGo_slice sections hns (sections.length + 1) j [] 0
  have hige : j + 1 ≤ (collect sections j [] 0).i :=
    collectGo_ip1 sections sections.length j 0 hj (by simp [targetWords])
  rw [hslice, List.drop_eq_getElem_cons hj]
  rcases hk : (collect sections j [] 0).i - j with _ | k
  · omega
  · rw [List.take_succ_cons]
    simp [List.get_eq_getElem]

/-- Successive chunks: when the just-emitted chunk has at least two
sections and another chunk follows, the next chunk's first section is one
of the previous chunk's sections after the first (the overlap rewind lands
strictly inside the previous chunk). -/
theorem chunkStep_pair (md : Option DocumentHeaderMetadata) (sections : List Str)
    (good : GoodSections sections)
    (hnt : ∀ x ∈ sections, isTableSection x = false)
    (i ci cj : Nat) (hi : i < sections.length)
    (hnext : (chunkStep md sections i ci).2 < sections.length)
    (h2 : 2 ≤ (sectionsOf ((chunkStep md sections i ci).1).text).length) :
    (sectionsOf ((chunkStep md sections (chunkStep md sections i ci).2 cj).1).text).head? ∈
      ((sectionsOf ((chunkStep md sections i ci).1).text).drop 1).map some := by
  have hns : ∀ x ∈ sections, x ≠ [] := by
    intro x hx hxe
    exact good.1 x hx (by rw [hxe]; rfl)
  have hsect := chunkStep_sections md sections good i ci hi
  rw [hsect] at h2 ⊢
  have hslice : (collect sections i [] 0).cur =
      (sections.drop i).take ((collect sections i [] 0).i - i) := by
    simpa using collectGo_slice sections hns (sections.length + 1) i [] 0
  have hile : (collect sections i [] 0).i ≤ sections.length :=
    collectGo_i_le sections (sections.length + 1) i [] 0 (le_of_lt hi)
  have hige : i + 1 ≤ (collect sections i [] 0).i :=
    collectGo_ip1 sections sections.length i 0 hi (by simp [targetWords])
  have hL : (collect sections i [] 0).cur.length = (collect sections i [] 0).i - i := by
    rw [hslice]
    simp only [List.length_take, List.length_drop]
    omega
  rw [hL] at h2
  have hsub : ∀ x ∈ (collect sections i [] 0).cur, x ∈ sections := by
    intro x hx
    rw [hslice] at hx
    exact List.drop_subset _ _ (List.take_subset _ _ hx)
  have hlastfalse :
      (match (collect sections i [] 0).cur.getLast? with
        | some s => isTableSection s
        | none => false) = false := by
    rcases hgl : (collect sections i [] 0).cur.getLast? with _ | s
    · rfl
    · exact hnt s (hsub s (List.mem_of_mem_getLast? hgl))
  have hoi : (collect sections i [] 0).i < sections.length := by
    by_contra hno
    have h0 : (chunkStep md sections i ci).2 = (collect sections i [] 0).i := by
      unfold chunkStep
      dsimp only
      rw [if_neg]
      rintro ⟨_, hlt⟩
      exact hno hlt
    rw [h0] at hnext
    exact hno hnext
  have hstep2 : (chunkStep md sections i ci).2 =
      (collect sections i [] 0).i -
        overlapSteps sections (collect sections i [] 0).i
          (collect sections i [] 0).cur.length 0 0 := by
    unfold chunkStep
    dsimp only
    rw [if_pos ⟨hlastfalse, hoi⟩]
  have hr1 : 1 ≤ overlapSteps sections (collect sections i [] 0).i
      (collect sections i [] 0).cur.length 0 0 :=
    overlapSteps_pos sections _ _ (by omega)
  have hr2 : overlapSteps sections (collect sections i [] 0).i
      (collect sections i [] 0).cur.length 0 0 ≤ (collect sections i [] 0).cur.length - 1 := by
    have := overlapStepsGo_le sections (collect sections i [] 0).i
      (collect sections i [] 0).cur.length ((collect sections i [] 0).cur.length + 1) 0 0
    simpa [overlapSteps, Nat.max_def] using this
  rw [chunkStep_head_section md sections good _ cj hnext]
  rw [hslice, List.drop_take, List.drop_drop]
  apply List.mem_map.mpr
  refine ⟨_, ?_, rfl⟩
  have hmem := getElem_mem_slice_tail sections (i + 1) ((collect sections i [] 0).i - i - 1)
    ((chunkStep md sections i ci).2 - (i + 1))
    (by rw [hstep2]; omega)
    (by rw [hstep2]; omega)
  convert hmem using 2
  apply Fin.ext
  show (chunkStep md sections i ci).2 = i + 1 + ((chunkStep md sections i ci).2 - (i + 1))
  rw [hstep2]
  omega

/-- Adjacent chunks of the loop output, `getElem?` formulation: when the
earlier chunk has at least two sections, the later chunk starts with one of
the earlier chunk's later sections. -/
theorem chunkLoopGo_pairs (md : Option DocumentHeaderMetadata) (sections : List Str)
    (good : GoodSections sections)
    (hnt : ∀ x ∈ sections, isTableSection x = false) :
    ∀ fuel i ci k (ck ck1 : Chunk),
      (chunkLoopGo fuel md sections i ci)[k]? = some ck →
      (chunkLoopGo fuel md sections i ci)[k + 1]? = some ck1 →
      2 ≤ (sectionsOf ck.text).length →
      (sectionsOf ck1.text).head? ∈ ((sectionsOf ck.text).drop 1).map some := by
  intro fuel
  induction fuel with
  | zero =>
    intro i ci k ck ck1 hck _ _
    rw [chunkLoopGo] at hck
    simp at hck
  | succ fuel ih =>
    intro i ci k ck ck1 hck hck1 h2
    by_cases hi : i < sections.length
    · have heq : chunkLoopGo (fuel + 1) md sections i ci =
          (chunkStep md sections i ci).1 ::
            chunkLoopGo fuel md sections (chunkStep md sections i ci).2 (ci + 1) := by
        rw [chunkLoopGo, if_pos hi]
      rw [heq] at hck hck1
      cases k with
      | zero =>
        rw [List.getElem?_cons_zero] at hck
        injection hck with hck
        subst hck
        rw [List.getElem?_cons_succ] at hck1
        rcases fuel with _ | f
        · rw [chunkLoopGo] at hck1
          simp at hck1
        · by_cases hi2 : (chunkStep md sections i ci).2 < sections.length
          · rw [chunkLoopGo, if_pos hi2, List.getElem?_cons_zero] at hck1
            injection hck1 with hck1
            subst hck1
            exact chunkStep_pair md sections good hnt i ci (ci + 1) hi hi2 h2
          · rw [chunkLoopGo, if_neg hi2] at hck1
            simp at hck1
      | succ k' =>
        rw [List.getElem?_cons_succ] at hck hck1
        exact ih (chunkStep md sections i ci).2 (ci + 1) k' ck ck1 hck hck1 h2
    · rw [chunkLoopGo, if_neg hi] at hck
      simp at hck

/-- Claim C1, amended — overlap correctness: for every input whose
blank-line sections are all non-table, every chunk of
`_chunkByParagraphsAndTables` that follows a chunk built from at least two
sections begins with one of that previous chunk's sections after its first
(the overlap rewind re-reads a trailing portion of the previous chunk).
The claim as frozen fails for a previous chunk built from a single
section — `backtrackSteps < currentSections.length - 1` forbids any rewind
then — which `c1_overlap_counterexample` exhibits. -/
theorem c1_overlap_amended (md : Option DocumentHeaderMetadata) (text : Str)
    (hnt : ∀ x ∈ sectionsOf text, isTableSection x = false)
    (k : Nat) (ck ck1 : Chunk)
    (hck : (chunkByParagraphsAndTables md text)[k]? = some ck)
    (hck1 : (chunkByParagraphsAndTables md text)[k + 1]? = some ck1)
    (h2 : 2 ≤ (sectionsOf ck.text).length) :
    (sectionsOf ck1.text).head? ∈ ((sectionsOf ck.text).drop 1).map some :=
  chunkLoopGo_pairs md (sectionsOf text) (goodSections_sectionsOf text) hnt
    ((sectionsOf text).length + 1) 0 0 k ck ck1 hck hck1 h2

set_option maxRecDepth 40000 in
/-- Witness for the amended C1 at `awText`: the second chunk starts with
the second of the first chunk's two sections. -/
theorem c1_overlap_amended_witness :
    (sectionsOf ((chunkByParagraphsAndTables none awText).get ⟨1, by decide⟩).text).head? ∈
      ((sectionsOf ((chunkByParagraphsAndTables none awText).get ⟨0, by decide⟩).text).drop 1).map
        some :=
  c1_overlap_amended none awText (by decide) 0
    ((chunkByParagraphsAndTables none awText).get ⟨0, by decide⟩)
    ((chunkByParagraphsAndTables none awText).get ⟨1, by decide⟩)
    (by decide) (by decide) (by decide)

set_option maxRecDepth 40000 in
/-- Counterexample to claim C1 as stated: in `cexText` no section is a
table, the chunker returns exactly the two chunks whose blank-line
decompositions are the two disjoint input sections, so the second chunk
shares no section — in particular no trailing section — with the first. -/
theorem c1_overlap_counterexample :
    (∀ x ∈ sectionsOf cexText, isTableSection x = false) ∧
    (chunkByParagraphsAndTables none cexText).map (fun c => sectionsOf c.text) =
      [[("one two three four five six seven eight nine ten").data], [bigPara]] ∧
    (∀ x ∈ [("one two three four five six seven eight nine ten").data], x ∉ [bigPara]) := by
  decide


/-- The selection in `_identifySections` reduces to a two-way comparison:
the numbered result wins exactly when its confidence is strictly higher
(stable sort; lettered first on ties). -/
lemma identifySections_cases (html : Str) :
    identifySections html =
      if (applyLetterStrategy html).confidence < (applyNumberStrategy html).confidence
      then applyNumberStrategy html
      else applyLetterStrategy html := by
  simp only [identifySections]
  split_ifs with h <;> rfl

/-- The lettered strategy returns either the literal zero result or a
nonzero confidence: every early bail-out yields `sections = []` and
confidence 0, while the ladder always awards at least 3/10 once one
`<li><strong>` item exists. -/
lemma applyLetterStrategy_zero_or (html : Str) :
    applyLetterStrategy html = ⟨("lettered").data, [], 0⟩ ∨
    (applyLetterStrategy html).confidence ≠ 0 := by
  simp only [applyLetterStrategy]
  split
  · left; rfl
  · rename_i mainList
    split_ifs with h1 h2 h3 h4 h5 h6 h7
    · left; rfl
    · left; rfl
    · left; rfl
    · right; show mkRat 9 10 ≠ 0; decide
    · right; show mkRat 7 10 ≠ 0; decide
    · right; show mkRat 1 2 ≠ 0; decide
    · right; show mkRat 3 10 ≠ 0; decide
    · exfalso
      simp only [List.length_map, List.enum_length, not_le, Nat.lt_one_iff] at h7
      exact h2 h7

/-- The numbered strategy returns either the literal zero result or a
nonzero confidence. -/
lemma applyNumberStrategy_zero_or (html : Str) :
    applyNumberStrategy html = ⟨("numbered").data, [], 0⟩ ∨
    (applyNumberStrategy html).confidence ≠ 0 := by
  simp only [applyNumberStrategy]
  split_ifs with h1 h2 h3 h4
  · left; rfl
  · right; show mkRat 9 10 ≠ 0; decide
  · right; show mkRat 7 10 ≠ 0; decide
  · right; show mkRat 2 5 ≠ 0; decide
  · exfalso
    simp only [List.length_map, List.enum_length, not_le, Nat.lt_one_iff] at h4
    exact h1 h4

/-- C2 (amended): when both strategies return confidence 0,
`_identifySections` does NOT return a fallback result; the stable sort
keeps the lettered result first, so the function returns the lettered
zero result: strategy "lettered", no sections, confidence 0.  The
`?? fallback` default only guards an empty array and is dead code. -/
theorem c2_zero_confidence_amended (html : Str)
    (hL : (applyLetterStrategy html).confidence = 0)
    (hN : (applyNumberStrategy html).confidence = 0) :
    identifySections html = ⟨("lettered").data, [], 0⟩ := by
  have eL := (applyLetterStrategy_zero_or html).resolve_right (fun h => h hL)
  rw [identifySections_cases, hL, hN, if_neg (lt_irrefl (0 : ℚ))]
  exact eL

theorem c2_zero_confidence_amended_witness :
    (applyLetterStrategy []).confidence = 0 ∧
    (applyNumberStrategy []).confidence = 0 ∧
    identifySections [] = ⟨("lettered").data, [], 0⟩ :=
  ⟨by decide, by decide, c2_zero_confidence_amended [] (by decide) (by decide)⟩

/-- C2 counterexample: on the empty document both strategies yield
confidence 0, yet the returned strategy is "lettered", not the claimed
"fallback". -/
theorem c2_zero_confidence_counterexample :
    (applyLetterStrategy []).confidence = 0 ∧
    (applyNumberStrategy []).confidence = 0 ∧
    (identifySections []).strategy ≠ ("fallback").data ∧
    (identifySections []).strategy = ("lettered").data := by decide

/-- C7: the classifier returns the strategy result with the strictly
higher confidence, and on ties the lettered result (fixed priority:
lettered before numbered; the fallback never participates). -/
theorem c7_strategy_selection (html : Str) :
    ((applyNumberStrategy html).confidence < (applyLetterStrategy html).confidence →
      identifySections html = applyLetterStrategy html) ∧
    ((applyLetterStrategy html).confidence < (applyNumberStrategy html).confidence →
      identifySections html = applyNumberStrategy html) ∧
    ((applyLetterStrategy html).confidence = (applyNumberStrategy html).confidence →
      identifySections html = applyLetterStrategy html) := by
  refine ⟨fun h => ?_, fun h => ?_, fun h => ?_⟩ <;> rw [identifySections_cases]
  · exact if_neg (not_lt.mpr (le_of_lt h))
  · exact if_pos h
  · exact if_neg (h ▸ lt_irrefl _)

set_option maxRecDepth 40000 in
theorem c7_strategy_selection_witness :
    identifySections clsLetterHtml = applyLetterStrategy clsLetterHtml ∧
    identifySections clsNumberHtml = applyNumberStrategy clsNumberHtml ∧
    identifySections [] = applyLetterStrategy [] :=
  ⟨(c7_strategy_selection clsLetterHtml).1 (by decide),
   (c7_strategy_selection clsNumberHtml).2.1 (by decide),
   (c7_strategy_selection []).2.2 (by decide)⟩


/-- Dropping a whitespace run twice is the same as dropping it once. -/
lemma dropWhile_ws_idem (l : Str) :
    (l.dropWhile ws).dropWhile ws = l.dropWhile ws := by
  induction l with
  | nil => rfl
  | cons c t ih =>
    by_cases h : ws c
    · simp [List.dropWhile_cons, h, ih]
    · simp [List.dropWhile_cons, h]

/-- `trim` absorbs a prior leading-whitespace strip. -/
lemma jsTrim_dropWhile (l : Str) : jsTrim (l.dropWhile ws) = jsTrim l := by
  unfold jsTrim
  rw [dropWhile_ws_idem]

/-- Two case-insensitive literal prefixes of the same string agree on
their lowered first character; contrapositively, literals with distinct
lowered first characters cannot both match. -/
lemma matchesCI_excl (c1 c2 : Char) (p1 p2 s : Str)
    (hne : c1.toLower ≠ c2.toLower)
    (h : matchesCI (c2 :: p2) s = true) :
    matchesCI (c1 :: p1) s = false := by
  cases s with
  | nil => simp [matchesCI] at h
  | cons d t =>
    have hd : c2.toLower = d.toLower := by
      have hh := h
      simp [matchesCI] at hh
      exact hh.1
    simp only [matchesCI, Bool.and_eq_false_iff, decide_eq_false_iff_not]
    left
    intro hq
    exact hne (hq.trans hd.symm)

/-- The four header labels are mutually exclusive as case-insensitive
prefixes, so `find?` over the alternation returns any label known to
match. -/
lemma headerLabels_find (s : Str) (L : Str) (hL : L ∈ headerLabels)
    (h : matchesCI L s = true) :
    headerLabels.find? (fun l => matchesCI l s) = some L := by
  simp only [headerLabels, List.mem_cons, List.not_mem_nil, or_false] at hL
  rcases hL with hL | hL | hL | hL <;> subst hL
  · simp [headerLabels, List.find?, h]
  · have h1 : matchesCI ("Procedure Title:").data s = false :=
      matchesCI_excl 'P' 'N' (("rocedure Title:").data) (("umber:").data) s (by decide) h
    simp [headerLabels, List.find?, h1, h]
  · have h1 : matchesCI ("Procedure Title:").data s = false :=
      matchesCI_excl 'P' 'E' (("rocedure Title:").data) (("ffective:").data) s (by decide) h
    have h2 : matchesCI ("Number:").data s = false :=
      matchesCI_excl 'N' 'E' (("umber:").data) (("ffective:").data) s (by decide) h
    simp [headerLabels, List.find?, h1, h2, h]
  · have h1 : matchesCI ("Procedure Title:").data s = false :=
      matchesCI_excl 'P' 'R' (("rocedure Title:").data) (("evision:").data) s (by decide) h
    have h2 : matchesCI ("Number:").data s = false :=
      matchesCI_excl 'N' 'R' (("umber:").data) (("evision:").data) s (by decide) h
    have h3 : matchesCI ("Effective:").data s = false :=
      matchesCI_excl 'E' 'R' (("ffective:").data) (("evision:").data) s (by decide) h
    simp [headerLabels, List.find?, h1, h2, h3, h]

/-- C8: when the concatenated literal text runs of a header cell begin
(case-insensitively) with one of the labels "Procedure Title:",
"Number:", "Effective:" or "Revision:", `_extractTextFromCell` returns
the concatenation with the leading label removed and the surrounding
whitespace trimmed. -/
theorem c8_metadata_label_strip (p : CellPara) (L : Str)
    (hL : L ∈ headerLabels) (h : matchesCI L (cellConcat p) = true) :
    extractTextFromCell p = jsTrim ((cellConcat p).drop L.length) := by
  unfold extractTextFromCell stripLabel
  rw [headerLabels_find (cellConcat p) L hL h]
  exact jsTrim_dropWhile _

set_option maxRecDepth 10000 in
theorem c8_metadata_label_strip_witness :
    ("Procedure Title:").data ∈ headerLabels ∧
    matchesCI ("Procedure Title:").data (cellConcat exCell) = true ∧
    extractTextFromCell exCell = jsTrim ((cellConcat exCell).drop (("Procedure Title:").data).length) ∧
    extractTextFromCell exCell = ("Software Change Control").data :=
  ⟨by decide, by decide,
   c8_metadata_label_strip exCell (("Procedure Title:").data) (by decide) (by decide),
   by decide⟩


/-- A matcher that matches at no position leaves the text unchanged, for
every fuel. -/
lemma replaceGGo_nomatch (m : Str → Option (Str × Str)) (fuel : Nat) (s : Str)
    (h : ∀ i, m (s.drop i) = none) : replaceGGo m fuel s = s := by
  induction fuel generalizing s with
  | zero => rfl
  | succ n ih =>
    cases s with
    | nil => rfl
    | cons c t =>
      have h0 : m (c :: t) = none := by simpa using h 0
      have ht : ∀ i, m (t.drop i) = none := fun i => by simpa using h (i + 1)
      simp only [replaceGGo, h0]
      rw [ih t ht]

/-- Folding global replaces whose rules all match nowhere is the
identity. -/
lemma foldl_replace_nomatch (ms : List (Str → Option (Str × Str))) (s : Str)
    (h : ∀ m ∈ ms, ∀ i, m (s.drop i) = none) :
    ms.foldl (fun acc m => replaceGGo m (acc.length + 1) acc) s = s := by
  induction ms with
  | nil => rfl
  | cons m rest ih =>
    have e : replaceGGo m (s.length + 1) s = s :=
      replaceGGo_nomatch m (s.length + 1) s (h m (List.mem_cons_self m rest))
    simp only [List.foldl_cons, e]
    exact ih (fun m2 hm2 => h m2 (List.mem_cons_of_mem m hm2))

/-- Positions beyond the length all present the empty suffix, so a
bounded no-match hypothesis extends to every position. -/
lemma nomatch_of_bounded (m : Str → Option (Str × Str)) (s : Str)
    (h : ∀ i, i ≤ s.length → m (s.drop i) = none) :
    ∀ i, m (s.drop i) = none := by
  intro i
  rcases le_or_lt i s.length with hi | hi
  · exact h i hi
  · have e : s.drop i = [] := List.drop_eq_nil_of_le (le_of_lt hi)
    have e2 : s.drop s.length = [] := List.drop_eq_nil_of_le le_rfl
    rw [e, ← e2]
    exact h s.length le_rfl

/-- A text all of whose `\n\n+` fields are whitespace-only has an empty
section list. -/
lemma sectionsOf_all_ws (text : Str)
    (h : ∀ sec ∈ splitSections text, jsTrim sec = []) :
    sectionsOf text = [] := by
  unfold sectionsOf
  rw [List.filter_eq_nil]
  intro a ha
  simp [h a ha]

/-- C9: chunking is total and returns the empty chunk list on the empty
string and on every input all of whose sections are whitespace-only; the
cleansing functions are total and leave any text unchanged on which none
of their rules matches at any position. -/
theorem c9_totality_empty (md : Option DocumentHeaderMetadata) (text s : Str)
    (hws : ∀ sec ∈ splitSections text, jsTrim sec = [])
    (himg : ∀ i, i ≤ s.length → imgMatchAt (s.drop i) = none)
    (hsig : ∀ m ∈ sigRules, ∀ i, i ≤ s.length → m (s.drop i) = none) :
    chunkByParagraphsAndTables md [] = [] ∧
    chunkByParagraphsAndTables md text = [] ∧
    removeImgTagsFromText s = s ∧
    normalizeSignatureLines s = s ∧
    cleanseText s = s := by
  have hsec : sectionsOf text = [] := sectionsOf_all_ws text hws
  have h2 : chunkByParagraphsAndTables md text = [] := by
    unfold chunkByParagraphsAndTables
    rw [hsec]
    rfl
  have h3 : removeImgTagsFromText s = s :=
    replaceGGo_nomatch _ _ _ (nomatch_of_bounded _ _ himg)
  have h4 : normalizeSignatureLines s = s :=
    foldl_replace_nomatch _ _ (fun m hm => nomatch_of_bounded _ _ (hsig m hm))
  refine ⟨rfl, h2, h3, h4, ?_⟩
  unfold cleanseText
  rw [h3, h4]

theorem c9_totality_empty_witness :
    chunkByParagraphsAndTables none wsOnlyText = [] ∧
    removeImgTagsFromText plainText = plainText ∧
    normalizeSignatureLines plainText = plainText ∧
    cleanseText plainText = plainText := by
  have h := c9_totality_empty none wsOnlyText plainText (by decide) (by decide) (by decide)
  exact ⟨h.2.1, h.2.2.1, h.2.2.2.1, h.2.2.2.2⟩


lemma trace_exists (m : Str → Option (Str × Str)) (hm : MatcherSplits m) :
    ∀ (fuel : Nat) (v : Str), v.length ≤ fuel →
    ∃ tr, segSource tr = v ∧ segRender tr = replaceGGo m fuel v ∧ SegWF m tr := by
  intro fuel
  induction fuel with
  | zero =>
    intro v hv
    have : v = [] := List.length_eq_zero.mp (Nat.le_zero.mp hv)
    exact ⟨[], by simp [this, segSource], by simp [this, segRender, replaceGGo], trivial⟩
  | succ n ih =>
    intro v hv
    cases v with
    | nil => exact ⟨[], rfl, rfl, trivial⟩
    | cons c t =>
      cases hmc : m (c :: t) with
      | none =>
        obtain ⟨tr, h1, h2, h3⟩ := ih t (by simpa using Nat.le_of_succ_le_succ hv)
        refine ⟨.keep c :: tr, by simp [segSource, h1], ?_, ?_⟩
        · simp only [segRender, h2, replaceGGo, hmc]
        · exact ⟨by rw [h1]; exact hmc, h3⟩
      | some pr =>
        obtain ⟨rep, rest⟩ := pr
        obtain ⟨con, hcon, hsplit⟩ := hm _ _ _ hmc
        have hrl : rest.length ≤ n := by
          have : (c :: t).length = con.length + rest.length := by
            rw [hsplit, List.length_append]
          have hc1 : 1 ≤ con.length := by
            cases con with
            | nil => exact absurd rfl hcon
            | cons a b => simp
          simp only [List.length_cons] at this hv
          omega
        obtain ⟨tr, h1, h2, h3⟩ := ih rest hrl
        refine ⟨.repl con rep :: tr, ?_, ?_, ?_⟩
        · simp [segSource, h1, hsplit]
        · simp only [segRender, h2, replaceGGo, hmc]
        · exact ⟨by rw [h1, ← hsplit]; exact hmc, hcon, h3⟩

/-- Suffix-based formulation: no match at any suffix. -/
lemma nmAll_iff_suffix (m : Str → Option (Str × Str)) (v : Str) :
    NMAll m v ↔ ∀ u, u <:+ v → m u = none := by
  constructor
  · intro h u hu
    obtain ⟨p, hp⟩ := hu
    have : u = v.drop p.length := by rw [← hp]; simp
    rw [this]; exact h p.length
  · intro h i
    exact h _ (List.drop_suffix i v)

lemma split_drop (u : Str) (k : Nat) (hk : 1 ≤ k) (hu : u ≠ []) :
    ∃ con, con ≠ [] ∧ u = con ++ u.drop k := by
  refine ⟨u.take k, ?_, (List.take_append_drop k u).symm⟩
  cases u with
  | nil => exact absurd rfl hu
  | cons c t =>
    cases k with
    | zero => omega
    | succ k2 => simp [List.take_succ_cons]

lemma isLitPrefix_ne_nil (x : Char) (p u : Str) (h : isLitPrefix (x :: p) u = true) :
    u ≠ [] := by
  cases u with
  | nil => simp [isLitPrefix] at h
  | cons a b => simp

lemma matchesCI_ne_nil (x : Char) (p u : Str) (h : matchesCI (x :: p) u = true) :
    u ≠ [] := by
  cases u with
  | nil => simp [matchesCI] at h
  | cons a b => simp

lemma dropWhile_eq_drop (p : Char → Bool) (l : Str) :
    l.dropWhile p = l.drop (l.takeWhile p).length := by
  induction l with
  | nil => rfl
  | cons c t ih =>
    by_cases h : p c <;> simp [List.dropWhile_cons, List.takeWhile_cons, h, ih]

lemma drop_cons_succ (l : Str) (n : Nat) (a : Char) (t : Str)
    (h : l.drop n = a :: t) : l.drop (n + 1) = t := by
  rw [← List.drop_drop 1 n l, h]
  rfl

/-- Inversion for the underscore tail: the remainder is a drop of at
least five characters (the whitespace run plus at least five
underscores). -/
lemma underTail_some (s rest : Str) (h : underTail s = some rest) :
    ∃ k, 5 ≤ k ∧ rest = s.drop k := by
  simp only [underTail] at h
  split_ifs at h with h5
  refine ⟨(s.takeWhile ws).length + ((s.dropWhile ws).takeWhile (fun c => c = '_')).length,
    by omega, ?_⟩
  rw [← List.drop_drop, ← dropWhile_eq_drop]
  exact (Option.some.injEq _ _ ▸ h).symm

lemma imgMatchAt_splits : MatcherSplits imgMatchAt := by
  intro u rep rest h
  simp only [imgMatchAt] at h
  split_ifs at h with h1 h2 h3 h4
  simp only [Option.some.injEq, Prod.mk.injEq] at h
  obtain ⟨hrep, hrest⟩ := h
  rw [← hrest]
  simp only [List.drop_drop]
  exact split_drop u _ (by omega) (isLitPrefix_ne_nil _ _ _ h1)

lemma labelUnderMatchAt_splits (label rep0 : Str) (hl : label ≠ []) :
    MatcherSplits (labelUnderMatchAt label rep0) := by
  intro u rep rest h
  simp only [labelUnderMatchAt] at h
  split_ifs at h with h1
  cases hut : underTail (u.drop label.length) with
  | none => rw [hut] at h; exact absurd h (by simp)
  | some r2 =>
    rw [hut] at h
    simp only [Option.some.injEq, Prod.mk.injEq] at h
    obtain ⟨hrep, hrest⟩ := h
    obtain ⟨k, hk, hr⟩ := underTail_some _ _ hut
    rw [← hrest, hr, List.drop_drop]
    cases label with
    | nil => exact absurd rfl hl
    | cons x p => exact split_drop u _ (by omega) (matchesCI_ne_nil x p u h1)

lemma commentsMatchAt_splits : MatcherSplits commentsMatchAt := by
  intro u rep rest h
  simp only [commentsMatchAt] at h
  split_ifs at h with h1 h2
  · cases hut : underTail (u.drop 9) with
    | none => rw [hut] at h; exact absurd h (by simp)
    | some r2 =>
      rw [hut] at h
      simp only [Option.some.injEq, Prod.mk.injEq] at h
      obtain ⟨hrep, hrest⟩ := h
      obtain ⟨k, hk, hr⟩ := underTail_some _ _ hut
      rw [← hrest, hr, List.drop_drop]
      exact split_drop u _ (by omega) (matchesCI_ne_nil _ _ u h1)
  · cases hut : underTail (u.drop 8) with
    | none => rw [hut] at h; exact absurd h (by simp)
    | some r2 =>
      rw [hut] at h
      simp only [Option.some.injEq, Prod.mk.injEq] at h
      obtain ⟨hrep, hrest⟩ := h
      obtain ⟨k, hk, hr⟩ := underTail_some _ _ hut
      rw [← hrest, hr, List.drop_drop]
      exact split_drop u _ (by omega) (matchesCI_ne_nil _ _ u h2)

lemma takeWhile_long_ne_nil (p : Char → Bool) (u : Str) (n : Nat)
    (h : n + 1 ≤ (u.takeWhile p).length) : u ≠ [] := by
  cases u with
  | nil => simp at h
  | cons a b => simp

lemma approvalMatchAt_splits : MatcherSplits approvalMatchAt := by
  intro u rep rest h
  simp only [approvalMatchAt] at h
  split_ifs at h with h1
  cases hut : underTail (u.drop ((u.takeWhile alphaWs).length + 1)) with
  | none => rw [hut] at h; exact absurd h (by simp)
  | some r2 =>
    rw [hut] at h
    simp only [Option.some.injEq, Prod.mk.injEq] at h
    obtain ⟨hrep, hrest⟩ := h
    obtain ⟨k, hk, hr⟩ := underTail_some _ _ hut
    rw [← hrest, hr, List.drop_drop]
    exact split_drop u _ (by omega) (takeWhile_long_ne_nil alphaWs u 7 (by omega))

lemma labelRunMatchAt_splits : MatcherSplits labelRunMatchAt := by
  intro u rep rest h
  simp only [labelRunMatchAt] at h
  split_ifs at h with h1
  split at h
  next r1 heq =>
    cases hut : underTail r1 with
    | none => rw [hut] at h; exact absurd h (by simp)
    | some r2 =>
      rw [hut] at h
      simp only [Option.some.injEq, Prod.mk.injEq] at h
      obtain ⟨hrep, hrest⟩ := h
      obtain ⟨k, hk, hr⟩ := underTail_some _ _ hut
      have hr1 : r1 = u.drop ((u.takeWhile alphaWs).length + 1) :=
        (drop_cons_succ u _ _ _ heq).symm
      rw [← hrest, hr, hr1, List.drop_drop]
      exact split_drop u _ (by omega) (takeWhile_long_ne_nil alphaWs u 0 (by omega))
  next heq => exact absurd h (by simp)

lemma underLineMatchAt_splits : MatcherSplits underLineMatchAt := by
  intro u rep rest h
  simp only [underLineMatchAt] at h
  split_ifs at h with h1
  simp only [Option.some.injEq, Prod.mk.injEq] at h
  obtain ⟨hrep, hrest⟩ := h
  rw [← hrest]
  exact split_drop u _ (by omega) (takeWhile_long_ne_nil (fun c => c = '_') u 9 (by omega))

lemma NMAll_cons_iff (m : Str → Option (Str × Str)) (c : Char) (x : Str) :
    NMAll m (c :: x) ↔ m (c :: x) = none ∧ NMAll m x := by
  constructor
  · intro h
    exact ⟨h 0, fun i => h (i + 1)⟩
  · rintro ⟨h0, h⟩ i
    cases i with
    | zero => exact h0
    | succ j => exact h j

lemma NMAll_append_iff (m : Str → Option (Str × Str)) (a b : Str) :
    NMAll m (a ++ b) ↔ (∀ i, i < a.length → m (a.drop i ++ b) = none) ∧ NMAll m b := by
  constructor
  · intro h
    refine ⟨fun i hi => ?_, fun j => ?_⟩
    · have := h i
      rwa [List.drop_append_eq_append_drop, Nat.sub_eq_zero_of_le (le_of_lt hi),
        List.drop_zero] at this
    · have := h (a.length + j)
      rwa [List.drop_append_eq_append_drop, List.drop_eq_nil_of_le (by omega),
        Nat.add_sub_cancel_left, List.nil_append] at this
  · rintro ⟨h1, h2⟩ i
    rw [List.drop_append_eq_append_drop]
    rcases lt_or_le i a.length with hi | hi
    · rw [Nat.sub_eq_zero_of_le (le_of_lt hi), List.drop_zero]
      exact h1 i hi
    · rw [List.drop_eq_nil_of_le hi, List.nil_append]
      exact h2 (i - a.length)

lemma underLineMatchAt_none_iff (u : Str) :
    underLineMatchAt u = none ↔ urun u < 10 := by
  simp only [underLineMatchAt, urun]
  split_ifs with h <;> simp <;> omega

lemma underLineMatchAt_some_inv (u rep rest : Str)
    (h : underLineMatchAt u = some (rep, rest)) :
    rep = ("[SIGNATURE LINE]").data ∧ rest = u.drop (urun u) ∧ 10 ≤ urun u := by
  simp only [underLineMatchAt, urun] at h ⊢
  split_ifs at h with h10
  simp only [Option.some.injEq, Prod.mk.injEq] at h
  exact ⟨h.1.symm, h.2.symm, h10⟩

lemma urun_cons (c : Char) (x : Str) :
    urun (c :: x) = if c = '_' then urun x + 1 else 0 := by
  simp only [urun, List.takeWhile_cons]
  by_cases h : c = '_' <;> simp [h]

lemma urun_append_zero (a b : Str) (ha : a ≠ []) (hh : ∀ c ∈ a, ¬(c = '_')) :
    urun (a ++ b) = 0 := by
  cases a with
  | nil => exact absurd rfl ha
  | cons c t =>
    have : ¬(c = '_') := hh c (by simp)
    simp [urun, List.takeWhile_cons, this]

/-- The render of an R8 trace has no leading underscore run longer than
the source's. -/
lemma r8_urun_le (tr : List ScanSeg) (h : SegWF underLineMatchAt tr) :
    urun (segRender tr) ≤ urun (segSource tr) := by
  induction tr with
  | nil => simp [segRender, segSource]
  | cons seg tr ih =>
    cases seg with
    | keep c =>
      obtain ⟨h1, h2⟩ := h
      simp only [segRender, segSource, urun_cons]
      split_ifs with hc
      · exact Nat.succ_le_succ (ih h2)
      · exact Nat.le_refl 0
    | repl con rep =>
      obtain ⟨h1, hcon, h2⟩ := h
      obtain ⟨hrep, hrest, h10⟩ := underLineMatchAt_some_inv _ _ _ h1
      simp only [segRender, segSource]
      rw [hrep, urun_append_zero _ _ (by simp) (by decide)]
      exact Nat.zero_le _

/-- Self-clearing of the `_{10,}` rule: the render of an R8 trace has no
match of the rule at any position. -/
lemma r8_self_clear (tr : List ScanSeg) (h : SegWF underLineMatchAt tr) :
    NMAll underLineMatchAt (segRender tr) := by
  induction tr with
  | nil => intro i; simp [segRender, underLineMatchAt_none_iff, urun]
  | cons seg tr ih =>
    cases seg with
    | keep c =>
      obtain ⟨h1, h2⟩ := h
      rw [segRender, NMAll_cons_iff]
      refine ⟨?_, ih h2⟩
      rw [underLineMatchAt_none_iff] at h1 ⊢
      rw [urun_cons] at h1 ⊢
      split_ifs with hc
      · rw [if_pos hc] at h1
        have := r8_urun_le tr h2
        omega
      · omega
    | repl con rep =>
      obtain ⟨h1, hcon, h2⟩ := h
      obtain ⟨hrep, hrest, h10⟩ := underLineMatchAt_some_inv _ _ _ h1
      rw [segRender, NMAll_append_iff]
      refine ⟨fun i hi => ?_, ih h2⟩
      have hne : rep.drop i ≠ [] := by
        intro he
        have hlen := congrArg List.length he
        simp [List.length_drop] at hlen
        omega
      have hall : ∀ x ∈ ("[SIGNATURE LINE]").data, ¬(x = '_') := by decide
      rw [underLineMatchAt_none_iff,
        urun_append_zero _ _ hne (fun c hc => hall c (hrep ▸ List.mem_of_mem_drop hc))]
      omega

lemma takeWhile_append_of_all (p : Char → Bool) (a b : Str) (h : ∀ c ∈ a, p c = true) :
    (a ++ b).takeWhile p = a ++ b.takeWhile p := by
  induction a with
  | nil => simp
  | cons c t ih =>
    have hc := h c (by simp)
    simp only [List.cons_append, List.takeWhile_cons, hc, if_true]
    rw [ih (fun x hx => h x (by simp [hx]))]

lemma takeWhile_append_stop (p : Char → Bool) (a b : Str) (c : Char)
    (ha : ∀ x ∈ a, p x = true) (hc : p c = false) :
    (a ++ c :: b).takeWhile p = a := by
  rw [takeWhile_append_of_all p a _ ha, List.takeWhile_cons, hc]
  simp

lemma dropWhile_append_ne_nil (p : Char → Bool) (a b : Str) (h : a.dropWhile p ≠ []) :
    (a ++ b).dropWhile p = a.dropWhile p ++ b := by
  induction a with
  | nil => exact absurd rfl h
  | cons c t ih =>
    by_cases hc : p c
    · simp only [List.dropWhile_cons, hc, if_true] at h ⊢
      simp only [List.cons_append, List.dropWhile_cons, hc, if_true]
      exact ih h
    · simp only [List.cons_append, List.dropWhile_cons, hc, if_false]
      simp [List.dropWhile_cons, hc]

lemma underTail_none_iff (v : Str) :
    underTail v = none ↔ ((v.dropWhile ws).takeWhile (fun c => c = '_')).length < 5 := by
  simp only [underTail]
  split_ifs with h <;> simp <;> omega

lemma underTail_append_none (x y : Str) (h : utBlocked x = true) :
    underTail (x ++ y) = none := by
  simp only [utBlocked] at h
  cases hx : x.dropWhile ws with
  | nil => rw [hx] at h; simp at h
  | cons d t =>
    rw [hx] at h
    simp only [List.head?_cons] at h
    have hdne : ¬(d = '_') := by simpa using h
    have hne : x.dropWhile ws ≠ [] := by rw [hx]; simp
    rw [underTail_none_iff, dropWhile_append_ne_nil ws x y hne, hx]
    simp only [List.cons_append, List.takeWhile_cons]
    simp [hdne]

lemma takeWhile_append_lt (p : Char → Bool) (x y : Str)
    (h : (x.takeWhile p).length < x.length) :
    (x ++ y).takeWhile p = x.takeWhile p := by
  induction x with
  | nil => simp at h
  | cons c t ih =>
    cases hpc : p c with
    | true =>
      simp only [List.takeWhile_cons, hpc, if_true] at h ⊢
      simp only [List.cons_append, List.takeWhile_cons, hpc, if_true]
      rw [ih (by simpa using h)]
    | false =>
      simp [List.takeWhile_cons, hpc]

lemma head?_drop (l : Str) (n : Nat) : (l.drop n).head? = l[n]? := by
  induction l generalizing n with
  | nil => simp
  | cons c t ih =>
    cases n with
    | zero => simp
    | succ k => simp [List.drop_succ_cons, ih]

lemma labelRunMatchAt_none_of_blocked (x y : Str) (h : blockedAw x = true) :
    labelRunMatchAt (x ++ y) = none := by
  cases x with
  | nil => simp [blockedAw] at h
  | cons c t =>
    simp only [blockedAw] at h
    split_ifs at h with hc
    · cases hd : ((c :: t).drop ((c :: t).takeWhile alphaWs).length).head? with
      | none => rw [hd] at h; simp at h
      | some d =>
        rw [hd] at h
        have hdne : ¬(d = ':') := by simpa using h
        have htw : ((c :: t).takeWhile alphaWs).length < (c :: t).length := by
          by_contra hle
          push_neg at hle
          rw [List.drop_eq_nil_of_le hle] at hd
          simp at hd
        obtain ⟨x2, hx2⟩ : ∃ x2, (c :: t).drop ((c :: t).takeWhile alphaWs).length = d :: x2 := by
          cases hdr : (c :: t).drop ((c :: t).takeWhile alphaWs).length with
          | nil => rw [hdr] at hd; simp at hd
          | cons e f =>
            rw [hdr] at hd
            simp only [List.head?_cons, Option.some.injEq] at hd
            exact ⟨f, by rw [hd]⟩
        have h1 : ((c :: t) ++ y).takeWhile alphaWs = (c :: t).takeWhile alphaWs :=
          takeWhile_append_lt alphaWs (c :: t) y htw
        have h2 : ((c :: t) ++ y).drop ((c :: t).takeWhile alphaWs).length =
            d :: (x2 ++ y) := by
          rw [List.drop_append_eq_append_drop, Nat.sub_eq_zero_of_le (le_of_lt htw),
            List.drop_zero, hx2]
          rfl
        simp only [labelRunMatchAt, h1, h2]
        split_ifs with hrun
        · split
          next r1 heq =>
            exfalso
            have : d = ':' := by
              have := congrArg List.head? heq
              simpa using this
            exact hdne this
          next => rfl
        · rfl
    · have : alphaWs c = false := by simpa using hc
      simp only [labelRunMatchAt, List.cons_append, List.takeWhile_cons, this]
      simp

lemma labelRunMatchAt_some_inv (u rep rest : Str)
    (h : labelRunMatchAt u = some (rep, rest)) :
    ∃ r1, 1 ≤ (awrun u).length ∧ u.drop (awrun u).length = ':' :: r1 ∧
      underTail r1 = some rest ∧ rep = awrun u ++ (": [TO BE FILLED]").data := by
  simp only [labelRunMatchAt, awrun] at h ⊢
  split_ifs at h with h1
  split at h
  next r1 heq =>
    cases hut : underTail r1 with
    | none => rw [hut] at h; simp at h
    | some r2 =>
      rw [hut] at h
      simp only [Option.some.injEq, Prod.mk.injEq] at h
      exact ⟨r1, h1, heq, by rw [hut, h.2], h.1.symm⟩
  next => simp at h

lemma m7_none_cases (u : Str) (h : labelRunMatchAt u = none) :
    (awrun u).length = 0 ∨ u.drop (awrun u).length = [] ∨
    (∃ c r1, u.drop (awrun u).length = c :: r1 ∧ ¬(c = ':')) ∨
    (∃ r1, u.drop (awrun u).length = ':' :: r1 ∧ underTail r1 = none) := by
  simp only [labelRunMatchAt, awrun] at h ⊢
  split_ifs at h with h1
  · split at h
    next r1 heq =>
      cases hut : underTail r1 with
      | none => exact Or.inr (Or.inr (Or.inr ⟨r1, heq, hut⟩))
      | some r2 => rw [hut] at h; simp at h
    next hne =>
      cases hdr : u.drop (u.takeWhile alphaWs).length with
      | nil => exact Or.inr (Or.inl rfl)
      | cons c r1 =>
        by_cases hc : c = ':'
        · subst hc
          exact (hne r1 hdr).elim
        · exact Or.inr (Or.inr (Or.inl ⟨c, r1, rfl, hc⟩))
  · left; omega

lemma m7_none_of_drop_nil (u : Str) (h : u.drop (awrun u).length = []) :
    labelRunMatchAt u = none := by
  simp only [labelRunMatchAt, awrun] at h ⊢
  split_ifs with h1
  · rw [h]
  · rfl

lemma m7_none_of_drop_ne (u : Str) (c : Char) (r1 : Str)
    (hd : u.drop (awrun u).length = c :: r1) (hc : ¬(c = ':')) :
    labelRunMatchAt u = none := by
  simp only [labelRunMatchAt, awrun] at hd ⊢
  split_ifs with h1
  · rw [hd]
    split
    next r2 heq =>
      exfalso
      have : c = ':' := by
        have := congrArg List.head? heq
        simpa using this
      exact hc this
    next => rfl
  · rfl

lemma m7_none_of_drop_ut (u : Str) (r1 : Str)
    (hd : u.drop (awrun u).length = ':' :: r1) (hut : underTail r1 = none) :
    labelRunMatchAt u = none := by
  simp only [labelRunMatchAt, awrun] at hd ⊢
  split_ifs with h1
  · rw [hd]
    simp [hut]
  · rfl

lemma m7_none_class_colon (x z : Str) (hx : ∀ c ∈ x, alphaWs c = true)
    (hz : underTail z = none) : labelRunMatchAt (x ++ ':' :: z) = none := by
  have hco : alphaWs ':' = false := by decide
  have h1 : awrun (x ++ ':' :: z) = x := takeWhile_append_stop alphaWs x z ':' hx hco
  have h2 : (x ++ ':' :: z).drop (awrun (x ++ ':' :: z)).length = ':' :: z := by
    rw [h1]
    exact List.drop_left x (':' :: z)
  exact m7_none_of_drop_ut _ z h2 hz

lemma underTail_cons_ws (c : Char) (x : Str) (hc : ws c = true) :
    underTail (c :: x) = underTail x := by
  simp only [underTail, List.dropWhile_cons, hc, if_true]

lemma underTail_cons_block (c : Char) (x : Str) (hw : ¬(ws c = true))
    (hu : ¬(c = '_')) : underTail (c :: x) = none := by
  rw [underTail_none_iff]
  simp only [List.dropWhile_cons, hw, if_false, List.takeWhile_cons]
  simp [hu]

lemma underTail_cons_under (x : Str) :
    (underTail ('_' :: x) = none ↔ urun x < 4) := by
  have hw : ws '_' = false := by decide
  rw [underTail_none_iff]
  simp only [List.dropWhile_cons, hw, if_false, List.takeWhile_cons]
  simp [urun]
  omega

/-- The underscore tail fails after any `[A-Za-z\\s]` run followed by a
colon. -/
lemma underTail_class_colon (x z : Str) (hx : ∀ c ∈ x, alphaWs c = true) :
    underTail (x ++ ':' :: z) = none := by
  induction x with
  | nil =>
    simp only [List.nil_append]
    exact underTail_cons_block ':' z (by decide) (by decide)
  | cons c t ih =>
    have hc := hx c (by simp)
    by_cases hw : ws c = true
    · rw [List.cons_append, underTail_cons_ws c _ hw]
      exact ih (fun d hd => hx d (by simp [hd]))
    · refine List.cons_append c t _ ▸ underTail_cons_block c _ hw ?_
      intro he
      subst he
      exact absurd hc (by decide)

theorem r7_pack (tr : List ScanSeg) (h : SegWF labelRunMatchAt tr) : R7Pack tr := by
  induction tr with
  | nil =>
    refine ⟨?_, rfl, le_refl _, fun h2 => h2, fun h0 => by simpa using h0, ?_, ?_⟩
    · intro i
      show labelRunMatchAt ((segRender []).drop i) = none
      simp only [segRender, List.drop_nil]
      rfl
    · intro s1 h0
      simp [segSource] at h0
    · intro c s1 h0
      simp [segSource] at h0
  | cons seg tr ih =>
    cases seg with
    | keep c =>
      obtain ⟨hm, hwf⟩ := h
      obtain ⟨ihA, ihB, ihE, ihD, ihC1, ihC2, ihC3⟩ := ih hwf
      have hDnode : underTail (c :: segSource tr) = none →
          underTail (c :: segRender tr) = none := by
        intro hU
        by_cases hwsc : ws c = true
        · rw [underTail_cons_ws c _ hwsc] at hU ⊢
          exact ihD hU
        · by_cases hu : c = '_'
          · subst hu
            rw [underTail_cons_under] at hU ⊢
            omega
          · exact underTail_cons_block c _ hwsc hu
      by_cases hc : alphaWs c = true
      · have hB0 : awrun (c :: segSource tr) = c :: awrun (segSource tr) := by
          simp [awrun, List.takeWhile_cons, hc]
        have hBr2 : awrun (c :: segRender tr) = c :: awrun (segSource tr) := by
          simp only [awrun, List.takeWhile_cons, hc, if_true]
          rw [show (segRender tr).takeWhile alphaWs = awrun (segRender tr) from rfl, ihB]
          rfl
        have hm0 : labelRunMatchAt (c :: segRender tr) = none := by
          rcases m7_none_cases _ hm with h0 | h0 | h0 | h0
          · rw [hB0] at h0
            simp at h0
          · rw [hB0] at h0
            simp only [List.length_cons, List.drop_succ_cons] at h0
            apply m7_none_of_drop_nil
            rw [hBr2]
            simp only [List.length_cons, List.drop_succ_cons]
            exact ihC1 h0
          · obtain ⟨d, r1, h0, hd⟩ := h0
            rw [hB0] at h0
            simp only [List.length_cons, List.drop_succ_cons] at h0
            have hw := ihC3 d r1 h0 hd
            obtain ⟨w1, hw1⟩ : ∃ w1,
                (segRender tr).drop (awrun (segSource tr)).length = d :: w1 := by
              cases hx : (segRender tr).drop (awrun (segSource tr)).length with
              | nil => rw [hx] at hw; simp at hw
              | cons e f =>
                rw [hx] at hw
                simp only [List.head?_cons, Option.some.injEq] at hw
                exact ⟨f, by rw [hw]⟩
            apply m7_none_of_drop_ne (c :: segRender tr) d w1 ?_ hd
            rw [hBr2]
            simp only [List.length_cons, List.drop_succ_cons]
            exact hw1
          · obtain ⟨r1, h0, hut⟩ := h0
            rw [hB0] at h0
            simp only [List.length_cons, List.drop_succ_cons] at h0
            obtain ⟨w1, hww, himp⟩ := ihC2 r1 h0
            apply m7_none_of_drop_ut (c :: segRender tr) w1 ?_ (himp hut)
            rw [hBr2]
            simp only [List.length_cons, List.drop_succ_cons]
            exact hww
        refine ⟨?_, ?_, ?_, hDnode, ?_, ?_, ?_⟩
        · show NMAll labelRunMatchAt (c :: segRender tr)
          rw [NMAll_cons_iff]
          exact ⟨hm0, ihA⟩
        · show awrun (c :: segRender tr) = awrun (c :: segSource tr)
          rw [hBr2, hB0]
        · show urun (c :: segRender tr) ≤ urun (c :: segSource tr)
          rw [urun_cons, urun_cons]
          split_ifs with h2 <;> omega
        · simp only [segSource, segRender]
          rw [hB0]
          simp only [List.length_cons, List.drop_succ_cons]
          exact ihC1
        · simp only [segSource, segRender]
          rw [hB0]
          simp only [List.length_cons, List.drop_succ_cons]
          exact ihC2
        · simp only [segSource, segRender]
          rw [hB0]
          simp only [List.length_cons, List.drop_succ_cons]
          exact ihC3
      · have hcf : alphaWs c = false := by simpa using hc
        have hB0 : awrun (c :: segSource tr) = [] := by
          simp [awrun, List.takeWhile_cons, hcf]
        have hBr : awrun (c :: segRender tr) = [] := by
          simp [awrun, List.takeWhile_cons, hcf]
        have hm0 : labelRunMatchAt (c :: segRender tr) = none := by
          simp only [labelRunMatchAt]
          rw [show (c :: segRender tr).takeWhile alphaWs = [] from hBr]
          simp
        refine ⟨?_, ?_, ?_, hDnode, ?_, ?_, ?_⟩
        · show NMAll labelRunMatchAt (c :: segRender tr)
          rw [NMAll_cons_iff]
          exact ⟨hm0, ihA⟩
        · show awrun (c :: segRender tr) = awrun (c :: segSource tr)
          rw [hBr, hB0]
        · show urun (c :: segRender tr) ≤ urun (c :: segSource tr)
          rw [urun_cons, urun_cons]
          split_ifs with h2 <;> omega
        · simp only [segSource, segRender]
          rw [hB0]
          intro h0
          simp at h0
        · simp only [segSource, segRender]
          rw [hB0]
          intro s1 h0
          simp only [List.length_nil, List.drop_zero] at h0 ⊢
          obtain ⟨hc1, hs1⟩ := List.cons_eq_cons.mp h0
          subst hc1
          exact ⟨segRender tr, rfl, fun hn => ihD (hs1 ▸ hn)⟩
        · simp only [segSource, segRender]
          rw [hB0]
          intro c2 s1 h0 hne
          simp only [List.length_nil, List.drop_zero] at h0 ⊢
          have hcc : c2 = c := by
            have := congrArg List.head? h0
            simpa using this.symm
          rw [hcc]
          simp
    | repl con rep =>
      obtain ⟨hm, hcon, hwf⟩ := h
      obtain ⟨ihA, ihB, ihE, ihD, ihC1, ihC2, ihC3⟩ := ih hwf
      obtain ⟨r1, hrun1, hdrop, hut, hrep⟩ := labelRunMatchAt_some_inv _ _ _ hm
      have hall : ∀ x ∈ awrun (con ++ segSource tr), alphaWs x = true :=
        fun x hx => List.mem_takeWhile_imp hx
      have hco : alphaWs ':' = false := by decide
      have hlit : (": [TO BE FILLED]").data = ':' :: (" [TO BE FILLED]").data := rfl
      have hshape : rep ++ segRender tr =
          awrun (con ++ segSource tr) ++
            ':' :: ((" [TO BE FILLED]").data ++ segRender tr) := by
        rw [hrep, hlit, List.append_assoc]
        rfl
      have hBnode : awrun (rep ++ segRender tr) = awrun (con ++ segSource tr) := by
        rw [hshape]
        exact takeWhile_append_stop alphaWs _ _ ':' hall hco
      have hdropR : (rep ++ segRender tr).drop (awrun (con ++ segSource tr)).length =
          ':' :: ((" [TO BE FILLED]").data ++ segRender tr) := by
        rw [hshape]
        exact List.drop_left _ _
      refine ⟨?_, ?_, ?_, ?_, ?_, ?_, ?_⟩
      · show NMAll labelRunMatchAt (rep ++ segRender tr)
        rw [NMAll_append_iff]
        refine ⟨?_, ihA⟩
        intro i hi
        rcases lt_or_le i (awrun (con ++ segSource tr)).length with hil | hil
        · have hdi : rep.drop i =
              (awrun (con ++ segSource tr)).drop i ++ (": [TO BE FILLED]").data := by
            rw [hrep, List.drop_append_eq_append_drop, Nat.sub_eq_zero_of_le (le_of_lt hil),
              List.drop_zero]
          rw [hdi, hlit, List.append_assoc]
          refine m7_none_class_colon _ _ (fun x hx => hall x (List.mem_of_mem_drop hx)) ?_
          exact underTail_append_none _ _ (by decide)
        · have hj : i - (awrun (con ++ segSource tr)).length < 16 := by
            rw [hrep, List.length_append] at hi
            have : ((": [TO BE FILLED]").data).length = 16 := by decide
            omega
          have hdi : rep.drop i =
              ((": [TO BE FILLED]").data).drop (i - (awrun (con ++ segSource tr)).length) := by
            rw [hrep, List.drop_append_eq_append_drop, List.drop_eq_nil_of_le hil,
              List.nil_append]
          rw [hdi]
          have hbl : ∀ j, j < 16 → blockedAw (((": [TO BE FILLED]").data).drop j) = true := by
            decide
          exact labelRunMatchAt_none_of_blocked _ _ (hbl _ hj)
      · show awrun (rep ++ segRender tr) = awrun (con ++ segSource tr)
        exact hBnode
      · show urun (rep ++ segRender tr) ≤ urun (con ++ segSource tr)
        cases hrc : awrun (con ++ segSource tr) with
        | nil => rw [hrc] at hrun1; simp at hrun1
        | cons rh rt =>
          have hrh : alphaWs rh = true := hall rh (by rw [hrc]; simp)
          have hrhu : ¬(rh = '_') := by
            intro he
            rw [he] at hrh
            exact absurd hrh (by decide)
          rw [hshape, hrc]
          simp only [List.cons_append, urun_cons, hrhu, if_false]
          exact Nat.zero_le _
      · show underTail (con ++ segSource tr) = none → underTail (rep ++ segRender tr) = none
        intro hU
        rw [hshape]
        exact underTail_class_colon _ _ hall
      · simp only [segSource, segRender]
        intro h0
        rw [hdrop] at h0
        simp at h0
      · simp only [segSource, segRender]
        intro s1 h0
        rw [hdrop] at h0
        have hs1 : s1 = r1 := by
          have := congrArg List.tail h0
          simpa using this.symm
        refine ⟨(" [TO BE FILLED]").data ++ segRender tr, hdropR, ?_⟩
        intro hn
        rw [hs1, hut] at hn
        simp at hn
      · simp only [segSource, segRender]
        intro c2 s1 h0 hne
        rw [hdrop] at h0
        have : c2 = ':' := by
          have := congrArg List.head? h0
          simpa using this.symm
        exact absurd this hne

lemma takeWhile_len_le (p : Char → Bool) (l : Str) :
    (l.takeWhile p).length ≤ l.length := by
  induction l with
  | nil => simp
  | cons c t ih =>
    by_cases h : p c = true <;> simp [List.takeWhile_cons, h] <;> omega

lemma takeWhile_eq_take_len (p : Char → Bool) (l : Str) :
    l.takeWhile p = l.take (l.takeWhile p).length := by
  induction l with
  | nil => rfl
  | cons c t ih =>
    by_cases h : p c = true
    · simp only [List.takeWhile_cons, h, if_true, List.length_cons, List.take_succ_cons]
      rw [← ih]
    · simp [List.takeWhile_cons, h]

theorem r8_keeps_r7 (tr : List ScanSeg) (h : SegWF underLineMatchAt tr) :
    R8KeepsR7 tr := by
  induction tr with
  | nil =>
    refine ⟨fun h2 => h2, rfl, le_refl _, fun h2 => h2, fun h0 => by simpa using h0, ?_, ?_⟩
    · intro s1 h0
      simp [segSource] at h0
    · intro c s1 h0
      simp [segSource] at h0
  | cons seg tr ih =>
    cases seg with
    | keep c =>
      obtain ⟨hm, hwf⟩ := h
      obtain ⟨ihA, ihB, ihE, ihD, ihC1, ihC2, ihC3⟩ := ih hwf
      have hDnode : underTail (c :: segSource tr) = none →
          underTail (c :: segRender tr) = none := by
        intro hU
        by_cases hwsc : ws c = true
        · rw [underTail_cons_ws c _ hwsc] at hU ⊢
          exact ihD hU
        · by_cases hu : c = '_'
          · subst hu
            rw [underTail_cons_under] at hU ⊢
            omega
          · exact underTail_cons_block c _ hwsc hu
      by_cases hc : alphaWs c = true
      · have hB0 : awrun (c :: segSource tr) = c :: awrun (segSource tr) := by
          simp [awrun, List.takeWhile_cons, hc]
        have hBr2 : awrun (c :: segRender tr) = c :: awrun (segSource tr) := by
          simp only [awrun, List.takeWhile_cons, hc, if_true]
          rw [show (segRender tr).takeWhile alphaWs = awrun (segRender tr) from rfl, ihB]
          rfl
        refine ⟨?_, ?_, ?_, hDnode, ?_, ?_, ?_⟩
        · intro hnm
          simp only [segSource, segRender] at hnm ⊢
          rw [NMAll_cons_iff] at hnm ⊢
          obtain ⟨hm7, hnmt⟩ := hnm
          refine ⟨?_, ihA hnmt⟩
          rcases m7_none_cases _ hm7 with h0 | h0 | h0 | h0
          · rw [hB0] at h0
            simp at h0
          · rw [hB0] at h0
            simp only [List.length_cons, List.drop_succ_cons] at h0
            apply m7_none_of_drop_nil
            rw [hBr2]
            simp only [List.length_cons, List.drop_succ_cons]
            exact ihC1 h0
          · obtain ⟨d, r1, h0, hd⟩ := h0
            rw [hB0] at h0
            simp only [List.length_cons, List.drop_succ_cons] at h0
            obtain ⟨d2, w1, hw1, hd2⟩ := ihC3 d r1 h0 hd
            apply m7_none_of_drop_ne (c :: segRender tr) d2 w1 ?_ hd2
            rw [hBr2]
            simp only [List.length_cons, List.drop_succ_cons]
            exact hw1
          · obtain ⟨r1, h0, hut⟩ := h0
            rw [hB0] at h0
            simp only [List.length_cons, List.drop_succ_cons] at h0
            obtain ⟨w1, hww, himp⟩ := ihC2 r1 h0
            apply m7_none_of_drop_ut (c :: segRender tr) w1 ?_ (himp hut)
            rw [hBr2]
            simp only [List.length_cons, List.drop_succ_cons]
            exact hww
        · show awrun (c :: segRender tr) = awrun (c :: segSource tr)
          rw [hBr2, hB0]
        · show urun (c :: segRender tr) ≤ urun (c :: segSource tr)
          rw [urun_cons, urun_cons]
          split_ifs with h2 <;> omega
        · simp only [segSource, segRender]
          rw [hB0]
          simp only [List.length_cons, List.drop_succ_cons]
          exact ihC1
        · simp only [segSource, segRender]
          rw [hB0]
          simp only [List.length_cons, List.drop_succ_cons]
          exact ihC2
        · simp only [segSource, segRender]
          rw [hB0]
          simp only [List.length_cons, List.drop_succ_cons]
          exact ihC3
      · have hcf : alphaWs c = false := by simpa using hc
        have hB0 : awrun (c :: segSource tr) = [] := by
          simp [awrun, List.takeWhile_cons, hcf]
        have hBr : awrun (c :: segRender tr) = [] := by
          simp [awrun, List.takeWhile_cons, hcf]
        have hm0 : labelRunMatchAt (c :: segRender tr) = none := by
          simp only [labelRunMatchAt]
          rw [show (c :: segRender tr).takeWhile alphaWs = [] from hBr]
          simp
        refine ⟨?_, ?_, ?_, hDnode, ?_, ?_, ?_⟩
        · intro hnm
          simp only [segSource, segRender] at hnm ⊢
          rw [NMAll_cons_iff] at hnm ⊢
          exact ⟨hm0, ihA hnm.2⟩
        · show awrun (c :: segRender tr) = awrun (c :: segSource tr)
          rw [hBr, hB0]
        · show urun (c :: segRender tr) ≤ urun (c :: segSource tr)
          rw [urun_cons, urun_cons]
          split_ifs with h2 <;> omega
        · simp only [segSource, segRender]
          rw [hB0]
          intro h0
          simp at h0
        · simp only [segSource, segRender]
          rw [hB0]
          intro s1 h0
          simp only [List.length_nil, List.drop_zero] at h0 ⊢
          obtain ⟨hc1, hs1⟩ := List.cons_eq_cons.mp h0
          subst hc1
          exact ⟨segRender tr, rfl, fun hn => ihD (hs1 ▸ hn)⟩
        · simp only [segSource, segRender]
          rw [hB0]
          intro c2 s1 h0 hne
          simp only [List.length_nil, List.drop_zero] at h0 ⊢
          have hcc : c2 = c := by
            have := congrArg List.head? h0
            simpa using this.symm
          exact ⟨c, segRender tr, rfl, hcc ▸ hne⟩
    | repl con rep =>
      obtain ⟨hm, hcon, hwf⟩ := h
      obtain ⟨ihA, ihB, ihE, ihD, ihC1, ihC2, ihC3⟩ := ih hwf
      obtain ⟨hrep, hrest, h10⟩ := underLineMatchAt_some_inv _ _ _ hm
      have hlen : urun (con ++ segSource tr) = con.length := by
        have := congrArg List.length hrest
        simp only [List.length_drop, List.length_append] at this
        have hle : urun (con ++ segSource tr) ≤ con.length + (segSource tr).length := by
          have := takeWhile_len_le (fun c => c = '_') (con ++ segSource tr)
          simpa [urun, List.length_append] using this
        omega
      have hconw : (con ++ segSource tr).takeWhile (fun c => c = '_') = con := by
        rw [takeWhile_eq_take_len, show ((con ++ segSource tr).takeWhile
          (fun c => c = '_')).length = urun (con ++ segSource tr) from rfl, hlen]
        exact List.take_left con (segSource tr)
      have hconu : ∀ x ∈ con, x = '_' := by
        intro x hx
        rw [← hconw] at hx
        have := List.mem_takeWhile_imp hx
        simpa using this
      obtain ⟨ch, ct, hcc⟩ : ∃ ch ct, con = ch :: ct := by
        cases con with
        | nil => exact absurd rfl hcon
        | cons a b => exact ⟨a, b, rfl⟩
      have hch : ch = '_' := hconu ch (by rw [hcc]; simp)
      have hBsrc : awrun (con ++ segSource tr) = [] := by
        rw [hcc, hch]
        have h2 : alphaWs '_' = false := by decide
        simp [awrun, List.takeWhile_cons, h2]
      have hBren : awrun (rep ++ segRender tr) = [] := by
        rw [hrep]
        show awrun ('[' :: (("SIGNATURE LINE]").data ++ segRender tr)) = []
        have h2 : alphaWs '[' = false := by decide
        simp [awrun, List.takeWhile_cons, h2]
      refine ⟨?_, ?_, ?_, ?_, ?_, ?_, ?_⟩
      · intro hnm
        simp only [segSource, segRender] at hnm ⊢
        rw [NMAll_append_iff] at hnm ⊢
        refine ⟨?_, ihA hnm.2⟩
        intro i hi
        have h16 : rep.length = 16 := by rw [hrep]; decide
        have hbl : ∀ j, j < 16 → blockedAw ((("[SIGNATURE LINE]").data).drop j) = true := by
          decide
        have := hbl i (by omega)
        rw [← hrep] at this
        exact labelRunMatchAt_none_of_blocked _ _ this
      · show awrun (rep ++ segRender tr) = awrun (con ++ segSource tr)
        rw [hBsrc, hBren]
      · show urun (rep ++ segRender tr) ≤ urun (con ++ segSource tr)
        rw [hrep]
        show urun ('[' :: (("SIGNATURE LINE]").data ++ segRender tr)) ≤ _
        rw [urun_cons, if_neg (by decide : ¬('[' = '_'))]
        exact Nat.zero_le _
      · intro hU
        exfalso
        simp only [segSource] at hU
        rw [underTail_none_iff] at hU
        have hd : (con ++ segSource tr).dropWhile ws = con ++ segSource tr := by
          rw [hcc, hch]
          have h2 : ws '_' = false := by decide
          simp [List.dropWhile_cons, h2]
        rw [hd] at hU
        have : con.length ≤ ((con ++ segSource tr).takeWhile (fun c => c = '_')).length := by
          rw [hconw]
        have hc10 : 10 ≤ con.length := by
          have := hlen
          simp only [urun] at this
          omega
        omega
      · simp only [segSource, segRender]
        rw [hBsrc]
        intro h0
        rw [hcc] at h0
        simp at h0
      · simp only [segSource, segRender]
        rw [hBsrc]
        intro s1 h0
        exfalso
        rw [hcc, hch] at h0
        simp only [List.length_nil, List.drop_zero, List.cons_append] at h0
        have := congrArg List.head? h0
        simp at this
      · simp only [segSource, segRender]
        rw [hBsrc]
        intro c2 s1 h0 hne
        simp only [List.length_nil, List.drop_zero]
        rw [hrep]
        exact ⟨'[', ("SIGNATURE LINE]").data ++ segRender tr, rfl, by decide⟩

lemma char_ofNat_toNat (n : Nat) (h : n.isValidChar) : (Char.ofNat n).toNat = n := by
  simp only [Char.ofNat, dif_pos h]
  rfl

lemma toLower_toNat (c : Char) :
    (c.toLower).toNat =
      if c.toNat ≥ 65 ∧ c.toNat ≤ 90 then c.toNat + 32 else c.toNat := by
  simp only [Char.toLower]
  split_ifs with h1
  · exact char_ofNat_toNat _ (Or.inl (by omega))
  · rfl

lemma toLower_eq_colon (c : Char) (h : c.toLower = ':') : c = ':' := by
  simp only [Char.toLower] at h
  split_ifs at h with hu
  · exfalso
    have h1 := congrArg Char.toNat h
    have hv : (c.toNat + 32).isValidChar := Or.inl (by omega)
    rw [char_ofNat_toNat _ hv] at h1
    have : (':' : Char).toNat = 58 := by decide
    omega
  · exact h

lemma alphaWs_of_toNat (c : Char)
    (h : (65 ≤ c.toNat ∧ c.toNat ≤ 90) ∨ (97 ≤ c.toNat ∧ c.toNat ≤ 122)) :
    alphaWs c = true := by
  simp only [alphaWs, Bool.or_eq_true, decide_eq_true_eq]
  left
  rcases h with h | h
  · exact Or.inl ⟨h.1, h.2⟩
  · exact Or.inr ⟨h.1, h.2⟩

lemma alphaWs_of_lower_letter (b c : Char)
    (hb : (65 ≤ b.toNat ∧ b.toNat ≤ 90) ∨ (97 ≤ b.toNat ∧ b.toNat ≤ 122))
    (h : b.toLower = c.toLower) : alphaWs c = true := by
  have h1 := congrArg Char.toNat h
  rw [toLower_toNat, toLower_toNat] at h1
  apply alphaWs_of_toNat
  split_ifs at h1 <;> omega

/-- Structure extracted from a case-insensitive match of a letter body
followed by a colon: the text starts with a class run of the body's
length and a literal colon. -/
lemma matchesCI_label_structure (body : Str) :
    ∀ u : Str,
      (∀ b ∈ body, (65 ≤ b.toNat ∧ b.toNat ≤ 90) ∨ (97 ≤ b.toNat ∧ b.toNat ≤ 122)) →
      matchesCI (body ++ [':']) u = true →
      ∃ x r1, u = x ++ ':' :: r1 ∧ x.length = body.length ∧
        (∀ c ∈ x, (65 ≤ c.toNat ∧ c.toNat ≤ 90) ∨ (97 ≤ c.toNat ∧ c.toNat ≤ 122)) := by
  induction body with
  | nil =>
    intro u hb hm
    cases u with
    | nil => simp [matchesCI] at hm
    | cons c t =>
      simp only [List.nil_append, matchesCI, Bool.and_eq_true, decide_eq_true_eq] at hm
      have hc : c = ':' := toLower_eq_colon c (by rw [← hm.1]; decide)
      exact ⟨[], t, by rw [hc]; rfl, rfl, by simp⟩
  | cons b body ih =>
    intro u hb hm
    cases u with
    | nil => simp [matchesCI] at hm
    | cons c t =>
      simp only [List.cons_append, matchesCI, Bool.and_eq_true, decide_eq_true_eq] at hm
      obtain ⟨x, r1, ht, hxl, hxa⟩ := ih t (fun d hd => hb d (by simp [hd])) hm.2
      refine ⟨c :: x, r1, by rw [ht]; rfl, by simp [hxl], ?_⟩
      intro d hd
      rcases List.mem_cons.mp hd with hd | hd
      · subst hd
        have h1 := congrArg Char.toNat hm.1
        rw [toLower_toNat, toLower_toNat] at h1
        have hbb := hb b (by simp)
        split_ifs at h1 <;> omega
      · exact hxa d hd

/-- Positive form of the generic label rule: a nonempty class run, a
colon, and a successful underscore tail produce a match. -/
lemma m7_some (u x r1 r2 : Str) (hu : u = x ++ ':' :: r1)
    (hx : ∀ c ∈ x, alphaWs c = true) (hxn : x ≠ [])
    (hut : underTail r1 = some r2) : ¬(labelRunMatchAt u = none) := by
  intro h7
  have haw : awrun u = x := by
    rw [hu]
    exact takeWhile_append_stop alphaWs x r1 ':' hx (by decide)
  have hdr : u.drop (awrun u).length = ':' :: r1 := by
    rw [haw, hu]
    exact List.drop_left x _
  have hx1 : 1 ≤ x.length := by
    cases x with
    | nil => exact absurd rfl hxn
    | cons a b2 => simp
  simp only [labelRunMatchAt] at h7
  rw [show u.takeWhile alphaWs = awrun u from rfl, haw] at h7
  rw [if_pos hx1] at h7
  rw [show u.drop x.length = ':' :: r1 from haw ▸ hdr] at h7
  simp [hut] at h7

/-- Core subsumption step: a case-insensitive letter label with colon
followed by a successful underscore tail would give the generic label
rule a match, so under `labelRunMatchAt u = none` the tail must fail. -/
lemma m7_contra (body u : Str)
    (hbody : ∀ b ∈ body, (65 ≤ b.toNat ∧ b.toNat ≤ 90) ∨ (97 ≤ b.toNat ∧ b.toNat ≤ 122))
    (hbne : body ≠ [])
    (h1 : matchesCI (body ++ [':']) u = true)
    (h7 : labelRunMatchAt u = none) :
    underTail (u.drop (body.length + 1)) = none := by
  cases hut : underTail (u.drop (body.length + 1)) with
  | none => rfl
  | some r2 =>
    exfalso
    obtain ⟨x, r1, hu, hxl, hxa0⟩ := matchesCI_label_structure body u hbody h1
    have hxa : ∀ c ∈ x, alphaWs c = true := fun c hc => alphaWs_of_toNat c (hxa0 c hc)
    have hxn : x ≠ [] := by
      intro he
      rw [he] at hxl
      cases body with
      | nil => exact hbne rfl
      | cons a b2 => simp at hxl
    have hdr : u.drop (body.length + 1) = r1 := by
      rw [← hxl]
      have h2 : u.drop x.length = ':' :: r1 := by
        rw [hu]
        exact List.drop_left x _
      exact drop_cons_succ u x.length ':' r1 h2
    rw [hdr] at hut
    exact m7_some u x r1 r2 hu hxa hxn hut h7

lemma labelUnder_none_of_m7 (label rep0 body : Str)
    (hsplit : label = body ++ [':'])
    (hbody : ∀ b ∈ body, (65 ≤ b.toNat ∧ b.toNat ≤ 90) ∨ (97 ≤ b.toNat ∧ b.toNat ≤ 122))
    (hbne : body ≠ [])
    (u : Str) (h7 : labelRunMatchAt u = none) :
    labelUnderMatchAt label rep0 u = none := by
  simp only [labelUnderMatchAt]
  split_ifs with h1
  · have hn := m7_contra body u hbody hbne (hsplit ▸ h1) h7
    have hlen : label.length = body.length + 1 := by
      rw [hsplit, List.length_append]
      rfl
    rw [hlen, hn]
  · rfl

lemma comments_none_of_m7 (u : Str) (h7 : labelRunMatchAt u = none) :
    commentsMatchAt u = none := by
  simp only [commentsMatchAt]
  split_ifs with h1 h2
  · have hn := m7_contra (("comments").data) u (by decide) (by decide) h1 h7
    have h9 : (("comments").data).length + 1 = 9 := by decide
    rw [h9] at hn
    rw [hn]
  · have hn := m7_contra (("comment").data) u (by decide) (by decide) h2 h7
    have h8 : (("comment").data).length + 1 = 8 := by decide
    rw [h8] at hn
    rw [hn]
  · rfl

lemma approval_none_of_m7 (u : Str) (h7 : labelRunMatchAt u = none) :
    approvalMatchAt u = none := by
  simp only [approvalMatchAt]
  split_ifs with h1
  · obtain ⟨h8, hm⟩ := h1
    cases hut : underTail (u.drop ((u.takeWhile alphaWs).length + 1)) with
    | none => rfl
    | some r2 =>
      exfalso
      obtain ⟨x, r1, hy, hxl, hxa0⟩ := matchesCI_label_structure (("approval").data)
        (u.drop ((u.takeWhile alphaWs).length - 8)) (by decide) hm
      have hxa : ∀ c ∈ x, alphaWs c = true := fun c hc => alphaWs_of_toNat c (hxa0 c hc)
      have hx8 : x.length = 8 := by rw [hxl]; rfl
      have hXall : ∀ c ∈ u.take ((u.takeWhile alphaWs).length - 8) ++ x, alphaWs c = true := by
        intro c hc
        rcases List.mem_append.mp hc with hc | hc
        · have hgen : ∀ m, m ≤ (u.takeWhile alphaWs).length →
              (u.takeWhile alphaWs).take m = u.take m := by
            intro m hm
            rw [takeWhile_eq_take_len alphaWs u, List.take_take, min_eq_left hm]
          rw [← hgen _ (by omega)] at hc
          exact List.mem_takeWhile_imp (List.mem_of_mem_take hc)
        · exact hxa c hc
      have hu : u = (u.take ((u.takeWhile alphaWs).length - 8) ++ x) ++ ':' :: r1 := by
        conv_lhs => rw [← List.take_append_drop ((u.takeWhile alphaWs).length - 8) u]
        rw [hy, List.append_assoc]
      have hXne : u.take ((u.takeWhile alphaWs).length - 8) ++ x ≠ [] := by
        intro he
        have := congrArg List.length he
        simp only [List.length_append, hx8, List.length_nil] at this
        omega
      have hr1 : u.drop ((u.takeWhile alphaWs).length + 1) = r1 := by
        have hstep : u.drop (u.takeWhile alphaWs).length = ':' :: r1 := by
          have h2 : (u.drop ((u.takeWhile alphaWs).length - 8)).drop 8 =
              u.drop (u.takeWhile alphaWs).length := by
            rw [List.drop_drop]
            congr 1
            omega
          rw [← h2, hy, ← hx8]
          exact List.drop_left x _
        exact drop_cons_succ u _ ':' r1 hstep
      rw [hr1] at hut
      exact m7_some u _ r1 r2 hu hXall hXne hut h7
  · rfl

lemma isLitPrefix_iff_take (p u : Str) : isLitPrefix p u = true ↔ u.take p.length = p := by
  induction p generalizing u with
  | nil => simp [isLitPrefix]
  | cons x q ih =>
    cases u with
    | nil => simp [isLitPrefix]
    | cons c t =>
      simp only [isLitPrefix, Bool.and_eq_true, decide_eq_true_eq, List.length_cons,
        List.take_succ_cons, List.cons.injEq, ih]
      constructor
      · rintro ⟨h1, h2⟩
        exact ⟨h1.symm, h2⟩
      · rintro ⟨h1, h2⟩
        exact ⟨h1.symm, h2⟩

lemma litOK_img : LitOK (("data:image/").data) := by
  refine ⟨by decide, by decide, Or.inl (by decide)⟩

lemma litOK_b64 : LitOK ((";base64,").data) := by
  refine ⟨by decide, by decide, Or.inr (by decide)⟩

/-- A literal window cannot begin inside or across an inert replacement
block. -/
lemma lit_not_prefix_rep (lit rep x : Str) (hl : LitOK lit) (hr : RepOK rep)
    (hrne : rep ≠ []) :
    isLitPrefix lit (rep ++ x) = false := by
  obtain ⟨hlne, hlbr, hllast⟩ := hl
  obtain ⟨hrlast, hrchars⟩ := hr
  by_contra hcon
  have hpre : (rep ++ x).take lit.length = lit := by
    rw [← isLitPrefix_iff_take]
    revert hcon
    cases isLitPrefix lit (rep ++ x) <;> simp
  have hrep_take : rep.take lit.length ++ x.take (lit.length - rep.length) = lit := by
    rw [← List.take_append_eq_append_take, hpre]
  rcases le_or_lt lit.length rep.length with hle | hlt
  · rw [Nat.sub_eq_zero_of_le hle, List.take_zero, List.append_nil] at hrep_take
    obtain ⟨lc, hlc⟩ : ∃ lc, lit.getLast? = some lc ∧ (lc = '/' ∨ lc = ',') := by
      rcases hllast with h | h
      · exact ⟨'/', h, Or.inl rfl⟩
      · exact ⟨',', h, Or.inr rfl⟩
    have hmem : lc ∈ lit := List.mem_of_mem_getLast? hlc.1
    have hmem2 : lc ∈ rep := by
      rw [← hrep_take] at hmem
      exact List.mem_of_mem_take hmem
    obtain ⟨h1, h2, h3⟩ := hrchars lc hmem2
    rcases hlc.2 with he | he
    · exact h1 he
    · exact h3 he
  · rw [List.take_of_length_le (le_of_lt hlt)] at hrep_take
    have hbr : ']' ∈ lit := by
      rw [← hrep_take]
      refine List.mem_append.mpr (Or.inl ?_)
      exact List.mem_of_mem_getLast? hrlast
    exact (hlbr ']' hbr) rfl

lemma getLast?_cons_ne (a : Char) (l : Str) (h : l ≠ []) :
    (a :: l).getLast? = l.getLast? := by
  cases l with
  | nil => exact absurd rfl h
  | cons b t => simp [List.getLast?_cons_cons]

/-- Eating a literal window through a trace: an inert-replacement trace
whose render starts with the window also has the window on the source,
and the text after the window is described by a well-formed suffix
trace on both sides. -/
lemma lit_eat (m : Str → Option (Str × Str)) (hreps : RepsOK m) :
    ∀ (tr : List ScanSeg) (lit : Str), SegWF m tr → LitOK lit →
    isLitPrefix lit (segRender tr) = true →
    isLitPrefix lit (segSource tr) = true ∧
    ∃ tr2, SegWF m tr2 ∧ segRender tr2 = (segRender tr).drop lit.length ∧
      segSource tr2 = (segSource tr).drop lit.length := by
  intro tr
  induction tr with
  | nil =>
    intro lit hwf hlit hpre
    obtain ⟨hlne, h2, h3⟩ := hlit
    cases lit with
    | nil => exact absurd rfl hlne
    | cons a b => simp [segRender, isLitPrefix] at hpre
  | cons seg tr ih =>
    cases seg with
    | keep c =>
      intro lit hwf hlit hpre
      obtain ⟨hm, hwf2⟩ := hwf
      cases lit with
      | nil => exact absurd rfl hlit.1
      | cons l lit2 =>
        simp only [segRender, isLitPrefix, Bool.and_eq_true, decide_eq_true_eq] at hpre
        obtain ⟨hlc, hpre2⟩ := hpre
        by_cases h2 : lit2 = []
        · subst h2
          refine ⟨?_, tr, hwf2, ?_, ?_⟩
          · simp [segSource, isLitPrefix, hlc]
          · simp [segRender]
          · simp [segSource]
        · have hl2 : LitOK lit2 := by
            refine ⟨h2, fun d hd => hlit.2.1 d (by simp [hd]), ?_⟩
            have he := getLast?_cons_ne l lit2 h2
            rcases hlit.2.2 with h | h
            · left; rw [← he]; exact h
            · right; rw [← he]; exact h
          obtain ⟨hsrc, tr2, hwf3, hr2, hs2⟩ := ih lit2 hwf2 hl2 hpre2
          refine ⟨?_, tr2, hwf3, ?_, ?_⟩
          · simp [segSource, isLitPrefix, hlc, hsrc]
          · simp only [segRender, List.length_cons, List.drop_succ_cons]
            exact hr2
          · simp only [segSource, List.length_cons, List.drop_succ_cons]
            exact hs2
    | repl con rep =>
      intro lit hwf hlit hpre
      obtain ⟨hm, hcon, hwf2⟩ := hwf
      obtain ⟨hrok, hrne⟩ := hreps _ _ _ hm
      exfalso
      have hfalse := lit_not_prefix_rep lit rep (segRender tr) hlit hrok hrne
      simp only [segRender] at hpre
      rw [hpre] at hfalse
      simp at hfalse

lemma dropWhile_append_all (p : Char → Bool) (a b : Str) (h : ∀ c ∈ a, p c = true) :
    (a ++ b).dropWhile p = b.dropWhile p := by
  induction a with
  | nil => rfl
  | cons c t ih =>
    have hc := h c (by simp)
    simp only [List.cons_append, List.dropWhile_cons, hc, if_true]
    exact ih (fun d hd => h d (by simp [hd]))

/-- The semicolon scan runs through a semicolon-free stage in lockstep:
both texts drop to the same suffix trace. -/
lemma semi_corr (m : Str → Option (Str × Str)) (hsem : SemiFree m) :
    ∀ tr, SegWF m tr →
    ∃ tr2, SegWF m tr2 ∧
      segRender tr2 = (segRender tr).dropWhile (fun c => c ≠ ';') ∧
      segSource tr2 = (segSource tr).dropWhile (fun c => c ≠ ';') := by
  intro tr
  induction tr with
  | nil => exact fun _ => ⟨[], trivial, rfl, rfl⟩
  | cons seg tr ih =>
    cases seg with
    | keep c =>
      intro hwf
      obtain ⟨hm, hwf2⟩ := hwf
      by_cases hc : c = ';'
      · refine ⟨.keep c :: tr, ⟨hm, hwf2⟩, ?_, ?_⟩
        · simp [segRender, List.dropWhile_cons, hc]
        · simp [segSource, List.dropWhile_cons, hc]
      · obtain ⟨tr2, hwf3, hr, hs⟩ := ih hwf2
        refine ⟨tr2, hwf3, ?_, ?_⟩
        · rw [hr]
          simp [segRender, List.dropWhile_cons, hc]
        · rw [hs]
          simp [segSource, List.dropWhile_cons, hc]
    | repl con rep =>
      intro hwf
      obtain ⟨hm, hcon, hwf2⟩ := hwf
      obtain ⟨hrsem, con2, hcon2, hsplit, hconsem⟩ := hsem _ _ _ hm
      have hcc : con2 = con := (List.append_cancel_right hsplit).symm
      obtain ⟨tr2, hwf3, hr, hs⟩ := ih hwf2
      refine ⟨tr2, hwf3, ?_, ?_⟩
      · simp only [segRender]
        rw [dropWhile_append_all _ _ _ (fun c hc => by simpa using hrsem c hc)]
        exact hr
      · simp only [segSource]
        rw [dropWhile_append_all _ _ _
          (fun c hc => by simpa using hconsem c (hcc ▸ hc))]
        exact hs

lemma getLast?_drop_lt (l : Str) (n : Nat) (h : n < l.length) :
    (l.drop n).getLast? = l.getLast? := by
  induction l generalizing n with
  | nil => simp at h
  | cons c t ih =>
    cases n with
    | zero => simp
    | succ k =>
      simp only [List.drop_succ_cons]
      rw [ih k (by simpa using h)]
      have ht : t ≠ [] := by
        intro he
        rw [he] at h
        simp at h
      cases t with
      | nil => exact absurd rfl ht
      | cons b t2 => simp [List.getLast?_cons_cons]

lemma head_b64_corr (m : Str → Option (Str × Str)) (hreps : RepsOK m) (hh : HeadRel m) :
    ∀ tr, SegWF m tr → ∀ hb, (segRender tr).head? = some hb → b64Char hb = true →
    ∃ hs, (segSource tr).head? = some hs ∧ b64Char hs = true := by
  intro tr
  cases tr with
  | nil =>
    intro hwf hb hhb h64
    simp [segRender] at hhb
  | cons seg tr =>
    cases seg with
    | keep c =>
      intro hwf hb hhb h64
      simp only [segRender, List.head?_cons, Option.some.injEq] at hhb
      exact ⟨c, by simp [segSource], hhb ▸ h64⟩
    | repl con rep =>
      intro hwf hb hhb h64
      obtain ⟨hm, hcon, hwf2⟩ := hwf
      obtain ⟨hrok, hrne⟩ := hreps _ _ _ hm
      obtain ⟨con2, hcon2, hsplit, hrel⟩ := hh _ _ _ hm
      have hcc : con2 = con := (List.append_cancel_right hsplit).symm
      subst hcc
      simp only [segRender] at hhb
      rw [List.head?_append_of_ne_nil _ hrne] at hhb
      have hsrc : (segSource (ScanSeg.repl con2 rep :: tr)).head? = con2.head? := by
        simp only [segSource]
        exact List.head?_append_of_ne_nil _ hcon2
      rcases hrel with hrel | ⟨hr, hc, hr1, hc1, hr64, hc64⟩ | hrel
      · rw [hrel] at hhb
        cases hch : con2.head? with
        | none => rw [hch] at hhb; simp at hhb
        | some d =>
          rw [hch] at hhb
          simp only [Option.some.injEq] at hhb
          exact ⟨d, by rw [hsrc, hch], hhb ▸ h64⟩
      · rw [hr1] at hhb
        simp only [Option.some.injEq] at hhb
        exact ⟨hc, by rw [hsrc, hc1], hc64⟩
      · rw [hrel] at hhb
        simp only [Option.some.injEq] at hhb
        rw [← hhb] at h64
        exact absurd h64 (by decide)

lemma mime_nonempty_corr (m : Str → Option (Str × Str)) (hsem : SemiFree m) :
    ∀ tr, SegWF m tr → ∀ hd, (segRender tr).head? = some hd → ¬(hd = ';') →
    ∃ hs, (segSource tr).head? = some hs ∧ ¬(hs = ';') := by
  intro tr
  cases tr with
  | nil =>
    intro hwf hd hhd hns
    simp [segRender] at hhd
  | cons seg tr =>
    cases seg with
    | keep c =>
      intro hwf hd hhd hns
      simp only [segRender, List.head?_cons, Option.some.injEq] at hhd
      exact ⟨c, by simp [segSource], hhd ▸ hns⟩
    | repl con rep =>
      intro hwf hd hhd hns
      obtain ⟨hm, hcon, hwf2⟩ := hwf
      obtain ⟨hrsem, con2, hcon2, hsplit, hconsem⟩ := hsem _ _ _ hm
      have hcc : con2 = con := (List.append_cancel_right hsplit).symm
      subst hcc
      cases hch : con2.head? with
      | none =>
        exfalso
        cases con2 with
        | nil => exact hcon2 rfl
        | cons a b => simp at hch
      | some d =>
        refine ⟨d, ?_, ?_⟩
        · simp only [segSource]
          rw [List.head?_append_of_ne_nil _ hcon2, hch]
        · refine hconsem d ?_
          cases con2 with
          | nil => exact absurd rfl hcon2
          | cons a b =>
            simp only [List.head?_cons, Option.some.injEq] at hch
            rw [← hch]
            simp

lemma takeWhile_ne_nil_iff_head (p : Char → Bool) (l : Str) :
    l.takeWhile p ≠ [] ↔ ∃ hd, l.head? = some hd ∧ p hd = true := by
  cases l with
  | nil => simp
  | cons c t =>
    simp only [List.takeWhile_cons, List.head?_cons]
    by_cases h : p c = true
    · rw [if_pos h]
      simp [h]
    · rw [if_neg h]
      constructor
      · intro he
        exact absurd rfl he
      · rintro ⟨hd, hhd, hp⟩
        obtain rfl : hd = c := by simpa using hhd.symm
        exact absurd hp h

lemma imgMatchAt_none_of_nolit (u : Str)
    (h : isLitPrefix (("data:image/").data) u = false) : imgMatchAt u = none := by
  simp [imgMatchAt, h]

lemma imgMatchAt_ne_none_elim (w : Str) (h : ¬(imgMatchAt w = none)) :
    isLitPrefix (("data:image/").data) w = true ∧
    (∃ hd, (w.drop 11).head? = some hd ∧ ¬(hd = ';')) ∧
    isLitPrefix ((";base64,").data) ((w.drop 11).dropWhile (fun c => c ≠ ';')) = true ∧
    (∃ hb64, (((w.drop 11).dropWhile (fun c => c ≠ ';')).drop 8).head? = some hb64 ∧
      b64Char hb64 = true) := by
  by_cases h1 : isLitPrefix (("data:image/").data) w = true
  case neg =>
    exact absurd (imgMatchAt_none_of_nolit w (by simpa using h1)) h
  simp only [imgMatchAt, if_pos h1] at h
  by_cases h2 : ((w.drop 11).takeWhile (fun c => c ≠ ';')).length = 0
  · rw [if_pos h2] at h
    exact absurd rfl h
  rw [if_neg h2] at h
  by_cases h3 : isLitPrefix ((";base64,").data)
      ((w.drop 11).drop ((w.drop 11).takeWhile (fun c => c ≠ ';')).length) = true
  case neg =>
    rw [if_neg h3] at h
    exact absurd rfl h
  rw [if_pos h3] at h
  by_cases h4 : ((((w.drop 11).drop ((w.drop 11).takeWhile
      (fun c => c ≠ ';')).length).drop 8).takeWhile b64Char).length = 0
  · rw [if_pos h4] at h
    exact absurd rfl h
  refine ⟨h1, ?_, ?_, ?_⟩
  · have hne : (w.drop 11).takeWhile (fun c => c ≠ ';') ≠ [] := by
      intro he
      rw [he] at h2
      simp at h2
    obtain ⟨hd, hhd, hp⟩ := (takeWhile_ne_nil_iff_head _ _).mp hne
    exact ⟨hd, hhd, by simpa using hp⟩
  · rw [dropWhile_eq_drop]
    exact h3
  · have hne : (((w.drop 11).drop ((w.drop 11).takeWhile
        (fun c => c ≠ ';')).length).drop 8).takeWhile b64Char ≠ [] := by
      intro he
      rw [he] at h4
      simp at h4
    obtain ⟨hd, hhd, hp⟩ := (takeWhile_ne_nil_iff_head _ _).mp hne
    refine ⟨hd, ?_, hp⟩
    rw [dropWhile_eq_drop]
    exact hhd

lemma imgMatchAt_ne_none_of (v : Str)
    (h11 : isLitPrefix (("data:image/").data) v = true)
    (hm : ∃ hd, (v.drop 11).head? = some hd ∧ ¬(hd = ';'))
    (hb : isLitPrefix ((";base64,").data) ((v.drop 11).dropWhile (fun c => c ≠ ';')) = true)
    (hp : ∃ hb64, (((v.drop 11).dropWhile (fun c => c ≠ ';')).drop 8).head? = some hb64 ∧
      b64Char hb64 = true) :
    ¬(imgMatchAt v = none) := by
  intro hc
  obtain ⟨hd, hhd, hdns⟩ := hm
  obtain ⟨hb64, hb64h, hb64p⟩ := hp
  have hmime : (v.drop 11).takeWhile (fun c => c ≠ ';') ≠ [] := by
    rw [takeWhile_ne_nil_iff_head]
    exact ⟨hd, hhd, by simpa using hdns⟩
  have hlen2 : ¬(((v.drop 11).takeWhile (fun c => c ≠ ';')).length = 0) := by
    intro he
    exact hmime (List.length_eq_zero.mp he)
  have hlen4 : ¬((((((v.drop 11).drop ((v.drop 11).takeWhile
      (fun c => c ≠ ';')).length)).drop 8).takeWhile b64Char).length = 0) := by
    intro he
    have hne : (((v.drop 11).drop ((v.drop 11).takeWhile
        (fun c => c ≠ ';')).length).drop 8).takeWhile b64Char ≠ [] := by
      rw [takeWhile_ne_nil_iff_head]
      refine ⟨hb64, ?_, hb64p⟩
      rw [← dropWhile_eq_drop]
      exact hb64h
    exact hne (List.length_eq_zero.mp he)
  rw [dropWhile_eq_drop] at hb
  simp only [imgMatchAt, if_pos h11] at hc
  rw [if_neg hlen2, if_pos hb, if_neg hlen4] at hc
  simp at hc

/-- A stage whose replacements are inert blocks, whose matches consume no
semicolons, and whose heads respect the base64 class, preserves absence
of the image pattern everywhere. -/
theorem stage_keeps_img (m : Str → Option (Str × Str))
    (hreps : RepsOK m) (hsem : SemiFree m) (hh : HeadRel m) :
    ∀ tr, SegWF m tr → NMAll imgMatchAt (segSource tr) →
      NMAll imgMatchAt (segRender tr) := by
  have hlen11 : ((("data:image/").data)).length = 11 := by decide
  have hlen8 : (((";base64,").data)).length = 8 := by decide
  have node : ∀ tr, SegWF m tr → ¬(imgMatchAt (segRender tr) = none) →
      ¬(imgMatchAt (segSource tr) = none) := by
    intro tr hwf hren
    obtain ⟨h11, ⟨hd, hhd, hdns⟩, hb64pre, hpay⟩ := imgMatchAt_ne_none_elim _ hren
    obtain ⟨hs11, tr2, hwf2, hr2, hs2⟩ := lit_eat m hreps tr _ hwf litOK_img h11
    rw [hlen11] at hr2 hs2
    obtain ⟨hs, hshd, hsns⟩ := mime_nonempty_corr m hsem tr2 hwf2 hd
      (by rw [hr2]; exact hhd) hdns
    obtain ⟨tr3, hwf3, hr3, hs3⟩ := semi_corr m hsem tr2 hwf2
    have hb64ren : isLitPrefix ((";base64,").data) (segRender tr3) = true := by
      rw [hr3, hr2]
      exact hb64pre
    obtain ⟨hsb64, tr4, hwf4, hr4, hs4⟩ := lit_eat m hreps tr3 _ hwf3 litOK_b64 hb64ren
    rw [hlen8] at hr4 hs4
    obtain ⟨hb64, hb64h, hb64p⟩ := hpay
    obtain ⟨hsp, hsph, hspb⟩ := head_b64_corr m hreps hh tr4 hwf4 hb64
      (by rw [hr4, hr3, hr2]; exact hb64h) hb64p
    refine imgMatchAt_ne_none_of (segSource tr) hs11 ⟨hs, ?_, hsns⟩ ?_ ⟨hsp, ?_, hspb⟩
    · rw [← hs2]
      exact hshd
    · rw [← hs2, ← hs3]
      exact hsb64
    · rw [← hs2, ← hs3, ← hs4]
      exact hsph
  intro tr
  induction tr with
  | nil =>
    intro hwf h
    exact h
  | cons seg tr ih =>
    cases seg with
    | keep c =>
      intro hwf hnm
      obtain ⟨hm2, hwf2⟩ := hwf
      simp only [segSource] at hnm
      rw [NMAll_cons_iff] at hnm
      show NMAll imgMatchAt (c :: segRender tr)
      rw [NMAll_cons_iff]
      refine ⟨?_, ih hwf2 hnm.2⟩
      by_contra hcon
      have hnode := node (.keep c :: tr) ⟨hm2, hwf2⟩ (by simpa [segRender] using hcon)
      simp only [segSource] at hnode
      exact hnode hnm.1
    | repl con rep =>
      intro hwf hnm
      obtain ⟨hm2, hcon, hwf2⟩ := hwf
      obtain ⟨hrok, hrne⟩ := hreps _ _ _ hm2
      simp only [segSource] at hnm
      rw [NMAll_append_iff] at hnm
      show NMAll imgMatchAt (rep ++ segRender tr)
      rw [NMAll_append_iff]
      refine ⟨?_, ih hwf2 hnm.2⟩
      intro i hi
      apply imgMatchAt_none_of_nolit
      by_contra hcon2
      have hpre : isLitPrefix (("data:image/").data) (rep.drop i ++ segRender tr) = true := by
        revert hcon2
        cases hx : isLitPrefix (("data:image/").data) (rep.drop i ++ segRender tr) <;> simp
      have hrok2 : RepOK (rep.drop i) := by
        obtain ⟨hlast, hchars⟩ := hrok
        exact ⟨by rw [getLast?_drop_lt rep i hi]; exact hlast,
          fun c2 hc2 => hchars c2 (List.mem_of_mem_drop hc2)⟩
      have hne2 : rep.drop i ≠ [] := by
        intro he
        have hlen := congrArg List.length he
        simp [List.length_drop] at hlen
        omega
      have hfalse := lit_not_prefix_rep _ _ (segRender tr) litOK_img hrok2 hne2
      rw [hpre] at hfalse
      simp at hfalse

/-- Decomposition of a successful underscore tail into its whitespace
run, its underscore run of length at least five, and the remainder. -/
lemma underTail_decomp (s rest : Str) (h : underTail s = some rest) :
    ∃ wsp usp, s = wsp ++ usp ++ rest ∧ (∀ c ∈ wsp, ws c = true) ∧
      (∀ c ∈ usp, c = '_') ∧ 5 ≤ usp.length := by
  simp only [underTail] at h
  split_ifs at h with h5
  simp only [Option.some.injEq] at h
  refine ⟨s.takeWhile ws, (s.dropWhile ws).takeWhile (fun c => c = '_'), ?_, ?_, ?_, h5⟩
  · rw [← h, List.append_assoc]
    rw [show ((s.dropWhile ws).takeWhile (fun c => c = '_')) ++
        ((s.dropWhile ws).drop ((s.dropWhile ws).takeWhile (fun c => c = '_')).length) =
        s.dropWhile ws from ?_]
    · exact (List.takeWhile_append_dropWhile ws s).symm
    · rw [← dropWhile_eq_drop]
      exact List.takeWhile_append_dropWhile _ _
  · exact fun c hc => List.mem_takeWhile_imp hc
  · intro c hc
    have := List.mem_takeWhile_imp hc
    simpa using this

lemma letter_b64 (c : Char)
    (h : (65 ≤ c.toNat ∧ c.toNat ≤ 90) ∨ (97 ≤ c.toNat ∧ c.toNat ≤ 122)) :
    b64Char c = true := by
  simp only [b64Char, decide_eq_true_eq]
  rcases h with h | h
  · exact Or.inl ⟨h.1, h.2⟩
  · exact Or.inr (Or.inl ⟨h.1, h.2⟩)

lemma alphaWs_ne (c x : Char) (h : alphaWs c = true) (hx : alphaWs x = false) :
    ¬(c = x) := by
  intro he
  rw [he] at h
  rw [h] at hx
  exact absurd hx (by simp)

lemma ws_ne (c x : Char) (h : ws c = true) (hx : ws x = false) : ¬(c = x) := by
  intro he
  rw [he] at h
  rw [h] at hx
  exact absurd hx (by simp)

lemma letter_ne_of_toNat (c : Char) (x : Char)
    (h : (65 ≤ c.toNat ∧ c.toNat ≤ 90) ∨ (97 ≤ c.toNat ∧ c.toNat ≤ 122))
    (hx : x.toNat < 65 ∨ (90 < x.toNat ∧ x.toNat < 97) ∨ 122 < x.toNat) : ¬(c = x) := by
  intro he
  subst he
  omega

lemma labelUnderMatchAt_some_inv (label rep0 u rep rest : Str)
    (h : labelUnderMatchAt label rep0 u = some (rep, rest)) :
    matchesCI label u = true ∧ underTail (u.drop label.length) = some rest ∧
      rep = rep0 := by
  simp only [labelUnderMatchAt] at h
  split_ifs at h with h1
  · cases hut : underTail (u.drop label.length) with
    | none => rw [hut] at h; simp at h
    | some r2 =>
      rw [hut] at h
      simp only [Option.some.injEq, Prod.mk.injEq] at h
      obtain ⟨ha, hb⟩ := h
      subst hb
      exact ⟨h1, rfl, ha.symm⟩

lemma labelUnder_con (label rep0 body u rep rest : Str)
    (hsplit : label = body ++ [':'])
    (hbody : ∀ b ∈ body, (65 ≤ b.toNat ∧ b.toNat ≤ 90) ∨ (97 ≤ b.toNat ∧ b.toNat ≤ 122))
    (h : labelUnderMatchAt label rep0 u = some (rep, rest)) :
    rep = rep0 ∧ ∃ x wsp usp, u = (x ++ ':' :: (wsp ++ usp)) ++ rest ∧
      x.length = body.length ∧
      (∀ c ∈ x, (65 ≤ c.toNat ∧ c.toNat ≤ 90) ∨ (97 ≤ c.toNat ∧ c.toNat ≤ 122)) ∧
      (∀ c ∈ wsp, ws c = true) ∧ (∀ c ∈ usp, c = '_') ∧ 5 ≤ usp.length := by
  obtain ⟨h1, hut, hrep⟩ := labelUnderMatchAt_some_inv label rep0 u rep rest h
  obtain ⟨x, r1, hu, hxl, hxa⟩ := matchesCI_label_structure body u hbody (hsplit ▸ h1)
  have hdr : u.drop label.length = r1 := by
    rw [hsplit, List.length_append, show body.length = x.length from hxl.symm]
    have h2 : u.drop x.length = ':' :: r1 := by
      rw [hu]
      exact List.drop_left x _
    exact drop_cons_succ u x.length ':' r1 h2
  rw [hdr] at hut
  obtain ⟨wsp, usp, hr1, hwsp, husp, h5⟩ := underTail_decomp r1 rest hut
  refine ⟨hrep, x, wsp, usp, ?_, hxl, hxa, hwsp, husp, h5⟩
  rw [hu, hr1]
  simp [List.append_assoc]

/-- The three transfer properties for a literal-label rule. -/
lemma labelUnder_stage_ok (label rep0 body : Str)
    (hsplit : label = body ++ [':'])
    (hbody : ∀ b ∈ body, (65 ≤ b.toNat ∧ b.toNat ≤ 90) ∨ (97 ≤ b.toNat ∧ b.toNat ≤ 122))
    (hbne : body ≠ [])
    (hrok : RepOK rep0) (hrne : rep0 ≠ [])
    (hrsem : ∀ c ∈ rep0, ¬(c = ';'))
    (hrhd : ∃ hr, rep0.head? = some hr ∧ b64Char hr = true) :
    RepsOK (labelUnderMatchAt label rep0) ∧ SemiFree (labelUnderMatchAt label rep0) ∧
      HeadRel (labelUnderMatchAt label rep0) := by
  refine ⟨?_, ?_, ?_⟩
  · intro u rep rest h
    obtain ⟨hr, _⟩ := labelUnder_con label rep0 body u rep rest hsplit hbody h
    exact ⟨hr ▸ hrok, hr ▸ hrne⟩
  · intro u rep rest h
    obtain ⟨hr, x, wsp, usp, hu, hxl, hxa, hwsp, husp, h5⟩ :=
      labelUnder_con label rep0 body u rep rest hsplit hbody h
    refine ⟨hr ▸ hrsem, x ++ ':' :: (wsp ++ usp), by simp, hu, ?_⟩
    intro c hc
    rcases List.mem_append.mp hc with hc | hc
    · exact letter_ne_of_toNat c ';' (hxa c hc) (by decide)
    · rcases List.mem_cons.mp hc with hc | hc
      · subst hc
        decide
      · rcases List.mem_append.mp hc with hc | hc
        · exact ws_ne c ';' (hwsp c hc) (by decide)
        · rw [husp c hc]
          decide
  · intro u rep rest h
    obtain ⟨hr, x, wsp, usp, hu, hxl, hxa, hwsp, husp, h5⟩ :=
      labelUnder_con label rep0 body u rep rest hsplit hbody h
    refine ⟨x ++ ':' :: (wsp ++ usp), by simp, hu, ?_⟩
    right
    left
    obtain ⟨hrh, hrh1, hrh64⟩ := hrhd
    cases x with
    | nil =>
      exfalso
      cases body with
      | nil => exact hbne rfl
      | cons a b2 => simp at hxl
    | cons xc xt =>
      exact ⟨hrh, xc, hr ▸ hrh1, by simp, hrh64, letter_b64 xc (hxa xc (by simp))⟩

lemma decomp_con_nosemi (x wsp usp : Str)
    (hxa : ∀ c ∈ x, (65 ≤ c.toNat ∧ c.toNat ≤ 90) ∨ (97 ≤ c.toNat ∧ c.toNat ≤ 122))
    (hwsp : ∀ c ∈ wsp, ws c = true) (husp : ∀ c ∈ usp, c = '_') :
    ∀ c ∈ x ++ ':' :: (wsp ++ usp), ¬(c = ';') := by
  intro c hc
  rcases List.mem_append.mp hc with hc | hc
  · exact letter_ne_of_toNat c ';' (hxa c hc) (by decide)
  · rcases List.mem_cons.mp hc with hc | hc
    · subst hc
      decide
    · rcases List.mem_append.mp hc with hc | hc
      · exact ws_ne c ';' (hwsp c hc) (by decide)
      · rw [husp c hc]
        decide

lemma comments_con (u rep rest : Str) (h : commentsMatchAt u = some (rep, rest)) :
    rep = ("Comments: [TO BE FILLED]").data ∧
    ∃ x wsp usp, u = (x ++ ':' :: (wsp ++ usp)) ++ rest ∧ 7 ≤ x.length ∧
      (∀ c ∈ x, (65 ≤ c.toNat ∧ c.toNat ≤ 90) ∨ (97 ≤ c.toNat ∧ c.toNat ≤ 122)) ∧
      (∀ c ∈ wsp, ws c = true) ∧ (∀ c ∈ usp, c = '_') ∧ 5 ≤ usp.length := by
  simp only [commentsMatchAt] at h
  split_ifs at h with h1 h2
  · cases hut : underTail (u.drop 9) with
    | none => rw [hut] at h; simp at h
    | some r2 =>
      rw [hut] at h
      simp only [Option.some.injEq, Prod.mk.injEq] at h
      obtain ⟨ha, hb⟩ := h
      subst hb
      obtain ⟨x, r1, hu, hxl, hxa⟩ :=
        matchesCI_label_structure (("comments").data) u (by decide) h1
      have hx8 : x.length = 8 := by rw [hxl]; rfl
      have hdr : u.drop 9 = r1 := by
        have h2d : u.drop 8 = ':' :: r1 := by
          rw [← hx8, hu]
          exact List.drop_left x _
        exact drop_cons_succ u 8 ':' r1 h2d
      rw [hdr] at hut
      obtain ⟨wsp, usp, hr1, hwsp, husp, h5⟩ := underTail_decomp r1 r2 hut
      refine ⟨ha.symm, x, wsp, usp, ?_, by omega, hxa, hwsp, husp, h5⟩
      rw [hu, hr1]
      simp [List.append_assoc]
  · cases hut : underTail (u.drop 8) with
    | none => rw [hut] at h; simp at h
    | some r2 =>
      rw [hut] at h
      simp only [Option.some.injEq, Prod.mk.injEq] at h
      obtain ⟨ha, hb⟩ := h
      subst hb
      obtain ⟨x, r1, hu, hxl, hxa⟩ :=
        matchesCI_label_structure (("comment").data) u (by decide) h2
      have hx7 : x.length = 7 := by rw [hxl]; rfl
      have hdr : u.drop 8 = r1 := by
        have h2d : u.drop 7 = ':' :: r1 := by
          rw [← hx7, hu]
          exact List.drop_left x _
        exact drop_cons_succ u 7 ':' r1 h2d
      rw [hdr] at hut
      obtain ⟨wsp, usp, hr1, hwsp, husp, h5⟩ := underTail_decomp r1 r2 hut
      refine ⟨ha.symm, x, wsp, usp, ?_, by omega, hxa, hwsp, husp, h5⟩
      rw [hu, hr1]
      simp [List.append_assoc]

lemma comments_stage_ok :
    RepsOK commentsMatchAt ∧ SemiFree commentsMatchAt ∧ HeadRel commentsMatchAt := by
  refine ⟨?_, ?_, ?_⟩
  · intro u rep rest h
    obtain ⟨hr, _⟩ := comments_con u rep rest h
    subst hr
    exact ⟨⟨by decide, by decide⟩, by decide⟩
  · intro u rep rest h
    obtain ⟨hr, x, wsp, usp, hu, hxl, hxa, hwsp, husp, h5⟩ := comments_con u rep rest h
    subst hr
    exact ⟨by decide, x ++ ':' :: (wsp ++ usp), by simp, hu,
      decomp_con_nosemi x wsp usp hxa hwsp husp⟩
  · intro u rep rest h
    obtain ⟨hr, x, wsp, usp, hu, hxl, hxa, hwsp, husp, h5⟩ := comments_con u rep rest h
    subst hr
    refine ⟨x ++ ':' :: (wsp ++ usp), by simp, hu, ?_⟩
    right
    left
    cases x with
    | nil => simp at hxl
    | cons xc xt =>
      exact ⟨'C', xc, by decide, by simp, by decide, letter_b64 xc (hxa xc (by simp))⟩

lemma take_takeWhile (p : Char → Bool) (u : Str) :
    u.take (u.takeWhile p).length = u.takeWhile p := by
  conv_rhs => rw [takeWhile_eq_take_len p u]

lemma labelRun_con (u rep rest : Str) (h : labelRunMatchAt u = some (rep, rest)) :
    ∃ run wsp usp, rep = run ++ (": [TO BE FILLED]").data ∧ run ≠ [] ∧
      (∀ c ∈ run, alphaWs c = true) ∧
      u = (run ++ ':' :: (wsp ++ usp)) ++ rest ∧
      (∀ c ∈ wsp, ws c = true) ∧ (∀ c ∈ usp, c = '_') ∧ 5 ≤ usp.length := by
  obtain ⟨r1, hrun1, hdrop, hut, hrep⟩ := labelRunMatchAt_some_inv u rep rest h
  obtain ⟨wsp, usp, hr1, hwsp, husp, h5⟩ := underTail_decomp r1 rest hut
  refine ⟨awrun u, wsp, usp, hrep, ?_, fun c hc => List.mem_takeWhile_imp hc, ?_, hwsp, husp, h5⟩
  · intro he
    rw [he] at hrun1
    simp at hrun1
  · conv_lhs => rw [← List.take_append_drop (awrun u).length u]
    rw [hdrop, hr1, show u.take (awrun u).length = awrun u from take_takeWhile alphaWs u]
    simp [List.append_assoc]

lemma approval_con (u rep rest : Str) (h : approvalMatchAt u = some (rep, rest)) :
    ∃ run wsp usp, rep = run ++ (": [APPROVAL SIGNATURE REQUIRED]").data ∧ run ≠ [] ∧
      (∀ c ∈ run, alphaWs c = true) ∧
      u = (run ++ ':' :: (wsp ++ usp)) ++ rest ∧
      (∀ c ∈ wsp, ws c = true) ∧ (∀ c ∈ usp, c = '_') ∧ 5 ≤ usp.length := by
  simp only [approvalMatchAt] at h
  split_ifs at h with h1
  obtain ⟨h8, hm⟩ := h1
  cases hut : underTail (u.drop ((u.takeWhile alphaWs).length + 1)) with
  | none => rw [hut] at h; simp at h
  | some r2 =>
    rw [hut] at h
    simp only [Option.some.injEq, Prod.mk.injEq] at h
    obtain ⟨ha, hb⟩ := h
    subst hb
    obtain ⟨x, r1, hy, hxl0, hxa0⟩ := matchesCI_label_structure (("approval").data)
      (u.drop ((u.takeWhile alphaWs).length - 8)) (by decide) hm
    have hx8 : x.length = 8 := by rw [hxl0]; rfl
    have hstep : u.drop (u.takeWhile alphaWs).length = ':' :: r1 := by
      have h2 : (u.drop ((u.takeWhile alphaWs).length - 8)).drop 8 =
          u.drop (u.takeWhile alphaWs).length := by
        rw [List.drop_drop]
        congr 1
        omega
      rw [← h2, hy, ← hx8]
      exact List.drop_left x _
    have hr1d : u.drop ((u.takeWhile alphaWs).length + 1) = r1 :=
      drop_cons_succ u _ ':' r1 hstep
    rw [hr1d] at hut
    obtain ⟨wsp, usp, hr1, hwsp, husp, h5⟩ := underTail_decomp r1 r2 hut
    refine ⟨u.takeWhile alphaWs, wsp, usp, ha.symm, ?_,
      fun c hc => List.mem_takeWhile_imp hc, ?_, hwsp, husp, h5⟩
    · intro he
      rw [he] at h8
      simp at h8
    · conv_lhs => rw [← List.take_append_drop (u.takeWhile alphaWs).length u]
      rw [hstep, hr1, take_takeWhile alphaWs u]
      simp [List.append_assoc]

lemma run_lit_rep_ok (run lit : Str) (hrun : ∀ c ∈ run, alphaWs c = true)
    (hlast : lit.getLast? = some ']') (hlit : ∀ c ∈ lit, ¬(c = '/') ∧ ¬(c = ';') ∧ ¬(c = ','))
    (hlne : lit ≠ []) :
    RepOK (run ++ lit) ∧ run ++ lit ≠ [] := by
  refine ⟨⟨?_, ?_⟩, ?_⟩
  · rw [List.getLast?_append_of_ne_nil run hlne]
    exact hlast
  · intro c hc
    rcases List.mem_append.mp hc with hc | hc
    · exact ⟨alphaWs_ne c '/' (hrun c hc) (by decide),
        alphaWs_ne c ';' (hrun c hc) (by decide),
        alphaWs_ne c ',' (hrun c hc) (by decide)⟩
    · exact hlit c hc
  · intro he
    rw [List.append_eq_nil] at he
    exact hlne he.2

lemma run_con_nosemi (run wsp usp : Str) (hrun : ∀ c ∈ run, alphaWs c = true)
    (hwsp : ∀ c ∈ wsp, ws c = true) (husp : ∀ c ∈ usp, c = '_') :
    ∀ c ∈ run ++ ':' :: (wsp ++ usp), ¬(c = ';') := by
  intro c hc
  rcases List.mem_append.mp hc with hc | hc
  · exact alphaWs_ne c ';' (hrun c hc) (by decide)
  · rcases List.mem_cons.mp hc with hc | hc
    · subst hc
      decide
    · rcases List.mem_append.mp hc with hc | hc
      · exact ws_ne c ';' (hwsp c hc) (by decide)
      · rw [husp c hc]
        decide

lemma labelRun_stage_ok :
    RepsOK labelRunMatchAt ∧ SemiFree labelRunMatchAt ∧ HeadRel labelRunMatchAt := by
  refine ⟨?_, ?_, ?_⟩
  · intro u rep rest h
    obtain ⟨run, wsp, usp, hrep, hrne, hrun, hu, hwsp, husp, h5⟩ := labelRun_con u rep rest h
    subst hrep
    exact run_lit_rep_ok run _ hrun (by decide) (by decide) (by decide)
  · intro u rep rest h
    obtain ⟨run, wsp, usp, hrep, hrne, hrun, hu, hwsp, husp, h5⟩ := labelRun_con u rep rest h
    subst hrep
    refine ⟨?_, run ++ ':' :: (wsp ++ usp), by simp, hu,
      run_con_nosemi run wsp usp hrun hwsp husp⟩
    intro c hc
    rcases List.mem_append.mp hc with hc | hc
    · exact alphaWs_ne c ';' (hrun c hc) (by decide)
    · have hall : ∀ x ∈ (": [TO BE FILLED]").data, ¬(x = ';') := by decide
      exact hall c hc
  · intro u rep rest h
    obtain ⟨run, wsp, usp, hrep, hrne, hrun, hu, hwsp, husp, h5⟩ := labelRun_con u rep rest h
    subst hrep
    refine ⟨run ++ ':' :: (wsp ++ usp), by simp, hu, ?_⟩
    left
    rw [List.head?_append_of_ne_nil _ hrne, List.head?_append_of_ne_nil _ hrne]

lemma approval_stage_ok :
    RepsOK approvalMatchAt ∧ SemiFree approvalMatchAt ∧ HeadRel approvalMatchAt := by
  refine ⟨?_, ?_, ?_⟩
  · intro u rep rest h
    obtain ⟨run, wsp, usp, hrep, hrne, hrun, hu, hwsp, husp, h5⟩ := approval_con u rep rest h
    subst hrep
    exact run_lit_rep_ok run _ hrun (by decide) (by decide) (by decide)
  · intro u rep rest h
    obtain ⟨run, wsp, usp, hrep, hrne, hrun, hu, hwsp, husp, h5⟩ := approval_con u rep rest h
    subst hrep
    refine ⟨?_, run ++ ':' :: (wsp ++ usp), by simp, hu,
      run_con_nosemi run wsp usp hrun hwsp husp⟩
    intro c hc
    rcases List.mem_append.mp hc with hc | hc
    · exact alphaWs_ne c ';' (hrun c hc) (by decide)
    · have hall : ∀ x ∈ (": [APPROVAL SIGNATURE REQUIRED]").data, ¬(x = ';') := by decide
      exact hall c hc
  · intro u rep rest h
    obtain ⟨run, wsp, usp, hrep, hrne, hrun, hu, hwsp, husp, h5⟩ := approval_con u rep rest h
    subst hrep
    refine ⟨run ++ ':' :: (wsp ++ usp), by simp, hu, ?_⟩
    left
    rw [List.head?_append_of_ne_nil _ hrne, List.head?_append_of_ne_nil _ hrne]

lemma underLine_stage_ok :
    RepsOK underLineMatchAt ∧ SemiFree underLineMatchAt ∧ HeadRel underLineMatchAt := by
  have hcon : ∀ u rep rest, underLineMatchAt u = some (rep, rest) →
      rep = ("[SIGNATURE LINE]").data ∧
      u = u.takeWhile (fun c => c = '_') ++ rest ∧
      u.takeWhile (fun c => c = '_') ≠ [] ∧
      (∀ c ∈ u.takeWhile (fun c => c = '_'), c = '_') := by
    intro u rep rest h
    obtain ⟨hrep, hrest, h10⟩ := underLineMatchAt_some_inv u rep rest h
    refine ⟨hrep, ?_, ?_, ?_⟩
    · conv_lhs => rw [← List.take_append_drop (urun u) u]
      rw [← hrest]
      congr 1
      exact take_takeWhile (fun c => c = '_') u
    · intro he
      have := congrArg List.length he
      simp only [List.length_nil] at this
      rw [show (u.takeWhile (fun c => c = '_')).length = urun u from rfl] at this
      omega
    · intro c hc
      have := List.mem_takeWhile_imp hc
      simpa using this
  refine ⟨?_, ?_, ?_⟩
  · intro u rep rest h
    obtain ⟨hrep, _⟩ := hcon u rep rest h
    subst hrep
    exact ⟨⟨by decide, by decide⟩, by decide⟩
  · intro u rep rest h
    obtain ⟨hrep, hu, hne, hch⟩ := hcon u rep rest h
    subst hrep
    refine ⟨by decide, _, hne, hu, ?_⟩
    intro c hc
    rw [hch c hc]
    decide
  · intro u rep rest h
    obtain ⟨hrep, hu, hne, hch⟩ := hcon u rep rest h
    subst hrep
    refine ⟨_, hne, hu, ?_⟩
    right
    right
    decide

lemma date_stage_ok :
    RepsOK (labelUnderMatchAt ("Date:").data ("Date: [SIGNATURE DATE REQUIRED]").data) ∧
    SemiFree (labelUnderMatchAt ("Date:").data ("Date: [SIGNATURE DATE REQUIRED]").data) ∧
    HeadRel (labelUnderMatchAt ("Date:").data ("Date: [SIGNATURE DATE REQUIRED]").data) :=
  labelUnder_stage_ok _ _ (("Date").data) (by decide) (by decide) (by decide)
    ⟨by decide, by decide⟩ (by decide) (by decide) ⟨'D', by decide, by decide⟩

lemma name_stage_ok :
    RepsOK (labelUnderMatchAt ("Name:").data ("Name: [SIGNATURE FIELD]").data) ∧
    SemiFree (labelUnderMatchAt ("Name:").data ("Name: [SIGNATURE FIELD]").data) ∧
    HeadRel (labelUnderMatchAt ("Name:").data ("Name: [SIGNATURE FIELD]").data) :=
  labelUnder_stage_ok _ _ (("Name").data) (by decide) (by decide) (by decide)
    ⟨by decide, by decide⟩ (by decide) (by decide) ⟨'N', by decide, by decide⟩

lemma title_stage_ok :
    RepsOK (labelUnderMatchAt ("Title:").data ("Title: [TO BE FILLED]").data) ∧
    SemiFree (labelUnderMatchAt ("Title:").data ("Title: [TO BE FILLED]").data) ∧
    HeadRel (labelUnderMatchAt ("Title:").data ("Title: [TO BE FILLED]").data) :=
  labelUnder_stage_ok _ _ (("Title").data) (by decide) (by decide) (by decide)
    ⟨by decide, by decide⟩ (by decide) (by decide) ⟨'T', by decide, by decide⟩

lemma signature_stage_ok :
    RepsOK (labelUnderMatchAt ("Signature:").data ("Signature: [SIGNATURE REQUIRED]").data) ∧
    SemiFree (labelUnderMatchAt ("Signature:").data ("Signature: [SIGNATURE REQUIRED]").data) ∧
    HeadRel (labelUnderMatchAt ("Signature:").data ("Signature: [SIGNATURE REQUIRED]").data) :=
  labelUnder_stage_ok _ _ (("Signature").data) (by decide) (by decide) (by decide)
    ⟨by decide, by decide⟩ (by decide) (by decide) ⟨'S', by decide, by decide⟩

/-- Inversion of a successful image match: the replacement is the
literal token and the input decomposes into scheme, nonempty
semicolon-free mime type, the base64 marker, and a nonempty base64
payload followed by the remainder. -/
lemma img_con (u rep rest : Str) (h : imgMatchAt u = some (rep, rest)) :
    rep = ("[IMAGE]").data ∧ ∃ mime payload,
      u = ("data:image/").data ++ (mime ++ (((";base64,").data) ++ (payload ++ rest))) ∧
      mime ≠ [] ∧ (∀ c ∈ mime, ¬(c = ';')) ∧
      payload ≠ [] ∧ (∀ c ∈ payload, b64Char c = true) := by
  have hlen11 : ((("data:image/").data)).length = 11 := by decide
  have hlen8 : ((((";base64,").data))).length = 8 := by decide
  simp only [imgMatchAt] at h
  split_ifs at h with h1 h2 h3 h4
  simp only [Option.some.injEq, Prod.mk.injEq] at h
  obtain ⟨hrep, hrest⟩ := h
  refine ⟨hrep.symm, (u.drop 11).takeWhile (fun c => c ≠ ';'),
    (((u.drop 11).drop ((u.drop 11).takeWhile (fun c => c ≠ ';')).length).drop
      8).takeWhile b64Char, ?_, ?_, ?_, ?_, ?_⟩
  · have h11 : u.take 11 = ("data:image/").data := by
      have := (isLitPrefix_iff_take _ u).mp h1
      rwa [hlen11] at this
    have hb8 : ((u.drop 11).drop ((u.drop 11).takeWhile (fun c => c ≠ ';')).length).take 8 =
        ((";base64,").data) := by
      have := (isLitPrefix_iff_take ((";base64,").data) _).mp h3
      rwa [hlen8] at this
    conv_lhs => rw [← List.take_append_drop 11 u, h11]
    congr 1
    conv_lhs => rw [← List.takeWhile_append_dropWhile (fun c => c ≠ ';') (u.drop 11)]
    congr 1
    rw [dropWhile_eq_drop]
    conv_lhs => rw [← List.take_append_drop 8
      ((u.drop 11).drop ((u.drop 11).takeWhile (fun c => c ≠ ';')).length), hb8]
    congr 1
    conv_lhs => rw [← List.take_append_drop
      (((((u.drop 11).drop ((u.drop 11).takeWhile (fun c => c ≠ ';')).length)).drop
        8).takeWhile b64Char).length
      ((((u.drop 11).drop ((u.drop 11).takeWhile (fun c => c ≠ ';')).length)).drop 8)]
    rw [take_takeWhile b64Char, hrest]
  · intro he
    rw [he] at h2
    simp at h2
  · intro c hc
    have := List.mem_takeWhile_imp hc
    simpa using this
  · intro he
    rw [he] at h4
    simp at h4
  · exact fun c hc => List.mem_takeWhile_imp hc

/-- The same inversion phrased for a consumed region of a well-formed
trace segment. -/
lemma img_con_split (con rest rep : Str) (h : imgMatchAt (con ++ rest) = some (rep, rest)) :
    rep = ("[IMAGE]").data ∧ ∃ mime payload,
      con = ("data:image/").data ++ (mime ++ (((";base64,").data) ++ payload)) ∧
      mime ≠ [] ∧ (∀ c ∈ mime, ¬(c = ';')) ∧
      payload ≠ [] ∧ (∀ c ∈ payload, b64Char c = true) := by
  obtain ⟨hrep, mime, payload, hu, hm1, hm2, hp1, hp2⟩ := img_con _ _ _ h
  refine ⟨hrep, mime, payload, ?_, hm1, hm2, hp1, hp2⟩
  have h2 : con ++ rest =
      (("data:image/").data ++ (mime ++ (((";base64,").data) ++ payload))) ++ rest := by
    rw [hu]
    simp [List.append_assoc]
  exact List.append_cancel_right h2

lemma imgRepsOK : RepsOK imgMatchAt := by
  intro u rep rest h
  obtain ⟨hrep, _⟩ := img_con u rep rest h
  subst hrep
  exact ⟨⟨by decide, by decide⟩, by decide⟩

lemma imgHeadRel : HeadRel imgMatchAt := by
  intro u rep rest h
  obtain ⟨con, hcne, hsplit⟩ := imgMatchAt_splits u rep rest h
  refine ⟨con, hcne, hsplit, ?_⟩
  right
  right
  obtain ⟨hrep, _⟩ := img_con u rep rest h
  subst hrep
  decide

/-- Head transfer through an image trace: a replacement block starts
with the scheme character of its consumed region, so a non-semicolon
head on the render side yields one on the source side. -/
lemma img_mime_corr :
    ∀ tr, SegWF imgMatchAt tr → ∀ hd, (segRender tr).head? = some hd → ¬(hd = ';') →
    ∃ hs, (segSource tr).head? = some hs ∧ ¬(hs = ';') := by
  intro tr
  cases tr with
  | nil =>
    intro hwf hd hhd hns
    simp [segRender] at hhd
  | cons seg tr =>
    cases seg with
    | keep c =>
      intro hwf hd hhd hns
      simp only [segRender, List.head?_cons, Option.some.injEq] at hhd
      exact ⟨c, by simp [segSource], hhd ▸ hns⟩
    | repl con rep =>
      intro hwf hd hhd hns
      obtain ⟨hm, hcon, hwf2⟩ := hwf
      obtain ⟨hrep, mime, payload, hcon2, _⟩ := img_con_split con (segSource tr) rep hm
      refine ⟨'d', ?_, by decide⟩
      simp only [segSource]
      rw [List.head?_append_of_ne_nil _ hcon, hcon2,
        List.head?_append_of_ne_nil _ (by decide : ¬((("data:image/").data) = []))]
      decide

lemma dropWhile_semi_b64 (x : Str) :
    ((((";base64,").data)) ++ x).dropWhile (fun c => c ≠ ';') = (((";base64,").data)) ++ x := by
  rw [show (((";base64,").data)) = ';' :: (("base64,").data) from by decide]
  simp [List.dropWhile_cons]

/-- The semicolon scan through an image trace: either it reaches a kept
semicolon and the two sides align on a well-formed suffix trace, or on
the source side it stops at the base64 marker inside some consumed
image region, exposing a source-side match directly. -/
lemma img_semi :
    ∀ tr, SegWF imgMatchAt tr →
    (∃ tr2, SegWF imgMatchAt tr2 ∧
        segRender tr2 = (segRender tr).dropWhile (fun c => c ≠ ';') ∧
        segSource tr2 = (segSource tr).dropWhile (fun c => c ≠ ';')) ∨
    (∃ payload rest2, (segSource tr).dropWhile (fun c => c ≠ ';') =
        (((";base64,").data)) ++ (payload ++ rest2) ∧
        payload ≠ [] ∧ (∀ c ∈ payload, b64Char c = true)) := by
  intro tr
  induction tr with
  | nil => exact fun _ => Or.inl ⟨[], trivial, rfl, rfl⟩
  | cons seg tr ih =>
    cases seg with
    | keep c =>
      intro hwf
      obtain ⟨hm, hwf2⟩ := hwf
      by_cases hc : c = ';'
      · refine Or.inl ⟨.keep c :: tr, ⟨hm, hwf2⟩, ?_, ?_⟩
        · simp [segRender, List.dropWhile_cons, hc]
        · simp [segSource, List.dropWhile_cons, hc]
      · rcases ih hwf2 with ⟨tr2, hwf3, hr, hs⟩ | ⟨payload, rest2, hs, hp1, hp2⟩
        · refine Or.inl ⟨tr2, hwf3, ?_, ?_⟩
          · rw [hr]
            simp [segRender, List.dropWhile_cons, hc]
          · rw [hs]
            simp [segSource, List.dropWhile_cons, hc]
        · refine Or.inr ⟨payload, rest2, ?_, hp1, hp2⟩
          rw [← hs]
          simp [segSource, List.dropWhile_cons, hc]
    | repl con rep =>
      intro hwf
      obtain ⟨hm, hcon, hwf2⟩ := hwf
      obtain ⟨hrep, mime, payload, hcon2, hm1, hm2, hp1, hp2⟩ :=
        img_con_split con (segSource tr) rep hm
      refine Or.inr ⟨payload, segSource tr, ?_, hp1, hp2⟩
      simp only [segSource]
      rw [hcon2, List.append_assoc, List.append_assoc,
        dropWhile_append_all _ _ _ (by decide :
          ∀ c ∈ (("data:image/").data), (fun c => decide (c ≠ ';')) c = true),
        dropWhile_append_all _ _ _
          (fun c hc => by simpa using hm2 c hc),
        List.append_assoc, dropWhile_semi_b64]

lemma isLitPrefix_self_append (lit x : Str) : isLitPrefix lit (lit ++ x) = true := by
  induction lit with
  | nil => rfl
  | cons c q ih => simp [isLitPrefix, ih]

/-- A match anywhere in the render of an image trace forces a match on
the corresponding source suffix. -/
lemma node_img : ∀ tr, SegWF imgMatchAt tr → ¬(imgMatchAt (segRender tr) = none) →
    ¬(imgMatchAt (segSource tr) = none) := by
  have hlen11 : ((("data:image/").data)).length = 11 := by decide
  have hlen8 : ((((";base64,").data))).length = 8 := by decide
  intro tr hwf hren
  obtain ⟨h11, ⟨hd, hhd, hdns⟩, hb64pre, hpay⟩ := imgMatchAt_ne_none_elim _ hren
  obtain ⟨hs11, tr2, hwf2, hr2, hs2⟩ := lit_eat imgMatchAt imgRepsOK tr _ hwf litOK_img h11
  rw [hlen11] at hr2 hs2
  obtain ⟨hs, hshd, hsns⟩ := img_mime_corr tr2 hwf2 hd (by rw [hr2]; exact hhd) hdns
  rcases img_semi tr2 hwf2 with ⟨tr3, hwf3, hr3, hs3⟩ | ⟨payload, rest2, hsem, hp1, hp2⟩
  · have hb64ren : isLitPrefix ((";base64,").data) (segRender tr3) = true := by
      rw [hr3, hr2]
      exact hb64pre
    obtain ⟨hsb64, tr4, hwf4, hr4, hs4⟩ :=
      lit_eat imgMatchAt imgRepsOK tr3 _ hwf3 litOK_b64 hb64ren
    rw [hlen8] at hr4 hs4
    obtain ⟨hb64, hb64h, hb64p⟩ := hpay
    obtain ⟨hsp, hsph, hspb⟩ := head_b64_corr imgMatchAt imgRepsOK imgHeadRel tr4 hwf4 hb64
      (by rw [hr4, hr3, hr2]; exact hb64h) hb64p
    refine imgMatchAt_ne_none_of (segSource tr) hs11
      ⟨hs, by rw [← hs2]; exact hshd, hsns⟩ ?_ ⟨hsp, ?_, hspb⟩
    · rw [← hs2, ← hs3]
      exact hsb64
    · rw [← hs2, ← hs3, ← hs4]
      exact hsph
  · have hdw : ((segSource tr).drop 11).dropWhile (fun c => c ≠ ';') =
        (((";base64,").data)) ++ (payload ++ rest2) := by
      rw [← hs2]
      exact hsem
    refine imgMatchAt_ne_none_of (segSource tr) hs11
      ⟨hs, by rw [← hs2]; exact hshd, hsns⟩ ?_ ?_
    · rw [hdw]
      exact isLitPrefix_self_append _ _
    · have hdrop : ((((";base64,").data)) ++ (payload ++ rest2)).drop 8 =
          payload ++ rest2 := by
        have h2 := List.drop_left (((";base64,").data)) (payload ++ rest2)
        rwa [hlen8] at h2
      rw [hdw, hdrop]
      cases payload with
      | nil => exact absurd rfl hp1
      | cons p0 pt =>
        exact ⟨p0, by simp, hp2 p0 (by simp)⟩

/-- The image stage clears itself: its own render contains no image
pattern anywhere. -/
theorem img_self_clear : ∀ tr, SegWF imgMatchAt tr → NMAll imgMatchAt (segRender tr) := by
  intro tr
  induction tr with
  | nil =>
    intro hwf i
    simp only [segRender, List.drop_nil]
    decide
  | cons seg tr ih =>
    cases seg with
    | keep c =>
      intro hwf
      obtain ⟨hm, hwf2⟩ := hwf
      show NMAll imgMatchAt (c :: segRender tr)
      rw [NMAll_cons_iff]
      refine ⟨?_, ih hwf2⟩
      by_contra hcon
      have hnode := node_img (.keep c :: tr) ⟨hm, hwf2⟩ (by simpa [segRender] using hcon)
      simp only [segSource] at hnode
      exact hnode hm
    | repl con rep =>
      intro hwf
      obtain ⟨hm, hcne, hwf2⟩ := hwf
      obtain ⟨hrok, hrne⟩ := imgRepsOK _ _ _ hm
      show NMAll imgMatchAt (rep ++ segRender tr)
      rw [NMAll_append_iff]
      refine ⟨?_, ih hwf2⟩
      intro i hi
      apply imgMatchAt_none_of_nolit
      by_contra hcon2
      have hpre : isLitPrefix (("data:image/").data) (rep.drop i ++ segRender tr) = true := by
        revert hcon2
        cases hx : isLitPrefix (("data:image/").data) (rep.drop i ++ segRender tr) <;> simp
      have hrok2 : RepOK (rep.drop i) := by
        obtain ⟨hlast, hchars⟩ := hrok
        exact ⟨by rw [getLast?_drop_lt rep i hi]; exact hlast,
          fun c2 hc2 => hchars c2 (List.mem_of_mem_drop hc2)⟩
      have hne2 : rep.drop i ≠ [] := by
        intro he
        have hlen := congrArg List.length he
        simp [List.length_drop] at hlen
        omega
      have hfalse := lit_not_prefix_rep _ _ (segRender tr) litOK_img hrok2 hne2
      rw [hpre] at hfalse
      simp at hfalse

/-- Every signature rule admits the split, inert-replacement,
semicolon-free and head-class properties. -/
lemma sig_stage_props :
    ∀ m ∈ sigRules, MatcherSplits m ∧ RepsOK m ∧ SemiFree m ∧ HeadRel m := by
  intro m hm
  simp only [sigRules, List.mem_cons, List.not_mem_nil, or_false] at hm
  rcases hm with rfl | rfl | rfl | rfl | rfl | rfl | rfl | rfl
  · exact ⟨labelUnderMatchAt_splits _ _ (by decide),
      date_stage_ok.1, date_stage_ok.2.1, date_stage_ok.2.2⟩
  · exact ⟨labelUnderMatchAt_splits _ _ (by decide),
      name_stage_ok.1, name_stage_ok.2.1, name_stage_ok.2.2⟩
  · exact ⟨labelUnderMatchAt_splits _ _ (by decide),
      title_stage_ok.1, title_stage_ok.2.1, title_stage_ok.2.2⟩
  · exact ⟨labelUnderMatchAt_splits _ _ (by decide),
      signature_stage_ok.1, signature_stage_ok.2.1, signature_stage_ok.2.2⟩
  · exact ⟨commentsMatchAt_splits,
      comments_stage_ok.1, comments_stage_ok.2.1, comments_stage_ok.2.2⟩
  · exact ⟨approvalMatchAt_splits,
      approval_stage_ok.1, approval_stage_ok.2.1, approval_stage_ok.2.2⟩
  · exact ⟨labelRunMatchAt_splits,
      labelRun_stage_ok.1, labelRun_stage_ok.2.1, labelRun_stage_ok.2.2⟩
  · exact ⟨underLineMatchAt_splits,
      underLine_stage_ok.1, underLine_stage_ok.2.1, underLine_stage_ok.2.2⟩

/-- One signature stage preserves absence of the image pattern. -/
lemma stage_step (m : Str → Option (Str × Str)) (hsp : MatcherSplits m)
    (hreps : RepsOK m) (hsem : SemiFree m) (hh : HeadRel m) (v : Str)
    (himg : NMAll imgMatchAt v) :
    NMAll imgMatchAt (replaceGGo m (v.length + 1) v) := by
  obtain ⟨tr, hsrc, hren, hwf⟩ := trace_exists m hsp (v.length + 1) v (by omega)
  rw [← hren]
  exact stage_keeps_img m hreps hsem hh tr hwf (by rw [hsrc]; exact himg)

lemma foldl_keeps_img (ms : List (Str → Option (Str × Str)))
    (hms : ∀ m ∈ ms, MatcherSplits m ∧ RepsOK m ∧ SemiFree m ∧ HeadRel m)
    (v : Str) (himg : NMAll imgMatchAt v) :
    NMAll imgMatchAt (ms.foldl (fun acc m => replaceGGo m (acc.length + 1) acc) v) := by
  induction ms generalizing v with
  | nil => exact himg
  | cons m rest ih =>
    obtain ⟨hsp, hreps, hsem, hh⟩ := hms m (List.mem_cons_self m rest)
    simp only [List.foldl_cons]
    exact ih (fun m2 hm2 => hms m2 (List.mem_cons_of_mem m hm2)) _
      (stage_step m hsp hreps hsem hh v himg)

lemma normalizeSignatureLines_unfold (v : Str) :
    normalizeSignatureLines v =
      replaceGGo underLineMatchAt ((sigR7out v).length + 1) (sigR7out v) := by
  simp only [normalizeSignatureLines, sigRules, sigR7out, sigR16out,
    List.foldl_cons, List.foldl_nil]

/-- The cleanse pipeline output contains no residual match of any rule:
not of the image rule, and not of any signature rule. -/
theorem cleanse_output_nomatch (s : Str) :
    NMAll imgMatchAt (cleanseText s) ∧ ∀ m ∈ sigRules, NMAll m (cleanseText s) := by
  have hct : cleanseText s = replaceGGo underLineMatchAt
      ((sigR7out (removeImgTagsFromText s)).length + 1)
      (sigR7out (removeImgTagsFromText s)) := by
    simp only [cleanseText]
    exact normalizeSignatureLines_unfold _
  obtain ⟨tr7, hs7, hr7, hw7⟩ := trace_exists labelRunMatchAt labelRunMatchAt_splits
    ((sigR16out (removeImgTagsFromText s)).length + 1)
    (sigR16out (removeImgTagsFromText s)) (by omega)
  have h7 : NMAll labelRunMatchAt (sigR7out (removeImgTagsFromText s)) := by
    have hp := (r7_pack tr7 hw7).1
    rw [hr7] at hp
    exact hp
  obtain ⟨tr8, hs8, hr8, hw8⟩ := trace_exists underLineMatchAt underLineMatchAt_splits
    ((sigR7out (removeImgTagsFromText s)).length + 1)
    (sigR7out (removeImgTagsFromText s)) (by omega)
  have h7f : NMAll labelRunMatchAt (cleanseText s) := by
    rw [hct, ← hr8]
    exact (r8_keeps_r7 tr8 hw8).1 (by rw [hs8]; exact h7)
  have h8f : NMAll underLineMatchAt (cleanseText s) := by
    rw [hct, ← hr8]
    exact r8_self_clear tr8 hw8
  have himg : NMAll imgMatchAt (cleanseText s) := by
    obtain ⟨tr0, hs0, hr0, hw0⟩ := trace_exists imgMatchAt imgMatchAt_splits
      (s.length + 1) s (by omega)
    have h0 : NMAll imgMatchAt (removeImgTagsFromText s) := by
      show NMAll imgMatchAt (replaceGGo imgMatchAt (s.length + 1) s)
      rw [← hr0]
      exact img_self_clear tr0 hw0
    exact foldl_keeps_img sigRules sig_stage_props (removeImgTagsFromText s) h0
  refine ⟨himg, ?_⟩
  intro m hm
  simp only [sigRules, List.mem_cons, List.not_mem_nil, or_false] at hm
  rcases hm with rfl | rfl | rfl | rfl | rfl | rfl | rfl | rfl
  · exact fun i => labelUnder_none_of_m7 _ _ (("Date").data)
      (by decide) (by decide) (by decide) _ (h7f i)
  · exact fun i => labelUnder_none_of_m7 _ _ (("Name").data)
      (by decide) (by decide) (by decide) _ (h7f i)
  · exact fun i => labelUnder_none_of_m7 _ _ (("Title").data)
      (by decide) (by decide) (by decide) _ (h7f i)
  · exact fun i => labelUnder_none_of_m7 _ _ (("Signature").data)
      (by decide) (by decide) (by decide) _ (h7f i)
  · exact fun i => comments_none_of_m7 _ (h7f i)
  · exact fun i => approval_none_of_m7 _ (h7f i)
  · exact h7f
  · exact h8f

/-- C6: the Text Cleanser is idempotent.  Applying the cleansing
pipeline (the image-payload replacement followed by the eight
signature-line normalization rewrites, in source order) to its own
output changes nothing: `cleanseText (cleanseText s) = cleanseText s`
for every input string `s`; in particular the `[IMAGE]` tokens and the
normalized placeholder lines it emits are fixed points of every rule. -/
theorem c6_cleanse_idempotent (s : Str) : cleanseText (cleanseText s) = cleanseText s := by
  obtain ⟨h1, h2⟩ := cleanse_output_nomatch s
  have h3 : removeImgTagsFromText (cleanseText s) = cleanseText s :=
    replaceGGo_nomatch _ _ _ h1
  have h4 : normalizeSignatureLines (cleanseText s) = cleanseText s :=
    foldl_replace_nomatch _ _ (fun m hm => h2 m hm)
  show normalizeSignatureLines (removeImgTagsFromText (cleanseText s)) = cleanseText s
  rw [h3, h4]

end Migrator
